import Mathlib

/-!
Shallow embedding of `src/trace.cpp` (EpiContactTrace): temporal contact
tracing over timestamped directed contact events.  The C++ engine indexes
events per node and neighbor (sorted by timestamp) and runs three
recursive, window-narrowing traversals: shortest temporal paths, full
trace enumeration, and network summary (degree and contact chain).

Recursive traversals are modelled with an explicit fuel parameter and
return `none` on fuel exhaustion; termination of the C++ recursion is the
statement that a computable amount of fuel always suffices.
-/

namespace EpiContactTrace

/-- `Contact` struct of trace.cpp: original row id (0-based), the
identifier stored in the bucket, and the timestamp `t`. -/
structure Contact where
  rowid : Nat
  identifier : Nat
  t : Int
deriving DecidableEq

/-- A per-neighbor bucket: the `Contacts` vector of trace.cpp. -/
abbrev Bucket := List Contact

/-- `std::map<int, Contacts>`: association list sorted ascending by key,
mirroring the map's iteration order. -/
abbrev BucketMap := List (Nat × Bucket)

/-- `std::vector<std::map<int, Contacts>>`: one bucket map per node. -/
abbrev Index := List BucketMap

/-- Position returned by `std::lower_bound` with `CompareContact` on a
bucket sorted by `t`: index of the first event with `t ≥ tBegin`
(specified here by the linear scan it is equivalent to on sorted data). -/
def lowerBoundPos (cs : Bucket) (tBegin : Int) : Nat :=
  (cs.takeWhile (fun c => decide (c.t < tBegin))).length

/-- The suffix of the bucket from the lower bound on. -/
def afterLowerBound (cs : Bucket) (tBegin : Int) : Bucket :=
  cs.dropWhile (fun c => decide (c.t < tBegin))

/-- The qualification test of all traversals
(`t_begin != it->second.end() && t_begin->t <= tEnd`): the first event
with `t ≥ tBegin`, provided its timestamp is also `≤ tEnd`. -/
def firstQualifying (cs : Bucket) (tBegin tEnd : Int) : Option Contact :=
  match afterLowerBound cs tBegin with
  | [] => none
  | c :: _ => if c.t ≤ tEnd then some c else none

/-- The qualifying sub-range `[t_begin, t_end)` of a bucket: events from
the lower bound up to the `std::upper_bound` for `tEnd`. -/
def qualSub (cs : Bucket) (tBegin tEnd : Int) : Bucket :=
  (afterLowerBound cs tBegin).takeWhile (fun c => decide (c.t ≤ tEnd))

/-- Window narrowing before descending (same code in `doShortestPaths`,
`doTraceContacts` and `contactChain`): ingoing keeps `tBegin` and caps at
the last qualifying timestamp `(t_end-1)->t`; outgoing keeps `tEnd` and
starts at the first qualifying timestamp `t_begin->t`.  `c` is the first
qualifying event (so `qualSub` is nonempty and the default of `getLastD`
is never used). -/
def narrowWindow (cs : Bucket) (tBegin tEnd : Int) (ingoing : Bool)
    (c : Contact) : Int × Int :=
  if ingoing then (tBegin, ((qualSub cs tBegin tEnd).getLastD c).t)
  else (c.t, tEnd)

/-- Genuine binary search over `[lo, hi)`, the algorithm of
`std::lower_bound` with `CompareContact` (compare `c.t < tBegin`). -/
def lbSearch (cs : Bucket) (tBegin : Int) (lo hi : Nat) : Nat :=
  if h : lo < hi then
    let mid := (lo + hi) / 2
    if (cs.getD mid ⟨0, 0, 0⟩).t < tBegin then lbSearch cs tBegin (mid + 1) hi
    else lbSearch cs tBegin lo mid
  else lo
termination_by hi - lo
decreasing_by
  · omega
  · omega

/-- `std::lower_bound` over a whole bucket, as the binary search. -/
def lowerBoundSearch (cs : Bucket) (tBegin : Int) : Nat :=
  lbSearch cs tBegin 0 cs.length

/-! ### VisitedNodes (network summary visitation state) -/

/-- `class VisitedNodes`: a counter of marked nodes and, per node, a
`(visited, bound)` pair. -/
structure VisitedNodes where
  numberOfVisitedNodes : Nat
  visitedNodes : List (Bool × Int)
deriving DecidableEq

/-- Fresh `VisitedNodes(numberOfIdentifiers)`. -/
def VisitedNodes.init (n : Nat) : VisitedNodes :=
  ⟨0, List.replicate n (false, 0)⟩

/-- `VisitedNodes::N`. -/
def VisitedNodes.N (v : VisitedNodes) : Nat :=
  v.numberOfVisitedNodes

/-- `VisitedNodes::Update`: first marking records the bound (`tEnd` for
ingoing, `tBegin` for outgoing) and increments the counter; a revisit
only moves the bound monotonically (later `tEnd` / earlier `tBegin`). -/
def VisitedNodes.Update (v : VisitedNodes) (node : Nat) (tBegin tEnd : Int)
    (ingoing : Bool) : VisitedNodes :=
  let e := v.visitedNodes.getD node (false, 0)
  if e.1 then
    if ingoing then
      if e.2 < tEnd then
        ⟨v.numberOfVisitedNodes, v.visitedNodes.set node (true, tEnd)⟩
      else v
    else
      if tBegin < e.2 then
        ⟨v.numberOfVisitedNodes, v.visitedNodes.set node (true, tBegin)⟩
      else v
  else
    ⟨v.numberOfVisitedNodes + 1,
     v.visitedNodes.set node (true, if ingoing then tEnd else tBegin)⟩

/-- `VisitedNodes::Visit`: for a marked node, allow the branch only if the
new window strictly extends the recorded bound; unmarked nodes are always
allowed. -/
def VisitedNodes.Visit (v : VisitedNodes) (node : Nat) (tBegin tEnd : Int)
    (ingoing : Bool) : Bool :=
  let e := v.visitedNodes.getD node (false, 0)
  if e.1 then
    if ingoing then decide (e.2 < tEnd)
    else decide (tBegin < e.2)
  else true

/-! ### Shortest paths -/

/-- `std::map<int, std::pair<int,int>>` of `doShortestPaths`:
node ↦ (distance, 1-based rowid), keys kept in ascending order. -/
abbrev ResultMap := List (Nat × (Nat × Nat))

/-- `result.find(key)` on the shortest-path result map. -/
def lookupRM (m : ResultMap) (k : Nat) : Option (Nat × Nat) :=
  (m.find? (fun p => p.1 == k)).map Prod.snd

/-- Insert-or-assign on the result map, keeping keys sorted (std::map). -/
def setRM (m : ResultMap) (k : Nat) (v : Nat × Nat) : ResultMap :=
  match m with
  | [] => [(k, v)]
  | (k', v') :: rest =>
    if k < k' then (k, v) :: (k', v') :: rest
    else if k = k' then (k, v) :: rest
    else (k', v') :: setRM rest k v

/-- Lines 200–214 of trace.cpp: on first discovery store
`(distance, rowid1)`; on rediscovery overwrite only if the new distance
is strictly smaller. `rowid1` is the already 1-based record id. -/
def updateResult (m : ResultMap) (k : Nat) (distance rowid1 : Nat) :
    ResultMap :=
  match lookupRM m k with
  | none => setRM m k (distance, rowid1)
  | some dr => if distance < dr.1 then setRM m k (distance, rowid1) else m

/-- The neighbor-bucket loop of `doShortestPaths`; `recur` is the
recursive call, one fuel level down. -/
def goSP
    (recur : Nat → Int → Int → Finset Nat → Nat → Bool → ResultMap →
      Option ResultMap)
    (buckets : BucketMap) (tBegin tEnd : Int) (visited : Finset Nat)
    (distance : Nat) (ingoing : Bool) (result : ResultMap) :
    Option ResultMap :=
  match buckets with
  | [] => some result
  | (nbr, cs) :: rest =>
    if nbr ∈ visited then
      goSP recur rest tBegin tEnd visited distance ingoing result
    else
      match firstQualifying cs tBegin tEnd with
      | none => goSP recur rest tBegin tEnd visited distance ingoing result
      | some c =>
        let result1 := updateResult result nbr distance (c.rowid + 1)
        let tw := narrowWindow cs tBegin tEnd ingoing c
        match recur nbr tw.1 tw.2 visited (distance + 1) ingoing result1 with
        | none => none
        | some result2 =>
          goSP recur rest tBegin tEnd visited distance ingoing result2

/-- `doShortestPaths` of trace.cpp, with fuel (one unit per call). -/
def doShortestPaths (fuel : Nat) (data : Index) (node : Nat)
    (tBegin tEnd : Int) (visited : Finset Nat) (distance : Nat)
    (ingoing : Bool) (result : ResultMap) : Option ResultMap :=
  match fuel with
  | 0 => none
  | f + 1 =>
    goSP (doShortestPaths f data) (data.getD node []) tBegin tEnd
      (insert node visited) distance ingoing result

/-! ### Trace contacts -/

/-- The depth gate of `doTraceContacts`
(`maxDistance > 0 && distance >= maxDistance`). -/
def reachedMaxDistance (maxDistance : Int) (distance : Nat) : Bool :=
  decide (0 < maxDistance) && decide (maxDistance ≤ (distance : Int))

/-- The neighbor-bucket loop of `doTraceContacts`: records every event of
the qualifying sub-range, then descends unless the depth gate fires.
`recur` is the recursive call, one fuel level down. -/
def goTC
    (recur : Nat → Int → Int → Finset Nat → Nat → Bool → List Nat →
      List Nat → Int → Option (List Nat × List Nat))
    (buckets : BucketMap) (tBegin tEnd : Int) (visited : Finset Nat)
    (distance : Nat) (ingoing : Bool)
    (resultRowid resultDistance : List Nat) (maxDistance : Int) :
    Option (List Nat × List Nat) :=
  match buckets with
  | [] => some (resultRowid, resultDistance)
  | (nbr, cs) :: rest =>
    if nbr ∈ visited then
      goTC recur rest tBegin tEnd visited distance ingoing
        resultRowid resultDistance maxDistance
    else
      match firstQualifying cs tBegin tEnd with
      | none =>
        goTC recur rest tBegin tEnd visited distance ingoing
          resultRowid resultDistance maxDistance
      | some c =>
        let sub := qualSub cs tBegin tEnd
        let rr := resultRowid ++ sub.map (fun x => x.rowid + 1)
        let rd := resultDistance ++ sub.map (fun _ => distance)
        if reachedMaxDistance maxDistance distance then
          goTC recur rest tBegin tEnd visited distance ingoing rr rd
            maxDistance
        else
          let tw := narrowWindow cs tBegin tEnd ingoing c
          match recur nbr tw.1 tw.2 visited (distance + 1) ingoing rr rd
              maxDistance with
          | none => none
          | some rrd =>
            goTC recur rest tBegin tEnd visited distance ingoing
              rrd.1 rrd.2 maxDistance

/-- `doTraceContacts` of trace.cpp, with fuel (one unit per call).
Outputs are the two vectors `resultRowid`, `resultDistance`. -/
def doTraceContacts (fuel : Nat) (data : Index) (node : Nat)
    (tBegin tEnd : Int) (visited : Finset Nat) (distance : Nat)
    (ingoing : Bool) (resultRowid resultDistance : List Nat)
    (maxDistance : Int) : Option (List Nat × List Nat) :=
  match fuel with
  | 0 => none
  | f + 1 =>
    goTC (doTraceContacts f data) (data.getD node []) tBegin tEnd
      (insert node visited) distance ingoing resultRowid resultDistance
      maxDistance

/-! ### Degree and contact chain (network summary) -/

/-- `degree` of trace.cpp: number of neighbor buckets of `node`, self
excluded, holding at least one qualifying event in the window. -/
def degree (data : Index) (node : Nat) (tBegin tEnd : Int) : Nat :=
  ((data.getD node []).filter
    (fun p => (node != p.1) && (firstQualifying p.2 tBegin tEnd).isSome)).length

/-- The neighbor-bucket loop of `contactChain`; `recur` is the recursive
call, one fuel level down. -/
def goCC
    (recur : Nat → Int → Int → VisitedNodes → Bool → Option VisitedNodes)
    (buckets : BucketMap) (tBegin tEnd : Int) (visited : VisitedNodes)
    (ingoing : Bool) : Option VisitedNodes :=
  match buckets with
  | [] => some visited
  | (nbr, cs) :: rest =>
    if visited.Visit nbr tBegin tEnd ingoing then
      match firstQualifying cs tBegin tEnd with
      | none => goCC recur rest tBegin tEnd visited ingoing
      | some c =>
        let tw := narrowWindow cs tBegin tEnd ingoing c
        match recur nbr tw.1 tw.2 visited ingoing with
        | none => none
        | some visited2 => goCC recur rest tBegin tEnd visited2 ingoing
    else goCC recur rest tBegin tEnd visited ingoing

/-- `contactChain` of trace.cpp, with fuel (one unit per call). -/
def contactChain (fuel : Nat) (data : Index) (node : Nat)
    (tBegin tEnd : Int) (visited : VisitedNodes) (ingoing : Bool) :
    Option VisitedNodes :=
  match fuel with
  | 0 => none
  | f + 1 =>
    goCC (contactChain f data) (data.getD node []) tBegin tEnd
      (visited.Update node tBegin tEnd ingoing) ingoing

/-! ### Index construction (`buildContactsLookup`) -/

/-- An input event row: 1-based source and destination ids, timestamp,
and its 0-based position `rowid` in the input. -/
structure Row where
  rowid : Nat
  src : Nat
  dst : Nat
  t : Int
deriving DecidableEq

/-- The order computed by `R_orderVector` on the timestamps: sort by `t`,
ties kept in original row order (stable), expressed as the lexicographic
order on `(t, rowid)` — equivalent since rowids are distinct positions. -/
def rowLE (a b : Row) : Prop :=
  a.t < b.t ∨ (a.t = b.t ∧ a.rowid ≤ b.rowid)

instance : DecidableRel rowLE := fun a b => by
  unfold rowLE; infer_instance

instance : IsTotal Row rowLE where
  total a b := by
    rcases lt_trichotomy a.t b.t with h | h | h
    · exact Or.inl (Or.inl h)
    · rcases Nat.le_total a.rowid b.rowid with h' | h'
      · exact Or.inl (Or.inr ⟨h, h'⟩)
      · exact Or.inr (Or.inr ⟨h.symm, h'⟩)
    · exact Or.inr (Or.inl h)

instance : IsTrans Row rowLE where
  trans a b c hab hbc := by
    rcases hab with h1 | ⟨h1, h1'⟩ <;> rcases hbc with h2 | ⟨h2, h2'⟩
    · exact Or.inl (h1.trans h2)
    · exact Or.inl (h2 ▸ h1)
    · exact Or.inl (h1 ▸ h2)
    · exact Or.inr ⟨h1.trans h2, h1'.trans h2'⟩

/-- Attach 0-based rowids to the raw `(src, dst, t)` input rows. -/
def indexRows (events : List (Nat × Nat × Int)) : List Row :=
  events.enum.map (fun p => ⟨p.1, p.2.1, p.2.2.1, p.2.2.2⟩)

/-- `map[key].push_back(c)` on a key-sorted association list. -/
def addContact (m : BucketMap) (key : Nat) (c : Contact) : BucketMap :=
  match m with
  | [] => [(key, [c])]
  | (k, cs) :: rest =>
    if key < k then (key, [c]) :: (k, cs) :: rest
    else if key = k then (k, cs ++ [c]) :: rest
    else (k, cs) :: addContact rest key c

/-- Push one contact into the bucket map of `node` (no-op when `node` is
out of range, which the C++ callers never do). -/
def pushContact (idx : Index) (node key : Nat) (c : Contact) : Index :=
  idx.set node (addContact (idx.getD node []) key c)

/-- One iteration of the `buildContactsLookup` loop: append the row to
`ingoing[dst][src]` and `outgoing[src][dst]` with 0-based identifiers. -/
def buildStep (p : Index × Index) (r : Row) : Index × Index :=
  (pushContact p.1 (r.dst - 1) (r.src - 1) ⟨r.rowid, r.src - 1, r.t⟩,
   pushContact p.2 (r.src - 1) (r.dst - 1) ⟨r.rowid, r.dst - 1, r.t⟩)

/-- `buildContactsLookup` of trace.cpp: process the rows in stable
timestamp order and append each to both directional indexes.  Returns
`(ingoing, outgoing)`. -/
def buildContactsLookup (n : Nat) (events : List (Nat × Nat × Int)) :
    Index × Index :=
  (List.insertionSort rowLE (indexRows events)).foldl buildStep
    (List.replicate n [], List.replicate n [])

/-! ### Top-level analyses (one batch, one loop over query roots) -/

/-- One query: 1-based root id and the two direction windows. -/
structure Query where
  root : Nat
  inBegin : Int
  inEnd : Int
  outBegin : Int
  outEnd : Int
deriving DecidableEq

/-- Output columns of `shortestPaths`. -/
structure SPOut where
  inDistance : List Nat
  inRowid : List Nat
  inIndex : List Nat
  outDistance : List Nat
  outRowid : List Nat
  outIndex : List Nat
deriving DecidableEq

/-- The per-root loop of `shortestPaths`; `qi` is the 0-based query
index (the index column stores `qi + 1`). -/
def shortestPathsRun (fuel : Nat) (ingoing outgoing : Index)
    (queries : List Query) (qi : Nat) (acc : SPOut) : Option SPOut :=
  match queries with
  | [] => some acc
  | q :: rest =>
    match doShortestPaths fuel ingoing (q.root - 1) q.inBegin q.inEnd ∅ 1
        true [] with
    | none => none
    | some inMap =>
      match doShortestPaths fuel outgoing (q.root - 1) q.outBegin q.outEnd ∅ 1
          false [] with
      | none => none
      | some outMap =>
        shortestPathsRun fuel ingoing outgoing rest (qi + 1)
          ⟨acc.inDistance ++ inMap.map (fun p => p.2.1),
           acc.inRowid ++ inMap.map (fun p => p.2.2),
           acc.inIndex ++ inMap.map (fun _ => qi + 1),
           acc.outDistance ++ outMap.map (fun p => p.2.1),
           acc.outRowid ++ outMap.map (fun p => p.2.2),
           acc.outIndex ++ outMap.map (fun _ => qi + 1)⟩

/-- `shortestPaths` entry point (marshalling stripped). -/
def shortestPaths (fuel n : Nat) (events : List (Nat × Nat × Int))
    (queries : List Query) : Option SPOut :=
  let p := buildContactsLookup n events
  shortestPathsRun fuel p.1 p.2 queries 0 ⟨[], [], [], [], [], []⟩

/-- The per-root loop of `traceContacts`: per root, the four vectors
(ingoing rowids, ingoing distances, outgoing rowids, outgoing
distances). -/
def traceContactsRun (fuel : Nat) (ingoing outgoing : Index)
    (maxDistance : Int) (queries : List Query) :
    Option (List (List Nat × List Nat × List Nat × List Nat)) :=
  match queries with
  | [] => some []
  | q :: rest =>
    match doTraceContacts fuel ingoing (q.root - 1) q.inBegin q.inEnd ∅ 1
        true [] [] maxDistance with
    | none => none
    | some inRes =>
      match doTraceContacts fuel outgoing (q.root - 1) q.outBegin q.outEnd ∅ 1
          false [] [] maxDistance with
      | none => none
      | some outRes =>
        match traceContactsRun fuel ingoing outgoing maxDistance rest with
        | none => none
        | some tail => some ((inRes.1, inRes.2, outRes.1, outRes.2) :: tail)

/-- `traceContacts` entry point (marshalling stripped). -/
def traceContacts (fuel n : Nat) (events : List (Nat × Nat × Int))
    (maxDistance : Int) (queries : List Query) :
    Option (List (List Nat × List Nat × List Nat × List Nat)) :=
  let p := buildContactsLookup n events
  traceContactsRun fuel p.1 p.2 maxDistance queries

/-- Output columns of `networkSummary`. -/
structure NSOut where
  inDegree : List Nat
  outDegree : List Nat
  ingoingContactChain : List Nat
  outgoingContactChain : List Nat
deriving DecidableEq

/-- The per-root loop of `networkSummary`: chain sizes are
`VisitedNodes::N() - 1`. -/
def networkSummaryRun (fuel n : Nat) (ingoing outgoing : Index)
    (queries : List Query) (acc : NSOut) : Option NSOut :=
  match queries with
  | [] => some acc
  | q :: rest =>
    match contactChain fuel ingoing (q.root - 1) q.inBegin q.inEnd
        (VisitedNodes.init n) true with
    | none => none
    | some vin =>
      match contactChain fuel outgoing (q.root - 1) q.outBegin q.outEnd
          (VisitedNodes.init n) false with
      | none => none
      | some vout =>
        networkSummaryRun fuel n ingoing outgoing rest
          ⟨acc.inDegree ++ [degree ingoing (q.root - 1) q.inBegin q.inEnd],
           acc.outDegree ++ [degree outgoing (q.root - 1) q.outBegin q.outEnd],
           acc.ingoingContactChain ++ [vin.N - 1],
           acc.outgoingContactChain ++ [vout.N - 1]⟩

/-- `networkSummary` entry point (marshalling stripped). -/
def networkSummary (fuel n : Nat) (events : List (Nat × Nat × Int))
    (queries : List Query) : Option NSOut :=
  let p := buildContactsLookup n events
  networkSummaryRun fuel n p.1 p.2 queries ⟨[], [], [], []⟩

/-! ### Basic lemmas on the result map -/

theorem lookupRM_setRM (m : ResultMap) (k : Nat) (v : Nat × Nat) :
    lookupRM (setRM m k v) k = some v := by
  induction m with
  | nil => simp [setRM, lookupRM]
  | cons p rest ih =>
    obtain ⟨k', v'⟩ := p
    simp only [setRM]
    split_ifs with h1 h2
    · simp [lookupRM]
    · simp [lookupRM]
    · have hne : (k' == k) = false := by
        simp only [beq_eq_false_iff_ne]; omega
      simp only [lookupRM, List.find?] at ih ⊢
      rw [hne]
      exact ih

/-- C1. In `doShortestPaths`, the stored pair for a node is created on
first discovery as `(distance, 1-based rowid of the first qualifying
event)`, and on rediscovery it is overwritten exactly when the new
distance is strictly smaller; on an equal distance the stored pair is
kept unchanged. -/
theorem shortestPaths_update_policy (m : ResultMap) (k : Nat)
    (d r : Nat) :
    lookupRM (updateResult m k d r) k =
      some (match lookupRM m k with
            | none => (d, r)
            | some dr => if d < dr.1 then (d, r) else dr) := by
  unfold updateResult
  cases h : lookupRM m k with
  | none => simp [lookupRM_setRM]
  | some dr =>
    by_cases hd : d < dr.1
    · simp [hd, lookupRM_setRM]
    · simp [hd, h]

/-! ### Lemmas about the qualifying sub-range and window narrowing -/

/-- A bucket sorted non-decreasing by timestamp. -/
def SortedByT (cs : Bucket) : Prop :=
  cs.Pairwise (fun a b => a.t ≤ b.t)

theorem afterLowerBound_head_ge (cs : Bucket) (tB : Int) (c : Contact)
    (tail : Bucket) (h : afterLowerBound cs tB = c :: tail) : tB ≤ c.t := by
  have hh := List.head?_dropWhile_not (fun x => decide (x.t < tB)) cs
  unfold afterLowerBound at h
  rw [h] at hh
  simp only [List.head?_cons, decide_eq_false_iff_not, not_lt] at hh
  exact hh

theorem firstQualifying_spec (cs : Bucket) (tB tE : Int) (c : Contact)
    (h : firstQualifying cs tB tE = some c) :
    tB ≤ c.t ∧ c.t ≤ tE ∧ ∃ tail, afterLowerBound cs tB = c :: tail := by
  unfold firstQualifying at h
  cases hd : afterLowerBound cs tB with
  | nil => rw [hd] at h; exact absurd h (by simp)
  | cons x tail =>
    rw [hd] at h
    by_cases hx : x.t ≤ tE
    · simp only [hx, if_pos, Option.some.injEq] at h
      subst h
      exact ⟨afterLowerBound_head_ge _ _ _ _ hd, hx, tail, rfl⟩
    · simp [hx] at h

theorem afterLowerBound_sorted (cs : Bucket) (tB : Int)
    (hs : SortedByT cs) : SortedByT (afterLowerBound cs tB) :=
  List.Pairwise.sublist (List.dropWhile_sublist _) hs

theorem afterLowerBound_mem_ge (cs : Bucket) (tB : Int)
    (hs : SortedByT cs) (x : Contact) (hx : x ∈ afterLowerBound cs tB) :
    tB ≤ x.t := by
  cases hd : afterLowerBound cs tB with
  | nil => rw [hd] at hx; exact absurd hx (by simp)
  | cons c tail =>
    rw [hd] at hx
    have hc : tB ≤ c.t := afterLowerBound_head_ge _ _ _ _ hd
    have hsr : SortedByT (c :: tail) := hd ▸ afterLowerBound_sorted cs tB hs
    rcases List.mem_cons.mp hx with rfl | hmem
    · exact hc
    · exact hc.trans (List.rel_of_pairwise_cons hsr hmem)

theorem qualSub_mem_bounds (cs : Bucket) (tB tE : Int)
    (hs : SortedByT cs) (x : Contact) (hx : x ∈ qualSub cs tB tE) :
    tB ≤ x.t ∧ x.t ≤ tE := by
  constructor
  · exact afterLowerBound_mem_ge cs tB hs x
      (List.Sublist.mem hx (List.takeWhile_sublist _))
  · simpa using List.mem_takeWhile_imp hx

theorem qualSub_eq_cons (cs : Bucket) (tB tE : Int) (c : Contact)
    (h : firstQualifying cs tB tE = some c) :
    qualSub cs tB tE = c :: (afterLowerBound cs tB).tail.takeWhile
      (fun x => decide (x.t ≤ tE)) := by
  obtain ⟨_, hle, tail, htl⟩ := firstQualifying_spec cs tB tE c h
  unfold qualSub
  rw [htl]
  simp [List.takeWhile_cons, hle]

/-- On a sorted bucket, filtering `t ≤ tEnd` is the same as the prefix
up to the upper bound. -/
theorem filter_le_eq_takeWhile (cs : Bucket) (tE : Int)
    (hs : SortedByT cs) :
    cs.filter (fun x => decide (x.t ≤ tE)) =
      cs.takeWhile (fun x => decide (x.t ≤ tE)) := by
  induction cs with
  | nil => rfl
  | cons x xs ih =>
    rcases List.pairwise_cons.mp hs with ⟨hx, hxs⟩
    by_cases hxt : x.t ≤ tE
    · simp [List.filter_cons, List.takeWhile_cons, hxt, ih hxs]
    · have hfx : (decide (x.t ≤ tE)) = false := by simp [hxt]
      rw [List.filter_cons, List.takeWhile_cons, hfx]
      simp only [Bool.false_eq_true, if_false]
      apply List.filter_eq_nil_iff.mpr
      intro a ha
      have := hx a ha
      simp only [decide_eq_true_eq]
      omega

/-- On a sorted bucket with a qualifying event, the filter of all events
with `t ≤ tEnd` is the lower-bound prefix followed by the qualifying
sub-range. -/
theorem filter_le_decomp (cs : Bucket) (tB tE : Int) (c : Contact)
    (hs : SortedByT cs) (h : firstQualifying cs tB tE = some c) :
    cs.filter (fun x => decide (x.t ≤ tE)) =
      cs.takeWhile (fun x => decide (x.t < tB)) ++ qualSub cs tB tE := by
  obtain ⟨hge, hle, tail, htl⟩ := firstQualifying_spec cs tB tE c h
  have hsplit := List.takeWhile_append_dropWhile
    (fun x : Contact => decide (x.t < tB)) cs
  conv_lhs => rw [← hsplit]
  rw [List.filter_append]
  congr 1
  · apply List.filter_eq_self.mpr
    intro a ha
    have := List.mem_takeWhile_imp ha
    simp only [decide_eq_true_eq] at this ⊢
    omega
  · have hsafter : SortedByT (afterLowerBound cs tB) :=
      afterLowerBound_sorted cs tB hs
    exact filter_le_eq_takeWhile _ tE hsafter

/-- C5. Window narrowing for every recursive descent: ingoing keeps
`tBegin` and the new end is the timestamp of the last bucket event with
`t ≤ tEnd`; outgoing keeps `tEnd` and the new begin is the timestamp of
the first bucket event with `t ≥ tBegin`; in both directions the child
window is contained in the parent window (and is a proper interval). -/
theorem window_narrowing_spec (cs : Bucket) (tB tE : Int) (ingoing : Bool)
    (c : Contact) (hs : SortedByT cs)
    (h : firstQualifying cs tB tE = some c) :
    tB ≤ (narrowWindow cs tB tE ingoing c).1 ∧
    (narrowWindow cs tB tE ingoing c).2 ≤ tE ∧
    (narrowWindow cs tB tE ingoing c).1 ≤ (narrowWindow cs tB tE ingoing c).2 ∧
    (ingoing = true → narrowWindow cs tB tE ingoing c =
      (tB, ((cs.filter (fun x => decide (x.t ≤ tE))).getLastD c).t)) ∧
    (ingoing = false → narrowWindow cs tB tE ingoing c = (c.t, tE)) ∧
    (cs.filter (fun x => decide (tB ≤ x.t))).head? = some c := by
  obtain ⟨hge, hle, tail, htl⟩ := firstQualifying_spec cs tB tE c h
  have hcons := qualSub_eq_cons cs tB tE c h
  have hne : qualSub cs tB tE ≠ [] := by rw [hcons]; simp
  have hlast_mem : (qualSub cs tB tE).getLastD c ∈ qualSub cs tB tE := by
    rw [List.getLastD_eq_getLast?, List.getLast?_eq_getLast _ hne]
    simp only [Option.getD_some]
    exact List.getLast_mem hne
  have hlast_bounds := qualSub_mem_bounds cs tB tE hs _ hlast_mem
  have hhead : (cs.filter (fun x => decide (tB ≤ x.t))).head? = some c := by
    have hsplit := List.takeWhile_append_dropWhile
      (fun x : Contact => decide (x.t < tB)) cs
    conv_lhs => rw [← hsplit]
    rw [List.filter_append]
    have h1 : (cs.takeWhile (fun x => decide (x.t < tB))).filter
        (fun x => decide (tB ≤ x.t)) = [] := by
      apply List.filter_eq_nil_iff.mpr
      intro a ha
      have := List.mem_takeWhile_imp ha
      simp only [decide_eq_true_eq] at this ⊢
      omega
    have h2 : (cs.dropWhile (fun x => decide (x.t < tB))).filter
        (fun x => decide (tB ≤ x.t)) = afterLowerBound cs tB := by
      apply List.filter_eq_self.mpr
      intro a ha
      simpa using afterLowerBound_mem_ge cs tB hs a ha
    rw [h1, h2, htl]
    simp
  cases ingoing with
  | false =>
    have hnw : narrowWindow cs tB tE false c = (c.t, tE) := by
      simp [narrowWindow]
    refine ⟨?_, ?_, ?_, ?_, ?_, hhead⟩
    · rw [hnw]; exact hge
    · rw [hnw]
    · rw [hnw]; exact hle
    · intro hco; exact absurd hco (by simp)
    · intro _; exact hnw
  | true =>
    have hfilter := filter_le_decomp cs tB tE c hs h
    have hget : (cs.filter (fun x => decide (x.t ≤ tE))).getLastD c =
        (qualSub cs tB tE).getLastD c := by
      rw [hfilter, List.getLastD_eq_getLast?, List.getLastD_eq_getLast?,
        List.getLast?_append]
      rw [List.getLast?_eq_getLast _ hne]
      simp
    have hnw : narrowWindow cs tB tE true c =
        (tB, ((qualSub cs tB tE).getLastD c).t) := by
      simp [narrowWindow]
    refine ⟨?_, ?_, ?_, ?_, ?_, hhead⟩
    · rw [hnw]
    · rw [hnw]; exact hlast_bounds.2
    · rw [hnw]; exact hlast_bounds.1
    · intro _; rw [hnw, hget]
    · intro hco; exact absurd hco (by simp)

/-- Witness for `window_narrowing_spec` at a concrete sorted bucket:
bucket timestamps `[1, 5, 9]`, window `[2, 7]`, ingoing. -/
theorem window_narrowing_spec_witness :
    2 ≤ (narrowWindow [⟨0, 0, 1⟩, ⟨1, 0, 5⟩, ⟨2, 0, 9⟩] 2 7 true ⟨1, 0, 5⟩).1 ∧
    (narrowWindow [⟨0, 0, 1⟩, ⟨1, 0, 5⟩, ⟨2, 0, 9⟩] 2 7 true ⟨1, 0, 5⟩).2 ≤ 7 :=
  ⟨(window_narrowing_spec [⟨0, 0, 1⟩, ⟨1, 0, 5⟩, ⟨2, 0, 9⟩] 2 7 true ⟨1, 0, 5⟩
      (by unfold SortedByT; decide) (by decide)).1,
   (window_narrowing_spec [⟨0, 0, 1⟩, ⟨1, 0, 5⟩, ⟨2, 0, 9⟩] 2 7 true ⟨1, 0, 5⟩
      (by unfold SortedByT; decide) (by decide)).2.1⟩

/-! ### Binary search agrees with the linear scan on sorted buckets -/

theorem lowerBoundPos_le_length (cs : Bucket) (tB : Int) :
    lowerBoundPos cs tB ≤ cs.length :=
  List.Sublist.length_le (List.takeWhile_sublist _)

theorem lt_lowerBoundPos_iff (cs : Bucket) (tB : Int) (hs : SortedByT cs) :
    ∀ i, i < cs.length →
      (i < lowerBoundPos cs tB ↔ (cs.getD i ⟨0, 0, 0⟩).t < tB) := by
  induction cs with
  | nil => intro i hi; exact absurd hi (by simp)
  | cons x xs ih =>
    rcases List.pairwise_cons.mp hs with ⟨hx, hxs⟩
    intro i hi
    cases i with
    | zero =>
      by_cases hxt : x.t < tB
      · simp [lowerBoundPos, List.takeWhile_cons, hxt]
      · simp [lowerBoundPos, List.takeWhile_cons, hxt]
    | succ j =>
      have hj : j < xs.length := by simpa using hi
      by_cases hxt : x.t < tB
      · have : lowerBoundPos (x :: xs) tB = lowerBoundPos xs tB + 1 := by
          simp [lowerBoundPos, List.takeWhile_cons, hxt]
        rw [this]
        simpa [Nat.succ_lt_succ_iff] using ih hxs j hj
      · have h0 : lowerBoundPos (x :: xs) tB = 0 := by
          simp [lowerBoundPos, List.takeWhile_cons, hxt]
        rw [h0]
        simp only [Nat.not_lt_zero, false_iff, not_lt]
        have hmem : xs.getD j ⟨0, 0, 0⟩ ∈ xs := by
          rw [List.getD_eq_getElem?_getD, List.getElem?_eq_getElem hj]
          exact List.getElem_mem hj
        have := hx _ hmem
        simp only [List.getD_cons_succ]
        omega

theorem lbSearch_eq_aux (cs : Bucket) (tB : Int) (hs : SortedByT cs) :
    ∀ k lo hi, hi - lo ≤ k → hi ≤ cs.length →
      lo ≤ lowerBoundPos cs tB → lowerBoundPos cs tB ≤ hi →
      lbSearch cs tB lo hi = lowerBoundPos cs tB := by
  intro k
  induction k with
  | zero =>
    intro lo hi h1 h2 h3 h4
    rw [lbSearch, dif_neg (by omega)]
    omega
  | succ k ih =>
    intro lo hi h1 h2 h3 h4
    rw [lbSearch]
    by_cases hlt : lo < hi
    · rw [dif_pos hlt]
      by_cases hc : (cs.getD ((lo + hi) / 2) ⟨0, 0, 0⟩).t < tB
      · rw [if_pos hc]
        have hmidlt : (lo + hi) / 2 < lowerBoundPos cs tB :=
          (lt_lowerBoundPos_iff cs tB hs _ (by omega)).mpr hc
        exact ih ((lo + hi) / 2 + 1) hi (by omega) h2 (by omega) h4
      · rw [if_neg hc]
        have hmidge : ¬((lo + hi) / 2 < lowerBoundPos cs tB) := fun hcon =>
          hc ((lt_lowerBoundPos_iff cs tB hs _ (by omega)).mp hcon)
        exact ih lo ((lo + hi) / 2) (by omega) (by omega) h3 (by omega)
    · rw [dif_neg hlt]
      omega

theorem lowerBoundSearch_eq_pos (cs : Bucket) (tB : Int)
    (hs : SortedByT cs) : lowerBoundSearch cs tB = lowerBoundPos cs tB :=
  lbSearch_eq_aux cs tB hs cs.length 0 cs.length (by omega) le_rfl
    (Nat.zero_le _) (lowerBoundPos_le_length cs tB)

/-! ### Buckets of the built index are sorted by timestamp -/

/-- Every bucket of the index holds a timestamp-sorted event sequence. -/
def IdxSorted (idx : Index) : Prop :=
  ∀ bm ∈ idx, ∀ q ∈ bm, SortedByT q.2

/-- Every contact currently stored is at most `t`. -/
def IdxAtMost (idx : Index) (t : Int) : Prop :=
  ∀ bm ∈ idx, ∀ q ∈ bm, ∀ x ∈ q.2, x.t ≤ t

theorem addContact_mem (m : BucketMap) (key : Nat) (c : Contact) :
    ∀ q ∈ addContact m key c, ∀ x ∈ q.2, (∃ q' ∈ m, x ∈ q'.2) ∨ x = c := by
  induction m with
  | nil =>
    intro q hq x hx
    simp only [addContact, List.mem_singleton] at hq
    subst hq
    simp only [List.mem_singleton] at hx
    exact Or.inr hx
  | cons p rest ih =>
    obtain ⟨k, cs⟩ := p
    intro q hq x hx
    simp only [addContact] at hq
    split_ifs at hq with h1 h2
    · rcases List.mem_cons.mp hq with rfl | hq'
      · simp only [List.mem_singleton] at hx
        exact Or.inr hx
      · exact Or.inl ⟨q, hq', hx⟩
    · rcases List.mem_cons.mp hq with rfl | hq'
      · rcases List.mem_append.mp hx with hx' | hx'
        · exact Or.inl ⟨(k, cs), List.mem_cons_self _ _, hx'⟩
        · simp only [List.mem_singleton] at hx'
          exact Or.inr hx'
      · exact Or.inl ⟨q, List.mem_cons_of_mem _ hq', hx⟩
    · rcases List.mem_cons.mp hq with rfl | hq'
      · exact Or.inl ⟨(k, cs), List.mem_cons_self _ _, hx⟩
      · rcases ih q hq' x hx with ⟨q', hq'', hx'⟩ | hx'
        · exact Or.inl ⟨q', List.mem_cons_of_mem _ hq'', hx'⟩
        · exact Or.inr hx'

theorem addContact_sorted (m : BucketMap) (key : Nat) (c : Contact)
    (hm : ∀ q ∈ m, SortedByT q.2)
    (hub : ∀ q ∈ m, ∀ x ∈ q.2, x.t ≤ c.t) :
    ∀ q ∈ addContact m key c, SortedByT q.2 := by
  induction m with
  | nil =>
    intro q hq
    simp only [addContact, List.mem_singleton] at hq
    subst hq
    exact List.pairwise_singleton _ _
  | cons p rest ih =>
    obtain ⟨k, cs⟩ := p
    intro q hq
    simp only [addContact] at hq
    split_ifs at hq with h1 h2
    · rcases List.mem_cons.mp hq with rfl | hq'
      · exact List.pairwise_singleton _ _
      · exact hm q hq'
    · rcases List.mem_cons.mp hq with rfl | hq'
      · refine List.pairwise_append.mpr
          ⟨hm (k, cs) (List.mem_cons_self _ _), List.pairwise_singleton _ _, ?_⟩
        intro x hx y hy
        simp only [List.mem_singleton] at hy
        subst hy
        exact hub (k, cs) (List.mem_cons_self _ _) x hx
      · exact hm q (List.mem_cons_of_mem _ hq')
    · rcases List.mem_cons.mp hq with rfl | hq'
      · exact hm (k, cs) (List.mem_cons_self _ _)
      · exact ih (fun q' h => hm q' (List.mem_cons_of_mem _ h))
          (fun q' h => hub q' (List.mem_cons_of_mem _ h)) q hq'

theorem getD_mem_of_ne_nil (idx : Index) (node : Nat)
    (h : idx.getD node [] ≠ []) : idx.getD node [] ∈ idx := by
  rcases Nat.lt_or_ge node idx.length with hn | hn
  · rw [List.getD_eq_getElem?_getD, List.getElem?_eq_getElem hn]
    exact List.getElem_mem hn
  · exfalso
    apply h
    rw [List.getD_eq_getElem?_getD, List.getElem?_eq_none (by omega)]
    rfl

theorem pushContact_mem (idx : Index) (node key : Nat) (c : Contact) :
    ∀ bm ∈ pushContact idx node key c, ∀ q ∈ bm, ∀ x ∈ q.2,
      (∃ bm' ∈ idx, ∃ q' ∈ bm', x ∈ q'.2) ∨ x = c := by
  intro bm hbm q hq x hx
  rcases List.mem_or_eq_of_mem_set hbm with hbm' | rfl
  · exact Or.inl ⟨bm, hbm', q, hq, hx⟩
  · rcases addContact_mem _ key c q hq x hx with ⟨q', hq', hx'⟩ | hx'
    · have hne : idx.getD node [] ≠ [] := by
        intro hcon
        rw [hcon] at hq'
        exact absurd hq' (by simp)
      exact Or.inl ⟨idx.getD node [], getD_mem_of_ne_nil idx node hne,
        q', hq', hx'⟩
    · exact Or.inr hx'

theorem pushContact_sorted (idx : Index) (node key : Nat) (c : Contact)
    (hm : IdxSorted idx) (hub : IdxAtMost idx c.t) :
    IdxSorted (pushContact idx node key c) := by
  intro bm hbm q hq
  rcases List.mem_or_eq_of_mem_set hbm with hbm' | rfl
  · exact hm bm hbm' q hq
  · refine addContact_sorted _ key c ?_ ?_ q hq
    · intro q' hq'
      have hne : idx.getD node [] ≠ [] := by
        intro hcon
        rw [hcon] at hq'
        exact absurd hq' (by simp)
      exact hm _ (getD_mem_of_ne_nil idx node hne) q' hq'
    · intro q' hq' x hx
      have hne : idx.getD node [] ≠ [] := by
        intro hcon
        rw [hcon] at hq'
        exact absurd hq' (by simp)
      exact hub _ (getD_mem_of_ne_nil idx node hne) q' hq' x hx

theorem build_fold_sorted :
    ∀ (rs : List Row) (p : Index × Index),
      rs.Pairwise rowLE →
      IdxSorted p.1 → IdxSorted p.2 →
      (∀ r ∈ rs, IdxAtMost p.1 r.t) →
      (∀ r ∈ rs, IdxAtMost p.2 r.t) →
      IdxSorted (rs.foldl buildStep p).1 ∧ IdxSorted (rs.foldl buildStep p).2 := by
  intro rs
  induction rs with
  | nil => intro p _ h1 h2 _ _; exact ⟨h1, h2⟩
  | cons r rest ih =>
    intro p hp h1 h2 hub1 hub2
    rcases List.pairwise_cons.mp hp with ⟨hr, hrest⟩
    simp only [List.foldl_cons]
    have hstep1 : IdxSorted (buildStep p r).1 :=
      pushContact_sorted _ _ _ _ h1 (hub1 r (List.mem_cons_self _ _))
    have hstep2 : IdxSorted (buildStep p r).2 :=
      pushContact_sorted _ _ _ _ h2 (hub2 r (List.mem_cons_self _ _))
    have hub1' : ∀ r' ∈ rest, IdxAtMost (buildStep p r).1 r'.t := by
      intro r' hr' bm hbm q hq x hx
      rcases pushContact_mem _ _ _ _ bm hbm q hq x hx with
        ⟨bm', hbm', q', hq', hx'⟩ | rfl
      · exact hub1 r' (List.mem_cons_of_mem _ hr') bm' hbm' q' hq' x hx'
      · rcases hr r' hr' with ht | ⟨ht, _⟩
        · exact le_of_lt ht
        · exact le_of_eq ht
    have hub2' : ∀ r' ∈ rest, IdxAtMost (buildStep p r).2 r'.t := by
      intro r' hr' bm hbm q hq x hx
      rcases pushContact_mem _ _ _ _ bm hbm q hq x hx with
        ⟨bm', hbm', q', hq', hx'⟩ | rfl
      · exact hub2 r' (List.mem_cons_of_mem _ hr') bm' hbm' q' hq' x hx'
      · rcases hr r' hr' with ht | ⟨ht, _⟩
        · exact le_of_lt ht
        · exact le_of_eq ht
    exact ih (buildStep p r) hrest hstep1 hstep2 hub1' hub2'

/-- C8. After `buildContactsLookup`, every neighbor bucket in both the
ingoing and outgoing indexes is non-decreasing in timestamp, and on any
such sorted bucket the `std::lower_bound` binary search for any `tBegin`
returns the same position as the linear scan for the first event with
timestamp `≥ tBegin`.  (Immutability after construction is inherent in
the functional embedding: the indexes are values.) -/
theorem index_sorted_and_search (n : Nat) (events : List (Nat × Nat × Int)) :
    IdxSorted (buildContactsLookup n events).1 ∧
    IdxSorted (buildContactsLookup n events).2 ∧
    (∀ (cs : Bucket), SortedByT cs → ∀ tB : Int,
      lowerBoundSearch cs tB = lowerBoundPos cs tB) := by
  have hsorted : (List.insertionSort rowLE (indexRows events)).Pairwise rowLE :=
    List.sorted_insertionSort rowLE (indexRows events)
  have hinit1 : IdxSorted (List.replicate n ([] : BucketMap)) := by
    intro bm hbm q hq
    rw [List.eq_of_mem_replicate hbm] at hq
    exact absurd hq (by simp)
  have hinit2 : IdxSorted (List.replicate n ([] : BucketMap)) := hinit1
  have hub : ∀ r ∈ List.insertionSort rowLE (indexRows events),
      IdxAtMost (List.replicate n ([] : BucketMap)) r.t := by
    intro r _ bm hbm q hq
    rw [List.eq_of_mem_replicate hbm] at hq
    exact absurd hq (by simp)
  have h := build_fold_sorted (List.insertionSort rowLE (indexRows events))
    (List.replicate n [], List.replicate n []) hsorted hinit1 hinit2 hub hub
  exact ⟨h.1, h.2, fun cs hs tB => lowerBoundSearch_eq_pos cs tB hs⟩

/-- Witness for `index_sorted_and_search` on a concrete two-event input
(out of timestamp order, so the sort matters). -/
theorem index_sorted_and_search_witness :
    SortedByT [] ∧
    lowerBoundSearch [] 0 = lowerBoundPos [] 0 ∧
    IdxSorted (buildContactsLookup 2 [(1, 2, 9), (2, 1, 3)]).1 :=
  ⟨by unfold SortedByT; decide,
   (index_sorted_and_search 2 [(1, 2, 9), (2, 1, 3)]).2.2 []
     (by unfold SortedByT; decide) 0,
   (index_sorted_and_search 2 [(1, 2, 9), (2, 1, 3)]).1⟩

/-! ### Output extension lemmas for `doTraceContacts` -/

/-- The two output vectors only ever grow, by batches of equal length. -/
def ExtendsTC (rr rd rr' rd' : List Nat) : Prop :=
  ∃ e1 e2, rr' = rr ++ e1 ∧ rd' = rd ++ e2 ∧ e1.length = e2.length

theorem extendsTC_refl (rr rd : List Nat) : ExtendsTC rr rd rr rd :=
  ⟨[], [], by simp, by simp, rfl⟩

theorem extendsTC_trans {a b c d e f : List Nat}
    (h1 : ExtendsTC a b c d) (h2 : ExtendsTC c d e f) : ExtendsTC a b e f := by
  obtain ⟨x1, x2, hx1, hx2, hx⟩ := h1
  obtain ⟨y1, y2, hy1, hy2, hy⟩ := h2
  exact ⟨x1 ++ y1, x2 ++ y2, by simp [hy1, hx1], by simp [hy2, hx2],
    by simp [hx, hy]⟩

theorem extendsTC_append (rr rd : List Nat) (s : Bucket) (dist : Nat) :
    ExtendsTC rr rd (rr ++ s.map (fun x => x.rowid + 1))
      (rd ++ s.map (fun _ => dist)) :=
  ⟨s.map (fun x => x.rowid + 1), s.map (fun _ => dist), rfl, rfl, by simp⟩

theorem goTC_extend_of
    (recur : Nat → Int → Int → Finset Nat → Nat → Bool → List Nat →
      List Nat → Int → Option (List Nat × List Nat))
    (hP : ∀ node tB tE visited dist ing rr rd maxD out,
      recur node tB tE visited dist ing rr rd maxD = some out →
      ExtendsTC rr rd out.1 out.2) :
    ∀ buckets tB tE visited dist ing rr rd maxD out,
      goTC recur buckets tB tE visited dist ing rr rd maxD = some out →
      ExtendsTC rr rd out.1 out.2 := by
  intro buckets
  induction buckets with
  | nil =>
    intro tB tE visited dist ing rr rd maxD out h
    rw [goTC] at h
    cases h
    exact extendsTC_refl rr rd
  | cons p rest ih =>
    obtain ⟨nbr, cs⟩ := p
    intro tB tE visited dist ing rr rd maxD out h
    rw [goTC] at h
    by_cases hv : nbr ∈ visited
    · rw [if_pos hv] at h
      exact ih tB tE visited dist ing rr rd maxD out h
    · rw [if_neg hv] at h
      cases hq : firstQualifying cs tB tE with
      | none =>
        rw [hq] at h
        exact ih tB tE visited dist ing rr rd maxD out h
      | some c =>
        rw [hq] at h
        simp only at h
        by_cases hg : reachedMaxDistance maxD dist = true
        · rw [if_pos hg] at h
          exact extendsTC_trans (extendsTC_append rr rd _ dist)
            (ih tB tE visited dist ing _ _ maxD out h)
        · rw [if_neg hg] at h
          cases hrec : recur nbr
              (narrowWindow cs tB tE ing c).1 (narrowWindow cs tB tE ing c).2
              visited (dist + 1) ing
              (rr ++ (qualSub cs tB tE).map (fun y : Contact => y.rowid + 1))
              (rd ++ (qualSub cs tB tE).map (fun _ => dist)) maxD with
          | none => rw [hrec] at h; cases h
          | some mid =>
            rw [hrec] at h
            refine extendsTC_trans (extendsTC_append rr rd _ dist)
              (extendsTC_trans (hP nbr _ _ visited (dist + 1) ing _ _
                maxD mid hrec) ?_)
            exact ih tB tE visited dist ing mid.1 mid.2 maxD out h

theorem doTraceContacts_extend :
    ∀ fuel data node tB tE visited dist ing rr rd maxD out,
      doTraceContacts fuel data node tB tE visited dist ing rr rd maxD =
        some out → ExtendsTC rr rd out.1 out.2 := by
  intro fuel
  induction fuel with
  | zero =>
    intro data node tB tE visited dist ing rr rd maxD out h
    rw [doTraceContacts] at h
    cases h
  | succ f ih =>
    intro data node tB tE visited dist ing rr rd maxD out h
    rw [doTraceContacts] at h
    exact goTC_extend_of (doTraceContacts f data)
      (fun node' tB' tE' visited' dist' ing' rr' rd' maxD' out' h' =>
        ih data node' tB' tE' visited' dist' ing' rr' rd' maxD' out' h')
      _ tB tE _ dist ing rr rd maxD out h

theorem zip_mem_of_extendsTC {rr rd out1 out2 : List Nat}
    (hlen : rr.length = rd.length) (hext : ExtendsTC rr rd out1 out2) :
    ∀ p ∈ rr.zip rd, p ∈ out1.zip out2 := by
  obtain ⟨e1, e2, h1, h2, _⟩ := hext
  intro p hp
  rw [h1, h2, List.zip_append hlen]
  exact List.mem_append_left _ hp

theorem extendsTC_length {rr rd out1 out2 : List Nat}
    (hlen : rr.length = rd.length) (hext : ExtendsTC rr rd out1 out2) :
    out1.length = out2.length := by
  obtain ⟨e1, e2, h1, h2, he⟩ := hext
  simp [h1, h2, hlen, he]

theorem qualSub_eq_nil_of_none (cs : Bucket) (tB tE : Int)
    (h : firstQualifying cs tB tE = none) : qualSub cs tB tE = [] := by
  unfold firstQualifying at h
  unfold qualSub
  cases hd : afterLowerBound cs tB with
  | nil => simp
  | cons c tail =>
    rw [hd] at h
    by_cases hc : c.t ≤ tE
    · simp [hc] at h
    · simp [List.takeWhile_cons, hc]

theorem goTC_records
    (recur : Nat → Int → Int → Finset Nat → Nat → Bool → List Nat →
      List Nat → Int → Option (List Nat × List Nat))
    (hP : ∀ node tB tE visited dist ing rr rd maxD out,
      recur node tB tE visited dist ing rr rd maxD = some out →
      ExtendsTC rr rd out.1 out.2) :
    ∀ (buckets : BucketMap) tB tE visited dist ing rr rd maxD out,
      rr.length = rd.length →
      goTC recur buckets tB tE visited dist ing rr rd maxD = some out →
      ∀ p ∈ buckets, p.1 ∉ visited → ∀ x ∈ qualSub p.2 tB tE,
        (x.rowid + 1, dist) ∈ out.1.zip out.2 := by
  intro buckets
  induction buckets with
  | nil =>
    intro tB tE visited dist ing rr rd maxD out _ _ p hp
    exact absurd hp (by simp)
  | cons q rest ih =>
    obtain ⟨nbr, cs⟩ := q
    intro tB tE visited dist ing rr rd maxD out hlen h p hp hnv x hx
    rw [goTC] at h
    rcases List.mem_cons.mp hp with rfl | hp'
    · rw [if_neg hnv] at h
      cases hq : firstQualifying cs tB tE with
      | none =>
        rw [qualSub_eq_nil_of_none cs tB tE hq] at hx
        exact absurd hx (by simp)
      | some c =>
        rw [hq] at h
        simp only at h
        have hpair : (x.rowid + 1, dist) ∈
            (rr ++ (qualSub cs tB tE).map
              (fun y : Contact => y.rowid + 1)).zip
            (rd ++ (qualSub cs tB tE).map (fun _ => dist)) := by
          rw [List.zip_append hlen, List.zip_map']
          exact List.mem_append_right _
            (List.mem_map.mpr ⟨x, hx, rfl⟩)
        have hlen' : (rr ++ (qualSub cs tB tE).map
              (fun y : Contact => y.rowid + 1)).length =
            (rd ++ (qualSub cs tB tE).map (fun _ => dist)).length := by
          simp [hlen]
        by_cases hg : reachedMaxDistance maxD dist = true
        · rw [if_pos hg] at h
          exact zip_mem_of_extendsTC hlen'
            (goTC_extend_of recur hP rest tB tE visited dist ing _ _ maxD
              out h) _ hpair
        · rw [if_neg hg] at h
          cases hrec : recur nbr
              (narrowWindow cs tB tE ing c).1 (narrowWindow cs tB tE ing c).2
              visited (dist + 1) ing
              (rr ++ (qualSub cs tB tE).map (fun y : Contact => y.rowid + 1))
              (rd ++ (qualSub cs tB tE).map (fun _ => dist)) maxD with
          | none => rw [hrec] at h; cases h
          | some mid =>
            rw [hrec] at h
            have hext1 := hP nbr _ _ visited (dist + 1) ing _ _ maxD mid hrec
            have hmid : (x.rowid + 1, dist) ∈ mid.1.zip mid.2 :=
              zip_mem_of_extendsTC hlen' hext1 _ hpair
            have hlenmid : mid.1.length = mid.2.length :=
              extendsTC_length hlen' hext1
            exact zip_mem_of_extendsTC hlenmid
              (goTC_extend_of recur hP rest tB tE visited dist ing _ _ maxD
                out h) _ hmid
    · by_cases hv : nbr ∈ visited
      · rw [if_pos hv] at h
        exact ih tB tE visited dist ing rr rd maxD out hlen h p hp' hnv x hx
      · rw [if_neg hv] at h
        cases hq : firstQualifying cs tB tE with
        | none =>
          rw [hq] at h
          exact ih tB tE visited dist ing rr rd maxD out hlen h p hp' hnv x hx
        | some c =>
          rw [hq] at h
          simp only at h
          have hlen' : (rr ++ (qualSub cs tB tE).map
                (fun y : Contact => y.rowid + 1)).length =
              (rd ++ (qualSub cs tB tE).map (fun _ => dist)).length := by
            simp [hlen]
          by_cases hg : reachedMaxDistance maxD dist = true
          · rw [if_pos hg] at h
            exact ih tB tE visited dist ing _ _ maxD out hlen' h p hp' hnv x hx
          · rw [if_neg hg] at h
            cases hrec : recur nbr
                (narrowWindow cs tB tE ing c).1 (narrowWindow cs tB tE ing c).2
                visited (dist + 1) ing
                (rr ++ (qualSub cs tB tE).map
                  (fun y : Contact => y.rowid + 1))
                (rd ++ (qualSub cs tB tE).map (fun _ => dist)) maxD with
            | none => rw [hrec] at h; cases h
            | some mid =>
              rw [hrec] at h
              have hlenmid : mid.1.length = mid.2.length :=
                extendsTC_length hlen'
                  (hP nbr _ _ visited (dist + 1) ing _ _ maxD mid hrec)
              exact ih tB tE visited dist ing mid.1 mid.2 maxD out hlenmid h
                p hp' hnv x hx

theorem goTC_cap_of
    (recur : Nat → Int → Int → Finset Nat → Nat → Bool → List Nat →
      List Nat → Int → Option (List Nat × List Nat))
    (hP : ∀ (node : Nat) (tB tE : Int) (visited : Finset Nat) (dist : Nat)
      (ing : Bool) (rr rd : List Nat) (maxD : Int)
      (out : List Nat × List Nat),
      0 < maxD → (dist : Int) ≤ maxD → (∀ v ∈ rd, (v : Int) ≤ maxD) →
      recur node tB tE visited dist ing rr rd maxD = some out →
      ∀ v ∈ out.2, (v : Int) ≤ maxD) :
    ∀ (buckets : BucketMap) (tB tE : Int) (visited : Finset Nat)
      (dist : Nat) (ing : Bool) (rr rd : List Nat) (maxD : Int)
      (out : List Nat × List Nat),
      0 < maxD → (dist : Int) ≤ maxD → (∀ v ∈ rd, (v : Int) ≤ maxD) →
      goTC recur buckets tB tE visited dist ing rr rd maxD = some out →
      ∀ v ∈ out.2, (v : Int) ≤ maxD := by
  intro buckets
  induction buckets with
  | nil =>
    intro tB tE visited dist ing rr rd maxD out _ _ hrd h
    rw [goTC] at h
    cases h
    exact hrd
  | cons q rest ih =>
    obtain ⟨nbr, cs⟩ := q
    intro tB tE visited dist ing rr rd maxD out hmd hdist hrd h
    rw [goTC] at h
    by_cases hv : nbr ∈ visited
    · rw [if_pos hv] at h
      exact ih tB tE visited dist ing rr rd maxD out hmd hdist hrd h
    · rw [if_neg hv] at h
      cases hq : firstQualifying cs tB tE with
      | none =>
        rw [hq] at h
        exact ih tB tE visited dist ing rr rd maxD out hmd hdist hrd h
      | some c =>
        rw [hq] at h
        simp only at h
        have hrd' : ∀ v ∈ rd ++ (qualSub cs tB tE).map (fun _ => dist),
            (v : Int) ≤ maxD := by
          intro v hv'
          rcases List.mem_append.mp hv' with hv'' | hv''
          · exact hrd v hv''
          · rcases List.mem_map.mp hv'' with ⟨y, _, rfl⟩
            exact hdist
        by_cases hg : reachedMaxDistance maxD dist = true
        · rw [if_pos hg] at h
          exact ih tB tE visited dist ing _ _ maxD out hmd hdist hrd' h
        · rw [if_neg hg] at h
          have hsucc : ((dist + 1 : Nat) : Int) ≤ maxD := by
            unfold reachedMaxDistance at hg
            simp only [Bool.and_eq_true, decide_eq_true_eq, not_and,
              not_le] at hg
            have := hg hmd
            push_cast
            omega
          cases hrec : recur nbr
              (narrowWindow cs tB tE ing c).1 (narrowWindow cs tB tE ing c).2
              visited (dist + 1) ing
              (rr ++ (qualSub cs tB tE).map (fun y : Contact => y.rowid + 1))
              (rd ++ (qualSub cs tB tE).map (fun _ => dist)) maxD with
          | none => rw [hrec] at h; cases h
          | some mid =>
            rw [hrec] at h
            have hmid : ∀ v ∈ mid.2, (v : Int) ≤ maxD :=
              hP nbr _ _ visited (dist + 1) ing _ _ maxD mid hmd hsucc
                hrd' hrec
            exact ih tB tE visited dist ing mid.1 mid.2 maxD out hmd hdist
              hmid h

theorem doTraceContacts_cap :
    ∀ (fuel : Nat) (data : Index) (node : Nat) (tB tE : Int)
      (visited : Finset Nat) (dist : Nat) (ing : Bool) (rr rd : List Nat)
      (maxD : Int) (out : List Nat × List Nat),
      0 < maxD → (dist : Int) ≤ maxD → (∀ v ∈ rd, (v : Int) ≤ maxD) →
      doTraceContacts fuel data node tB tE visited dist ing rr rd maxD =
        some out → ∀ v ∈ out.2, (v : Int) ≤ maxD := by
  intro fuel
  induction fuel with
  | zero =>
    intro data node tB tE visited dist ing rr rd maxD out _ _ _ h
    rw [doTraceContacts] at h
    cases h
  | succ f ih =>
    intro data node tB tE visited dist ing rr rd maxD out hmd hdist hrd h
    rw [doTraceContacts] at h
    exact goTC_cap_of (doTraceContacts f data)
      (fun node' tB' tE' visited' dist' ing' rr' rd' maxD' out' =>
        ih data node' tB' tE' visited' dist' ing' rr' rd' maxD' out')
      _ tB tE _ dist ing rr rd maxD out hmd hdist hrd h

/-- C4. In `doTraceContacts`: (i) every event of the qualifying
sub-range of every non-visited neighbor bucket of the current node is
recorded, paired with the current hop distance (not only the first);
(ii) when `maxDistance` is positive no recorded distance ever exceeds
it — recursion stops descending at `distance = maxDistance`, though the
events of that final hop are still recorded; (iii) `maxDistance = 0`
never triggers the depth gate (no depth limit). -/
theorem traceContacts_enumeration_spec
    (fuel : Nat) (data : Index) (node : Nat) (tB tE : Int)
    (visited : Finset Nat) (dist : Nat) (ing : Bool)
    (rr rd : List Nat) (maxD : Int) (out : List Nat × List Nat)
    (hlen : rr.length = rd.length)
    (hrun : doTraceContacts fuel data node tB tE visited dist ing rr rd maxD
      = some out) :
    (∀ p ∈ data.getD node [], p.1 ∉ insert node visited →
      ∀ x ∈ qualSub p.2 tB tE, (x.rowid + 1, dist) ∈ out.1.zip out.2) ∧
    (0 < maxD → (dist : Int) ≤ maxD → (∀ v ∈ rd, (v : Int) ≤ maxD) →
      ∀ v ∈ out.2, (v : Int) ≤ maxD) ∧
    (∀ d : Nat, reachedMaxDistance 0 d = false) := by
  refine ⟨?_, ?_, ?_⟩
  · cases fuel with
    | zero => rw [doTraceContacts] at hrun; cases hrun
    | succ f =>
      rw [doTraceContacts] at hrun
      exact goTC_records (doTraceContacts f data)
        (fun node' tB' tE' visited' dist' ing' rr' rd' maxD' out' h' =>
          doTraceContacts_extend f data node' tB' tE' visited' dist' ing'
            rr' rd' maxD' out' h')
        _ tB tE _ dist ing rr rd maxD out hlen hrun
  · intro hmd hdist hrd
    exact doTraceContacts_cap fuel data node tB tE visited dist ing rr rd
      maxD out hmd hdist hrd hrun
  · intro d
    unfold reachedMaxDistance
    simp

/-- Concrete index for the trace witness: the outgoing index of the
events `(1→2, t=10)`, `(2→3, t=20)`, `(1→3, t=5)` on 3 nodes. -/
def witnessDataTC : Index :=
  [[(1, [⟨0, 1, 10⟩]), (2, [⟨2, 2, 5⟩])], [(2, [⟨1, 2, 20⟩])], []]

/-- Witness for `traceContacts_enumeration_spec`: the direct record of
the bucket to node 1 (rowid 1, distance 1) is emitted. -/
theorem traceContacts_enumeration_spec_witness :
    (((0 : Nat) + 1, (1 : Nat)) ∈
      (([1, 2, 3] : List Nat).zip ([1, 2, 1] : List Nat))) :=
  (traceContacts_enumeration_spec 10 witnessDataTC 0 0 100 ∅ 1 false [] [] 0
      ([1, 2, 3], [1, 2, 1]) rfl (by decide)).1
    (1, [⟨0, 1, 10⟩]) (by decide) (by decide) ⟨0, 1, 10⟩ (by decide)

/-! ### VisitedNodes invariants and the contact-chain size -/

/-- Whether a node is marked visited. -/
def markedB (v : VisitedNodes) (i : Nat) : Bool :=
  (v.visitedNodes.getD i (false, 0)).1

/-- The recorded window bound of a node. -/
def boundOf (v : VisitedNodes) (i : Nat) : Int :=
  (v.visitedNodes.getD i (false, 0)).2

/-- The number of distinct nodes marked visited. -/
def countMarked (v : VisitedNodes) : Nat :=
  (v.visitedNodes.filter (fun p => p.1)).length

theorem Update_length (v : VisitedNodes) (node : Nat) (tB tE : Int)
    (ing : Bool) :
    (v.Update node tB tE ing).visitedNodes.length = v.visitedNodes.length := by
  unfold VisitedNodes.Update
  dsimp only
  split_ifs <;> simp

theorem filter_length_set_true :
    ∀ (l : List (Bool × Int)) (i : Nat) (x : Int), i < l.length →
      ((l.set i (true, x)).filter (fun p => p.1)).length =
        (l.filter (fun p => p.1)).length +
          (if (l.getD i (false, 0)).1 then 0 else 1) := by
  intro l
  induction l with
  | nil => intro i x h; exact absurd h (by simp)
  | cons a as ih =>
    intro i x h
    cases i with
    | zero =>
      obtain ⟨b, t⟩ := a
      cases b <;> simp [List.filter_cons]
    | succ j =>
      have hj : j < as.length := by simpa using h
      obtain ⟨b, t⟩ := a
      cases b <;>
        simp [List.filter_cons, List.getD_cons_succ, ih j x hj, Nat.add_assoc,
          Nat.add_comm 1]

theorem Update_count (v : VisitedNodes) (node : Nat) (tB tE : Int)
    (ing : Bool) (hn : node < v.visitedNodes.length)
    (hc : v.numberOfVisitedNodes = countMarked v) :
    (v.Update node tB tE ing).numberOfVisitedNodes =
      countMarked (v.Update node tB tE ing) := by
  have hc' : v.numberOfVisitedNodes =
      (v.visitedNodes.filter (fun p => p.1)).length := hc
  unfold VisitedNodes.Update
  dsimp only
  by_cases hb : (v.visitedNodes.getD node (false, 0)).1 = true
  · rw [if_pos hb]
    by_cases hi : ing = true
    · rw [if_pos hi]
      by_cases hlt : (v.visitedNodes.getD node (false, 0)).2 < tE
      · rw [if_pos hlt]
        unfold countMarked
        dsimp only
        rw [filter_length_set_true _ _ _ hn, if_pos hb]
        omega
      · rw [if_neg hlt]
        exact hc
    · rw [if_neg hi]
      by_cases hlt : tB < (v.visitedNodes.getD node (false, 0)).2
      · rw [if_pos hlt]
        unfold countMarked
        dsimp only
        rw [filter_length_set_true _ _ _ hn, if_pos hb]
        omega
      · rw [if_neg hlt]
        exact hc
  · rw [if_neg hb]
    unfold countMarked
    dsimp only
    rw [filter_length_set_true _ _ _ hn, if_neg hb]
    omega

theorem goCC_count_of (N : Nat)
    (recur : Nat → Int → Int → VisitedNodes → Bool → Option VisitedNodes)
    (hP : ∀ (node : Nat) (tB tE : Int) (v : VisitedNodes) (ing : Bool)
      (out : VisitedNodes), v.visitedNodes.length = N → node < N →
      v.numberOfVisitedNodes = countMarked v →
      recur node tB tE v ing = some out →
      out.numberOfVisitedNodes = countMarked out ∧
        out.visitedNodes.length = N) :
    ∀ (buckets : BucketMap) (tB tE : Int) (v : VisitedNodes) (ing : Bool)
      (out : VisitedNodes), v.visitedNodes.length = N →
      (∀ q ∈ buckets, q.1 < N) →
      v.numberOfVisitedNodes = countMarked v →
      goCC recur buckets tB tE v ing = some out →
      out.numberOfVisitedNodes = countMarked out ∧
        out.visitedNodes.length = N := by
  intro buckets
  induction buckets with
  | nil =>
    intro tB tE v ing out hlen _ hc h
    rw [goCC] at h
    cases h
    exact ⟨hc, hlen⟩
  | cons q rest ih =>
    obtain ⟨nbr, cs⟩ := q
    intro tB tE v ing out hlen hkeys hc h
    rw [goCC] at h
    by_cases hv : v.Visit nbr tB tE ing = true
    · rw [if_pos hv] at h
      cases hq : firstQualifying cs tB tE with
      | none =>
        rw [hq] at h
        exact ih tB tE v ing out hlen
          (fun q' hq' => hkeys q' (List.mem_cons_of_mem _ hq')) hc h
      | some c =>
        rw [hq] at h
        simp only at h
        cases hrec : recur nbr (narrowWindow cs tB tE ing c).1
            (narrowWindow cs tB tE ing c).2 v ing with
        | none => rw [hrec] at h; cases h
        | some mid =>
          rw [hrec] at h
          have hnbr : nbr < N := hkeys (nbr, cs) (List.mem_cons_self _ _)
          have hmid := hP nbr _ _ v ing mid hlen hnbr hc hrec
          exact ih tB tE mid ing out hmid.2
            (fun q' hq' => hkeys q' (List.mem_cons_of_mem _ hq')) hmid.1 h
    · rw [if_neg hv] at h
      exact ih tB tE v ing out hlen
        (fun q' hq' => hkeys q' (List.mem_cons_of_mem _ hq')) hc h

theorem contactChain_count :
    ∀ (fuel : Nat) (data : Index) (node : Nat) (tB tE : Int)
      (v : VisitedNodes) (ing : Bool) (out : VisitedNodes) (N : Nat),
      v.visitedNodes.length = N → node < N →
      (∀ bm ∈ data, ∀ q ∈ bm, q.1 < N) →
      v.numberOfVisitedNodes = countMarked v →
      contactChain fuel data node tB tE v ing = some out →
      out.numberOfVisitedNodes = countMarked out ∧
        out.visitedNodes.length = N := by
  intro fuel
  induction fuel with
  | zero =>
    intro data node tB tE v ing out N _ _ _ _ h
    rw [contactChain] at h
    cases h
  | succ f ih =>
    intro data node tB tE v ing out N hlen hnode hdata hc h
    rw [contactChain] at h
    have hlen' : (v.Update node tB tE ing).visitedNodes.length = N := by
      rw [Update_length]; exact hlen
    have hc' := Update_count v node tB tE ing (by omega) hc
    have hkeys : ∀ q ∈ data.getD node [], q.1 < N := by
      intro q' hq'
      have hne : data.getD node [] ≠ [] := by
        intro hcon
        rw [hcon] at hq'
        exact absurd hq' (by simp)
      exact hdata _ (getD_mem_of_ne_nil data node hne) q' hq'
    exact goCC_count_of N (contactChain f data)
      (fun node' tB' tE' v' ing' out' hl hn hcv hrec =>
        ih data node' tB' tE' v' ing' out' N hl hn hdata hcv hrec)
      (data.getD node []) tB tE _ ing out hlen' hkeys hc' h

/-- The claim's "re-exploration performed iff the new call extends the
recorded bound" is false on the code: node 1 is marked with bound 10; the
gate is checked against the parent window `[0, 20]` and passes, a
qualifying event (t = 3) exists, so the code re-explores node 1 with the
narrowed window `[0, 3]` — whose `Update` leaves the recorded pair
unchanged (3 does not extend 10).  Conversely, with a bucket whose only
event (t = 30) lies outside the window, the branch is pruned even though
the window end 20 would extend the bound 10 (shown by running the loop
with a recursive continuation that would fail if it were called). -/
theorem contactChain_revisit_cex :
    VisitedNodes.Visit ⟨2, [(true, 20), (true, 10)]⟩ 1 0 20 true = true ∧
    (firstQualifying [⟨5, 1, 3⟩] 0 20).isSome = true ∧
    narrowWindow [⟨5, 1, 3⟩] 0 20 true ⟨5, 1, 3⟩ = (0, 3) ∧
    VisitedNodes.Update ⟨2, [(true, 20), (true, 10)]⟩ 1 0 3 true =
      ⟨2, [(true, 20), (true, 10)]⟩ ∧
    goCC (fun _ _ _ _ _ => none) [(1, [⟨5, 1, 30⟩])] 0 20
      ⟨2, [(true, 20), (true, 10)]⟩ true =
      some ⟨2, [(true, 20), (true, 10)]⟩ := by
  decide

/-- C2 (amended). (i) For a marked node the `Visit` gate passes exactly
when the parent window strictly extends the recorded bound (ingoing: a
later `tEnd`; outgoing: an earlier `tBegin`); unmarked nodes always pass.
(ii) When the gate fails, or no event of the bucket qualifies, the branch
is pruned: the loop moves on with the visitation state untouched.
(iii) The reported chain size is `N() - 1` where `N()` equals the number
of distinct marked nodes after the traversal. -/
theorem contactChain_gate_spec
    (v : VisitedNodes) (node : Nat) (tB tE : Int) (ing : Bool)
    (recur : Nat → Int → Int → VisitedNodes → Bool → Option VisitedNodes)
    (nbr : Nat) (cs : Bucket) (rest : BucketMap)
    (fuel n root : Nat) (data : Index) (out : VisitedNodes)
    (hroot : root < n) (hdata : ∀ bm ∈ data, ∀ q ∈ bm, q.1 < n)
    (hrun : contactChain fuel data root tB tE (VisitedNodes.init n) ing =
      some out) :
    (v.Visit node tB tE ing = true ↔
      (markedB v node = false ∨
       (ing = true ∧ boundOf v node < tE) ∨
       (ing = false ∧ tB < boundOf v node))) ∧
    ((v.Visit nbr tB tE ing = false ∨ firstQualifying cs tB tE = none) →
      goCC recur ((nbr, cs) :: rest) tB tE v ing =
        goCC recur rest tB tE v ing) ∧
    (out.N = countMarked out) := by
  refine ⟨?_, ?_, ?_⟩
  · unfold VisitedNodes.Visit markedB boundOf
    by_cases hb : (v.visitedNodes.getD node (false, 0)).1
    · cases ing <;> simp [hb]
    · cases ing <;> simp [hb]
  · intro hpr
    rcases hpr with hpr | hpr
    · rw [goCC, if_neg (by rw [hpr]; exact Bool.false_ne_true)]
    · rw [goCC]
      by_cases hv : v.Visit nbr tB tE ing = true
      · rw [if_pos hv, hpr]
      · rw [if_neg hv]
  · have hinit : (VisitedNodes.init n).numberOfVisitedNodes =
        countMarked (VisitedNodes.init n) := by
      unfold VisitedNodes.init countMarked
      simp [List.filter_replicate]
    have hlen : (VisitedNodes.init n).visitedNodes.length = n := by
      unfold VisitedNodes.init
      simp
    exact (contactChain_count fuel data root tB tE _ ing out n hlen hroot
      hdata hinit hrun).1

/-- Witness for `contactChain_gate_spec`: outgoing chain of root 0 on
`witnessDataTC`; three nodes are marked and the counter agrees. -/
theorem contactChain_gate_spec_witness :
    (VisitedNodes.N ⟨3, [(true, 0), (true, 10), (true, 5)]⟩ =
      countMarked ⟨3, [(true, 0), (true, 10), (true, 5)]⟩) :=
  (contactChain_gate_spec (VisitedNodes.init 3) 0 0 100 false
      (fun _ _ _ _ _ => none) 0 [] [] 10 3 0 witnessDataTC
      ⟨3, [(true, 0), (true, 10), (true, 5)]⟩
      (by decide) (by decide) (by decide)).2.2

/-! ### Empty event input -/

theorem getD_replicate {α : Type} (n i : Nat) (a : α) :
    (List.replicate n a).getD i a = a := by
  induction n generalizing i with
  | zero => simp
  | succ m ih =>
    cases i with
    | zero => simp
    | succ j => simp [ih j]

theorem buildContactsLookup_nil (n : Nat) :
    buildContactsLookup n [] =
      (List.replicate n [], List.replicate n []) := by
  simp [buildContactsLookup, indexRows]

theorem doShortestPaths_empty (fuel n node : Nat) (tB tE : Int)
    (vis : Finset Nat) (dist : Nat) (ing : Bool) (res : ResultMap)
    (h : 1 ≤ fuel) :
    doShortestPaths fuel (List.replicate n []) node tB tE vis dist ing res =
      some res := by
  cases fuel with
  | zero => omega
  | succ f =>
    rw [doShortestPaths, getD_replicate, goSP]

theorem doTraceContacts_empty (fuel n node : Nat) (tB tE : Int)
    (vis : Finset Nat) (dist : Nat) (ing : Bool) (rr rd : List Nat)
    (maxD : Int) (h : 1 ≤ fuel) :
    doTraceContacts fuel (List.replicate n []) node tB tE vis dist ing rr rd
      maxD = some (rr, rd) := by
  cases fuel with
  | zero => omega
  | succ f =>
    rw [doTraceContacts, getD_replicate, goTC]

theorem contactChain_empty (fuel n node : Nat) (tB tE : Int)
    (v : VisitedNodes) (ing : Bool) (h : 1 ≤ fuel) :
    contactChain fuel (List.replicate n []) node tB tE v ing =
      some (v.Update node tB tE ing) := by
  cases fuel with
  | zero => omega
  | succ f =>
    rw [contactChain, getD_replicate, goCC]

theorem degree_empty (n node : Nat) (tB tE : Int) :
    degree (List.replicate n []) node tB tE = 0 := by
  unfold degree
  rw [getD_replicate]
  rfl

theorem Update_init_N (n node : Nat) (tB tE : Int) (ing : Bool) :
    ((VisitedNodes.init n).Update node tB tE ing).N = 1 := by
  unfold VisitedNodes.init VisitedNodes.Update VisitedNodes.N
  dsimp only
  rw [if_neg]
  intro hcon
  rw [show ((List.replicate n ((false : Bool), (0 : Int))).getD node
    (false, 0)) = (false, 0) from getD_replicate n node (false, 0)] at hcon
  exact Bool.false_ne_true hcon

theorem shortestPathsRun_empty (fuel n : Nat) (queries : List Query)
    (qi : Nat) (acc : SPOut) (h : 1 ≤ fuel) :
    shortestPathsRun fuel (List.replicate n []) (List.replicate n [])
      queries qi acc = some acc := by
  induction queries generalizing qi with
  | nil => rw [shortestPathsRun]
  | cons q rest ih =>
    rw [shortestPathsRun,
      doShortestPaths_empty fuel n _ _ _ _ _ _ _ h,
      doShortestPaths_empty fuel n _ _ _ _ _ _ _ h]
    simpa using ih (qi + 1)

theorem traceContactsRun_empty (fuel n : Nat) (maxD : Int)
    (queries : List Query) (h : 1 ≤ fuel) :
    traceContactsRun fuel (List.replicate n []) (List.replicate n []) maxD
      queries = some (queries.map (fun _ => ([], [], [], []))) := by
  induction queries with
  | nil => rw [traceContactsRun]; rfl
  | cons q rest ih =>
    rw [traceContactsRun,
      doTraceContacts_empty fuel n _ _ _ _ _ _ _ _ _ h,
      doTraceContacts_empty fuel n _ _ _ _ _ _ _ _ _ h, ih]
    rfl

theorem networkSummaryRun_empty (fuel n : Nat) (queries : List Query)
    (acc : NSOut) (h : 1 ≤ fuel) :
    networkSummaryRun fuel n (List.replicate n []) (List.replicate n [])
      queries acc =
      some ⟨acc.inDegree ++ queries.map (fun _ => 0),
            acc.outDegree ++ queries.map (fun _ => 0),
            acc.ingoingContactChain ++ queries.map (fun _ => 0),
            acc.outgoingContactChain ++ queries.map (fun _ => 0)⟩ := by
  induction queries generalizing acc with
  | nil =>
    rw [networkSummaryRun]
    simp
  | cons q rest ih =>
    rw [networkSummaryRun,
      contactChain_empty fuel n _ _ _ _ _ h,
      contactChain_empty fuel n _ _ _ _ _ h]
    dsimp only
    rw [ih]
    simp [degree_empty, Update_init_N]

/-- The claim is false for the network summary: with zero events and a
single query root, all four output arrays have one entry (value 0), not
zero entries. -/
theorem networkSummary_empty_events_cex :
    networkSummary 1 1 [] [⟨1, 0, 10, 0, 10⟩] =
      some ⟨[0], [0], [0], [0]⟩ ∧ ([0] : List Nat) ≠ [] := by
  constructor
  · decide
  · simp

/-- C3 (amended). With zero contact events and any query set, no
analysis errs (given fuel for the trivial traversals): shortest paths
returns six empty arrays, trace contacts returns four empty arrays per
root, and the network summary returns, per root, degree 0 and contact
chain 0 — arrays of length equal to the number of roots, not empty
arrays. -/
theorem empty_events_outputs (fuel n : Nat) (maxD : Int)
    (queries : List Query) (h : 1 ≤ fuel) :
    shortestPaths fuel n [] queries = some ⟨[], [], [], [], [], []⟩ ∧
    traceContacts fuel n [] maxD queries =
      some (queries.map (fun _ => ([], [], [], []))) ∧
    networkSummary fuel n [] queries =
      some ⟨queries.map (fun _ => 0), queries.map (fun _ => 0),
            queries.map (fun _ => 0), queries.map (fun _ => 0)⟩ := by
  refine ⟨?_, ?_, ?_⟩
  · unfold shortestPaths
    rw [buildContactsLookup_nil]
    exact shortestPathsRun_empty fuel n queries 0 _ h
  · unfold traceContacts
    rw [buildContactsLookup_nil]
    exact traceContactsRun_empty fuel n maxD queries h
  · unfold networkSummary
    rw [buildContactsLookup_nil]
    rw [networkSummaryRun_empty fuel n queries _ h]
    rfl

/-- Witness for `empty_events_outputs` at one query. -/
theorem empty_events_outputs_witness :
    shortestPaths 1 2 [] [⟨1, 0, 10, 0, 10⟩] =
      some ⟨[], [], [], [], [], []⟩ :=
  (empty_events_outputs 1 2 0 [⟨1, 0, 10, 0, 10⟩] (by decide)).1

/-! ### Record ids lie in `[1, number of events]` -/

/-- Every stored contact's rowid is below `L`. -/
def IdxRowidLt (idx : Index) (L : Nat) : Prop :=
  ∀ bm ∈ idx, ∀ q ∈ bm, ∀ x ∈ q.2, x.rowid < L

theorem qualSub_mem_self (cs : Bucket) (tB tE : Int) (x : Contact)
    (hx : x ∈ qualSub cs tB tE) : x ∈ cs :=
  List.Sublist.mem hx
    ((List.takeWhile_sublist _).trans (List.dropWhile_sublist _))

theorem build_fold_rowids (L : Nat) :
    ∀ (rs : List Row) (p : Index × Index),
      (∀ r ∈ rs, r.rowid < L) →
      IdxRowidLt p.1 L → IdxRowidLt p.2 L →
      IdxRowidLt (rs.foldl buildStep p).1 L ∧
        IdxRowidLt (rs.foldl buildStep p).2 L := by
  intro rs
  induction rs with
  | nil => intro p _ h1 h2; exact ⟨h1, h2⟩
  | cons r rest ih =>
    intro p hr h1 h2
    simp only [List.foldl_cons]
    refine ih (buildStep p r)
      (fun r' hr' => hr r' (List.mem_cons_of_mem _ hr')) ?_ ?_
    · intro bm hbm q hq x hx
      rcases pushContact_mem _ _ _ _ bm hbm q hq x hx with
        ⟨bm', hbm', q', hq', hx'⟩ | rfl
      · exact h1 bm' hbm' q' hq' x hx'
      · exact hr r (List.mem_cons_self _ _)
    · intro bm hbm q hq x hx
      rcases pushContact_mem _ _ _ _ bm hbm q hq x hx with
        ⟨bm', hbm', q', hq', hx'⟩ | rfl
      · exact h2 bm' hbm' q' hq' x hx'
      · exact hr r (List.mem_cons_self _ _)

theorem indexRows_rowid_lt (events : List (Nat × Nat × Int)) :
    ∀ r ∈ indexRows events, r.rowid < events.length := by
  intro r hr
  unfold indexRows at hr
  rcases List.mem_map.mp hr with ⟨⟨i, e⟩, hmem, rfl⟩
  exact (List.mem_enum hmem).1

theorem buildContactsLookup_rowids (n : Nat)
    (events : List (Nat × Nat × Int)) :
    IdxRowidLt (buildContactsLookup n events).1 events.length ∧
      IdxRowidLt (buildContactsLookup n events).2 events.length := by
  unfold buildContactsLookup
  refine build_fold_rowids events.length _ _ ?_ ?_ ?_
  · intro r hr
    exact indexRows_rowid_lt events r ((List.mem_insertionSort rowLE).mp hr)
  · intro bm hbm q hq
    rw [List.eq_of_mem_replicate hbm] at hq
    exact absurd hq (by simp)
  · intro bm hbm q hq
    rw [List.eq_of_mem_replicate hbm] at hq
    exact absurd hq (by simp)

theorem goTC_rowids_of (L : Nat)
    (recur : Nat → Int → Int → Finset Nat → Nat → Bool → List Nat →
      List Nat → Int → Option (List Nat × List Nat))
    (hP : ∀ (node : Nat) (tB tE : Int) (visited : Finset Nat) (dist : Nat)
      (ing : Bool) (rr rd : List Nat) (maxD : Int)
      (out : List Nat × List Nat),
      (∀ v ∈ rr, 1 ≤ v ∧ v ≤ L) →
      recur node tB tE visited dist ing rr rd maxD = some out →
      ∀ v ∈ out.1, 1 ≤ v ∧ v ≤ L) :
    ∀ (buckets : BucketMap) (tB tE : Int) (visited : Finset Nat)
      (dist : Nat) (ing : Bool) (rr rd : List Nat) (maxD : Int)
      (out : List Nat × List Nat),
      (∀ q ∈ buckets, ∀ x ∈ q.2, x.rowid < L) →
      (∀ v ∈ rr, 1 ≤ v ∧ v ≤ L) →
      goTC recur buckets tB tE visited dist ing rr rd maxD = some out →
      ∀ v ∈ out.1, 1 ≤ v ∧ v ≤ L := by
  intro buckets
  induction buckets with
  | nil =>
    intro tB tE visited dist ing rr rd maxD out _ hrr h
    rw [goTC] at h
    cases h
    exact hrr
  | cons q rest ih =>
    obtain ⟨nbr, cs⟩ := q
    intro tB tE visited dist ing rr rd maxD out hb hrr h
    rw [goTC] at h
    have hbrest := fun q' hq' => hb q' (List.mem_cons_of_mem _ hq')
    by_cases hv : nbr ∈ visited
    · rw [if_pos hv] at h
      exact ih tB tE visited dist ing rr rd maxD out hbrest hrr h
    · rw [if_neg hv] at h
      cases hq : firstQualifying cs tB tE with
      | none =>
        rw [hq] at h
        exact ih tB tE visited dist ing rr rd maxD out hbrest hrr h
      | some c =>
        rw [hq] at h
        simp only at h
        have hrr' : ∀ v ∈ rr ++ (qualSub cs tB tE).map
            (fun y : Contact => y.rowid + 1), 1 ≤ v ∧ v ≤ L := by
          intro v hv'
          rcases List.mem_append.mp hv' with hv'' | hv''
          · exact hrr v hv''
          · rcases List.mem_map.mp hv'' with ⟨y, hy, rfl⟩
            have := hb (nbr, cs) (List.mem_cons_self _ _) y
              (qualSub_mem_self cs tB tE y hy)
            omega
        by_cases hg : reachedMaxDistance maxD dist = true
        · rw [if_pos hg] at h
          exact ih tB tE visited dist ing _ _ maxD out hbrest hrr' h
        · rw [if_neg hg] at h
          cases hrec : recur nbr
              (narrowWindow cs tB tE ing c).1 (narrowWindow cs tB tE ing c).2
              visited (dist + 1) ing
              (rr ++ (qualSub cs tB tE).map (fun y : Contact => y.rowid + 1))
              (rd ++ (qualSub cs tB tE).map (fun _ => dist)) maxD with
          | none => rw [hrec] at h; cases h
          | some mid =>
            rw [hrec] at h
            have hmid := hP nbr _ _ visited (dist + 1) ing _ _ maxD mid
              hrr' hrec
            exact ih tB tE visited dist ing mid.1 mid.2 maxD out hbrest
              hmid h

theorem doTraceContacts_rowids (L : Nat) :
    ∀ (fuel : Nat) (data : Index) (node : Nat) (tB tE : Int)
      (visited : Finset Nat) (dist : Nat) (ing : Bool) (rr rd : List Nat)
      (maxD : Int) (out : List Nat × List Nat),
      IdxRowidLt data L →
      (∀ v ∈ rr, 1 ≤ v ∧ v ≤ L) →
      doTraceContacts fuel data node tB tE visited dist ing rr rd maxD =
        some out →
      ∀ v ∈ out.1, 1 ≤ v ∧ v ≤ L := by
  intro fuel
  induction fuel with
  | zero =>
    intro data node tB tE visited dist ing rr rd maxD out _ _ h
    rw [doTraceContacts] at h
    cases h
  | succ f ih =>
    intro data node tB tE visited dist ing rr rd maxD out hdata hrr h
    rw [doTraceContacts] at h
    have hb : ∀ q ∈ data.getD node [], ∀ x ∈ q.2, x.rowid < L := by
      intro q' hq'
      have hne : data.getD node [] ≠ [] := by
        intro hcon
        rw [hcon] at hq'
        exact absurd hq' (by simp)
      exact hdata _ (getD_mem_of_ne_nil data node hne) q' hq'
    exact goTC_rowids_of L (doTraceContacts f data)
      (fun node' tB' tE' visited' dist' ing' rr' rd' maxD' out' hrr' h' =>
        ih data node' tB' tE' visited' dist' ing' rr' rd' maxD' out' hdata
          hrr' h')
      _ tB tE _ dist ing rr rd maxD out hb hrr h

theorem mem_setRM (m : ResultMap) (k : Nat) (v : Nat × Nat) :
    ∀ p ∈ setRM m k v, p = (k, v) ∨ p ∈ m := by
  induction m with
  | nil =>
    intro p hp
    simp only [setRM, List.mem_singleton] at hp
    exact Or.inl hp
  | cons q rest ih =>
    obtain ⟨k', v'⟩ := q
    intro p hp
    simp only [setRM] at hp
    split_ifs at hp
    · rcases List.mem_cons.mp hp with rfl | hp'
      · exact Or.inl rfl
      · exact Or.inr hp'
    · rcases List.mem_cons.mp hp with rfl | hp'
      · exact Or.inl rfl
      · exact Or.inr (List.mem_cons_of_mem _ hp')
    · rcases List.mem_cons.mp hp with rfl | hp'
      · exact Or.inr (List.mem_cons_self _ _)
      · rcases ih p hp' with h | h
        · exact Or.inl h
        · exact Or.inr (List.mem_cons_of_mem _ h)

theorem mem_updateResult (m : ResultMap) (k : Nat) (d r : Nat) :
    ∀ p ∈ updateResult m k d r, p.2.2 = r ∨ p ∈ m := by
  intro p hp
  unfold updateResult at hp
  cases h : lookupRM m k with
  | none =>
    rw [h] at hp
    rcases mem_setRM m k (d, r) p hp with rfl | hp'
    · exact Or.inl rfl
    · exact Or.inr hp'
  | some dr =>
    rw [h] at hp
    dsimp only at hp
    by_cases hd : d < dr.1
    · rw [if_pos hd] at hp
      rcases mem_setRM m k (d, r) p hp with rfl | hp'
      · exact Or.inl rfl
      · exact Or.inr hp'
    · rw [if_neg hd] at hp
      exact Or.inr hp

theorem goSP_rowids_of (L : Nat)
    (recur : Nat → Int → Int → Finset Nat → Nat → Bool → ResultMap →
      Option ResultMap)
    (hP : ∀ (node : Nat) (tB tE : Int) (visited : Finset Nat) (dist : Nat)
      (ing : Bool) (res : ResultMap) (out : ResultMap),
      (∀ p ∈ res, 1 ≤ p.2.2 ∧ p.2.2 ≤ L) →
      recur node tB tE visited dist ing res = some out →
      ∀ p ∈ out, 1 ≤ p.2.2 ∧ p.2.2 ≤ L) :
    ∀ (buckets : BucketMap) (tB tE : Int) (visited : Finset Nat)
      (dist : Nat) (ing : Bool) (res : ResultMap) (out : ResultMap),
      (∀ q ∈ buckets, ∀ x ∈ q.2, x.rowid < L) →
      (∀ p ∈ res, 1 ≤ p.2.2 ∧ p.2.2 ≤ L) →
      goSP recur buckets tB tE visited dist ing res = some out →
      ∀ p ∈ out, 1 ≤ p.2.2 ∧ p.2.2 ≤ L := by
  intro buckets
  induction buckets with
  | nil =>
    intro tB tE visited dist ing res out _ hres h
    rw [goSP] at h
    cases h
    exact hres
  | cons q rest ih =>
    obtain ⟨nbr, cs⟩ := q
    intro tB tE visited dist ing res out hb hres h
    rw [goSP] at h
    have hbrest := fun q' hq' => hb q' (List.mem_cons_of_mem _ hq')
    by_cases hv : nbr ∈ visited
    · rw [if_pos hv] at h
      exact ih tB tE visited dist ing res out hbrest hres h
    · rw [if_neg hv] at h
      cases hq : firstQualifying cs tB tE with
      | none =>
        rw [hq] at h
        exact ih tB tE visited dist ing res out hbrest hres h
      | some c =>
        rw [hq] at h
        simp only at h
        have hcrow : c.rowid < L := by
          obtain ⟨_, _, tail, htl⟩ := firstQualifying_spec cs tB tE c hq
          have hcmem : c ∈ cs := by
            have : c ∈ afterLowerBound cs tB := by
              rw [htl]; exact List.mem_cons_self _ _
            exact List.Sublist.mem this (List.dropWhile_sublist _)
          exact hb (nbr, cs) (List.mem_cons_self _ _) c hcmem
        have hres' : ∀ p ∈ updateResult res nbr dist (c.rowid + 1),
            1 ≤ p.2.2 ∧ p.2.2 ≤ L := by
          intro p hp
          rcases mem_updateResult res nbr dist (c.rowid + 1) p hp with
            he | hp'
          · omega
          · exact hres p hp'
        cases hrec : recur nbr
            (narrowWindow cs tB tE ing c).1 (narrowWindow cs tB tE ing c).2
            visited (dist + 1) ing (updateResult res nbr dist (c.rowid + 1))
            with
        | none => rw [hrec] at h; cases h
        | some mid =>
          rw [hrec] at h
          have hmid := hP nbr _ _ visited (dist + 1) ing _ mid hres' hrec
          exact ih tB tE visited dist ing mid out hbrest hmid h

theorem doShortestPaths_rowids (L : Nat) :
    ∀ (fuel : Nat) (data : Index) (node : Nat) (tB tE : Int)
      (visited : Finset Nat) (dist : Nat) (ing : Bool) (res out : ResultMap),
      IdxRowidLt data L →
      (∀ p ∈ res, 1 ≤ p.2.2 ∧ p.2.2 ≤ L) →
      doShortestPaths fuel data node tB tE visited dist ing res = some out →
      ∀ p ∈ out, 1 ≤ p.2.2 ∧ p.2.2 ≤ L := by
  intro fuel
  induction fuel with
  | zero =>
    intro data node tB tE visited dist ing res out _ _ h
    rw [doShortestPaths] at h
    cases h
  | succ f ih =>
    intro data node tB tE visited dist ing res out hdata hres h
    rw [doShortestPaths] at h
    have hb : ∀ q ∈ data.getD node [], ∀ x ∈ q.2, x.rowid < L := by
      intro q' hq'
      have hne : data.getD node [] ≠ [] := by
        intro hcon
        rw [hcon] at hq'
        exact absurd hq' (by simp)
      exact hdata _ (getD_mem_of_ne_nil data node hne) q' hq'
    exact goSP_rowids_of L (doShortestPaths f data)
      (fun node' tB' tE' visited' dist' ing' res' out' hres' h' =>
        ih data node' tB' tE' visited' dist' ing' res' out' hdata hres' h')
      _ tB tE _ dist ing res out hb hres h

theorem traceContactsRun_props (fuel : Nat) (ingoing outgoing : Index)
    (maxD : Int) (L : Nat)
    (h1 : IdxRowidLt ingoing L) (h2 : IdxRowidLt outgoing L) :
    ∀ (queries : List Query)
      (tout : List (List Nat × List Nat × List Nat × List Nat)),
      traceContactsRun fuel ingoing outgoing maxD queries = some tout →
      ∀ r ∈ tout, r.1.length = r.2.1.length ∧
        r.2.2.1.length = r.2.2.2.length ∧
        (∀ v ∈ r.1, 1 ≤ v ∧ v ≤ L) ∧
        (∀ v ∈ r.2.2.1, 1 ≤ v ∧ v ≤ L) := by
  intro queries
  induction queries with
  | nil =>
    intro tout h r hr
    rw [traceContactsRun] at h
    cases h
    exact absurd hr (by simp)
  | cons q rest ih =>
    intro tout h r hr
    rw [traceContactsRun] at h
    cases hin : doTraceContacts fuel ingoing (q.root - 1) q.inBegin q.inEnd
        ∅ 1 true [] [] maxD with
    | none => rw [hin] at h; cases h
    | some inRes =>
      rw [hin] at h
      cases hout : doTraceContacts fuel outgoing (q.root - 1) q.outBegin
          q.outEnd ∅ 1 false [] [] maxD with
      | none => rw [hout] at h; cases h
      | some outRes =>
        rw [hout] at h
        cases htail : traceContactsRun fuel ingoing outgoing maxD rest with
        | none => rw [htail] at h; cases h
        | some tail =>
          rw [htail] at h
          dsimp only at h
          cases h
          rcases List.mem_cons.mp hr with rfl | hr'
          · have hlin : inRes.1.length = inRes.2.length :=
              extendsTC_length rfl
                (doTraceContacts_extend fuel ingoing _ _ _ _ 1 true [] []
                  maxD inRes hin)
            have hlout : outRes.1.length = outRes.2.length :=
              extendsTC_length rfl
                (doTraceContacts_extend fuel outgoing _ _ _ _ 1 false [] []
                  maxD outRes hout)
            have hrin := doTraceContacts_rowids L fuel ingoing _ _ _ ∅ 1
              true [] [] maxD inRes h1
              (fun v hv => absurd hv (List.not_mem_nil v)) hin
            have hrout := doTraceContacts_rowids L fuel outgoing _ _ _ ∅ 1
              false [] [] maxD outRes h2
              (fun v hv => absurd hv (List.not_mem_nil v)) hout
            exact ⟨hlin, hlout, hrin, hrout⟩
          · exact ih tail htail r hr'

theorem shortestPathsRun_props (fuel : Nat) (ingoing outgoing : Index)
    (L : Nat) (h1 : IdxRowidLt ingoing L) (h2 : IdxRowidLt outgoing L) :
    ∀ (queries : List Query) (qi : Nat) (acc : SPOut) (sout : SPOut),
      (∀ v ∈ acc.inRowid, 1 ≤ v ∧ v ≤ L) →
      (∀ v ∈ acc.outRowid, 1 ≤ v ∧ v ≤ L) →
      shortestPathsRun fuel ingoing outgoing queries qi acc = some sout →
      (∀ v ∈ sout.inRowid, 1 ≤ v ∧ v ≤ L) ∧
        (∀ v ∈ sout.outRowid, 1 ≤ v ∧ v ≤ L) := by
  intro queries
  induction queries with
  | nil =>
    intro qi acc sout hacc1 hacc2 h
    rw [shortestPathsRun] at h
    cases h
    exact ⟨hacc1, hacc2⟩
  | cons q rest ih =>
    intro qi acc sout hacc1 hacc2 h
    rw [shortestPathsRun] at h
    cases hin : doShortestPaths fuel ingoing (q.root - 1) q.inBegin q.inEnd
        ∅ 1 true [] with
    | none => rw [hin] at h; cases h
    | some inMap =>
      rw [hin] at h
      cases hout : doShortestPaths fuel outgoing (q.root - 1) q.outBegin
          q.outEnd ∅ 1 false [] with
      | none => rw [hout] at h; cases h
      | some outMap =>
        rw [hout] at h
        dsimp only at h
        have hinv := doShortestPaths_rowids L fuel ingoing _ _ _ ∅ 1 true
          [] inMap h1 (fun p hp => absurd hp (List.not_mem_nil p)) hin
        have houtv := doShortestPaths_rowids L fuel outgoing _ _ _ ∅ 1 false
          [] outMap h2 (fun p hp => absurd hp (List.not_mem_nil p)) hout
        refine ih (qi + 1) _ sout ?_ ?_ h
        · intro v hv
          rcases List.mem_append.mp hv with hv' | hv'
          · exact hacc1 v hv'
          · rcases List.mem_map.mp hv' with ⟨p, hp, rfl⟩
            exact hinv p hp
        · intro v hv
          rcases List.mem_append.mp hv with hv' | hv'
          · exact hacc2 v hv'
          · rcases List.mem_map.mp hv' with ⟨p, hp, rfl⟩
            exact houtv p hp

/-- C10. Per query root, the trace-contacts record-id and distance arrays
have equal length in both directions (entries are appended in pairs), and
every emitted record id — in trace contacts and in shortest paths — is a
1-based input row index, i.e. lies in `[1, number of events]`. -/
theorem result_arrays_spec (fuel n : Nat) (events : List (Nat × Nat × Int))
    (maxD : Int) (queries : List Query)
    (tout : List (List Nat × List Nat × List Nat × List Nat)) (sout : SPOut)
    (htc : traceContacts fuel n events maxD queries = some tout)
    (hsp : shortestPaths fuel n events queries = some sout) :
    (∀ r ∈ tout, r.1.length = r.2.1.length ∧
      r.2.2.1.length = r.2.2.2.length ∧
      (∀ v ∈ r.1, 1 ≤ v ∧ v ≤ events.length) ∧
      (∀ v ∈ r.2.2.1, 1 ≤ v ∧ v ≤ events.length)) ∧
    (∀ v ∈ sout.inRowid, 1 ≤ v ∧ v ≤ events.length) ∧
    (∀ v ∈ sout.outRowid, 1 ≤ v ∧ v ≤ events.length) := by
  obtain ⟨hb1, hb2⟩ := buildContactsLookup_rowids n events
  unfold traceContacts at htc
  unfold shortestPaths at hsp
  have hsp' := shortestPathsRun_props fuel _ _ events.length hb1 hb2
    queries 0 ⟨[], [], [], [], [], []⟩ sout
    (fun v hv => absurd hv (List.not_mem_nil v))
    (fun v hv => absurd hv (List.not_mem_nil v)) hsp
  exact ⟨traceContactsRun_props fuel _ _ maxD events.length hb1 hb2
    queries tout htc, hsp'.1, hsp'.2⟩

/-- Witness for `result_arrays_spec` on the three-event example. -/
theorem result_arrays_spec_witness :
    1 ≤ 3 ∧ 3 ≤ ([(1, 2, 10), (2, 3, 20), (1, 3, 5)] :
      List (Nat × Nat × Int)).length :=
  (result_arrays_spec 10 3 [(1, 2, 10), (2, 3, 20), (1, 3, 5)] 0
      [⟨1, 0, 100, 0, 100⟩] [([], [], [1, 2, 3], [1, 2, 1])]
      ⟨[], [], [], [1, 1], [1, 3], [1, 1]⟩
      (by decide) (by decide)).2.2 3 (by decide)

/-! ### Monotonicity of the visitation state under the contact chain -/

/-- State improvement: marks are never dropped and bounds only move in
the favorable direction (later for ingoing, earlier for outgoing). -/
def stImp (ing : Bool) (v w : VisitedNodes) : Prop :=
  w.visitedNodes.length = v.visitedNodes.length ∧
  ∀ i, (markedB v i = true → markedB w i = true) ∧
    (markedB v i = true →
      (if ing then boundOf v i ≤ boundOf w i else boundOf w i ≤ boundOf v i))

theorem stImp_refl (ing : Bool) (v : VisitedNodes) : stImp ing v v := by
  refine ⟨rfl, fun i => ⟨fun h => h, fun _ => ?_⟩⟩
  cases ing <;> simp

theorem stImp_trans {ing : Bool} {u v w : VisitedNodes}
    (h1 : stImp ing u v) (h2 : stImp ing v w) : stImp ing u w := by
  refine ⟨h2.1.trans h1.1, fun i => ⟨fun h => (h2.2 i).1 ((h1.2 i).1 h), ?_⟩⟩
  intro h
  have ha := (h1.2 i).2 h
  have hb := (h2.2 i).2 ((h1.2 i).1 h)
  cases ing <;> simp_all <;> omega

theorem getD_set_entry (l : List (Bool × Int)) (node : Nat) (x : Bool × Int)
    (i : Nat) :
    (l.set node x).getD i (false, 0) =
      if node = i ∧ node < l.length then x else l.getD i (false, 0) := by
  rw [List.getD_eq_getElem?_getD, List.getD_eq_getElem?_getD,
    List.getElem?_set]
  by_cases h1 : node = i
  · subst h1
    by_cases h2 : node < l.length
    · rw [if_pos rfl, if_pos h2, if_pos ⟨rfl, h2⟩]
      rfl
    · rw [if_pos rfl, if_neg h2, if_neg (fun hc => h2 hc.2),
        List.getElem?_eq_none (by omega)]
  · rw [if_neg h1, if_neg (fun hc => h1 hc.1)]

theorem Update_stImp (v : VisitedNodes) (node : Nat) (tB tE : Int)
    (ing : Bool) : stImp ing v (v.Update node tB tE ing) := by
  unfold VisitedNodes.Update
  dsimp only
  by_cases hb : (v.visitedNodes.getD node (false, 0)).1 = true
  · rw [if_pos hb]
    cases ing with
    | true =>
      rw [if_pos rfl]
      by_cases hlt : (v.visitedNodes.getD node (false, 0)).2 < tE
      · rw [if_pos hlt]
        refine ⟨by simp, fun i => ?_⟩
        unfold markedB boundOf
        dsimp only
        rw [getD_set_entry]
        by_cases hni : node = i ∧ node < v.visitedNodes.length
        · rw [if_pos hni]
          obtain ⟨rfl, _⟩ := hni
          refine ⟨fun _ => rfl, fun _ => ?_⟩
          rw [if_pos rfl]
          exact le_of_lt hlt
        · rw [if_neg hni]
          refine ⟨fun h => h, fun _ => ?_⟩
          rw [if_pos rfl]
      · rw [if_neg hlt]
        exact stImp_refl true v
    | false =>
      rw [if_neg (by simp)]
      by_cases hlt : tB < (v.visitedNodes.getD node (false, 0)).2
      · rw [if_pos hlt]
        refine ⟨by simp, fun i => ?_⟩
        unfold markedB boundOf
        dsimp only
        rw [getD_set_entry]
        by_cases hni : node = i ∧ node < v.visitedNodes.length
        · rw [if_pos hni]
          obtain ⟨rfl, _⟩ := hni
          refine ⟨fun _ => rfl, fun _ => ?_⟩
          rw [if_neg (by simp)]
          exact le_of_lt hlt
        · rw [if_neg hni]
          refine ⟨fun h => h, fun _ => ?_⟩
          rw [if_neg (by simp)]
      · rw [if_neg hlt]
        exact stImp_refl false v
  · rw [if_neg hb]
    refine ⟨by simp, fun i => ?_⟩
    unfold markedB boundOf
    dsimp only
    rw [getD_set_entry]
    by_cases hni : node = i ∧ node < v.visitedNodes.length
    · rw [if_pos hni]
      obtain ⟨rfl, _⟩ := hni
      exact ⟨fun _ => rfl, fun hm => absurd hm hb⟩
    · rw [if_neg hni]
      refine ⟨fun h => h, fun _ => ?_⟩
      cases ing with
      | true => rw [if_pos rfl]
      | false => rw [if_neg (by simp)]

theorem Update_marks_self (v : VisitedNodes) (node : Nat) (tB tE : Int)
    (ing : Bool) (hn : node < v.visitedNodes.length) :
    markedB (v.Update node tB tE ing) node = true := by
  unfold VisitedNodes.Update markedB
  dsimp only
  by_cases hb : (v.visitedNodes.getD node (false, 0)).1 = true
  · rw [if_pos hb]
    cases ing with
    | true =>
      rw [if_pos rfl]
      by_cases hlt : (v.visitedNodes.getD node (false, 0)).2 < tE
      · rw [if_pos hlt]
        dsimp only
        rw [getD_set_entry, if_pos ⟨rfl, hn⟩]
      · rw [if_neg hlt]
        exact hb
    | false =>
      rw [if_neg (by simp)]
      by_cases hlt : tB < (v.visitedNodes.getD node (false, 0)).2
      · rw [if_pos hlt]
        dsimp only
        rw [getD_set_entry, if_pos ⟨rfl, hn⟩]
      · rw [if_neg hlt]
        exact hb
  · rw [if_neg hb]
    dsimp only
    rw [getD_set_entry, if_pos ⟨rfl, hn⟩]

theorem goCC_stImp_of
    (recur : Nat → Int → Int → VisitedNodes → Bool → Option VisitedNodes)
    (ing : Bool)
    (hP : ∀ node tB tE v out, recur node tB tE v ing = some out →
      stImp ing v out) :
    ∀ (buckets : BucketMap) (tB tE : Int) (v : VisitedNodes)
      (out : VisitedNodes),
      goCC recur buckets tB tE v ing = some out → stImp ing v out := by
  intro buckets
  induction buckets with
  | nil =>
    intro tB tE v out h
    rw [goCC] at h
    cases h
    exact stImp_refl ing v
  | cons q rest ih =>
    obtain ⟨nbr, cs⟩ := q
    intro tB tE v out h
    rw [goCC] at h
    by_cases hv : v.Visit nbr tB tE ing = true
    · rw [if_pos hv] at h
      cases hq : firstQualifying cs tB tE with
      | none =>
        rw [hq] at h
        exact ih tB tE v out h
      | some c =>
        rw [hq] at h
        simp only at h
        cases hrec : recur nbr (narrowWindow cs tB tE ing c).1
            (narrowWindow cs tB tE ing c).2 v ing with
        | none => rw [hrec] at h; cases h
        | some mid =>
          rw [hrec] at h
          exact stImp_trans (hP nbr _ _ v mid hrec) (ih tB tE mid out h)
    · rw [if_neg hv] at h
      exact ih tB tE v out h

theorem contactChain_stImp :
    ∀ (fuel : Nat) (data : Index) (node : Nat) (tB tE : Int)
      (v : VisitedNodes) (ing : Bool) (out : VisitedNodes),
      contactChain fuel data node tB tE v ing = some out → stImp ing v out := by
  intro fuel
  induction fuel with
  | zero =>
    intro data node tB tE v ing out h
    rw [contactChain] at h
    cases h
  | succ f ih =>
    intro data node tB tE v ing out h
    rw [contactChain] at h
    exact stImp_trans (Update_stImp v node tB tE ing)
      (goCC_stImp_of (contactChain f data) ing
        (fun node' tB' tE' v' out' h' => ih data node' tB' tE' v' ing out' h')
        _ tB tE _ out h)

theorem contactChain_marks_self :
    ∀ (fuel : Nat) (data : Index) (node : Nat) (tB tE : Int)
      (v : VisitedNodes) (ing : Bool) (out : VisitedNodes),
      node < v.visitedNodes.length →
      contactChain fuel data node tB tE v ing = some out →
      markedB out node = true := by
  intro fuel data node tB tE v ing out hn h
  cases fuel with
  | zero => rw [contactChain] at h; cases h
  | succ f =>
    rw [contactChain] at h
    have h1 : markedB (v.Update node tB tE ing) node = true :=
      Update_marks_self v node tB tE ing hn
    have h2 := goCC_stImp_of (contactChain f data) ing
      (fun node' tB' tE' v' out' h' =>
        contactChain_stImp f data node' tB' tE' v' ing out' h')
      _ tB tE _ out h
    exact (h2.2 node).1 h1

theorem Visit_false_marked (v : VisitedNodes) (node : Nat) (tB tE : Int)
    (ing : Bool) (h : v.Visit node tB tE ing = false) :
    markedB v node = true := by
  unfold VisitedNodes.Visit at h
  unfold markedB
  by_cases hb : (v.visitedNodes.getD node (false, 0)).1 = true
  · exact hb
  · rw [if_neg hb] at h
    cases h

/-- After running the bucket loop, every neighbor bucket with a
qualifying event has its key marked. -/
theorem goCC_marks_buckets
    (recur : Nat → Int → Int → VisitedNodes → Bool → Option VisitedNodes)
    (ing : Bool) (N : Nat)
    (hPimp : ∀ node tB tE v out, recur node tB tE v ing = some out →
      stImp ing v out)
    (hPmark : ∀ node tB tE v out, node < v.visitedNodes.length →
      recur node tB tE v ing = some out → markedB out node = true) :
    ∀ (buckets : BucketMap) (tB tE : Int) (v : VisitedNodes)
      (out : VisitedNodes),
      v.visitedNodes.length = N →
      (∀ q ∈ buckets, q.1 < N) →
      goCC recur buckets tB tE v ing = some out →
      ∀ p ∈ buckets, (firstQualifying p.2 tB tE).isSome = true →
        markedB out p.1 = true := by
  intro buckets
  induction buckets with
  | nil =>
    intro tB tE v out _ _ _ p hp
    exact absurd hp (by simp)
  | cons q rest ih =>
    obtain ⟨nbr, cs⟩ := q
    intro tB tE v out hlen hkeys h p hp hq
    rw [goCC] at h
    rcases List.mem_cons.mp hp with rfl | hp'
    · by_cases hv : v.Visit nbr tB tE ing = true
      · rw [if_pos hv] at h
        cases hfq : firstQualifying cs tB tE with
        | none => rw [hfq] at hq; cases hq
        | some c =>
          rw [hfq] at h
          simp only at h
          cases hrec : recur nbr (narrowWindow cs tB tE ing c).1
              (narrowWindow cs tB tE ing c).2 v ing with
          | none => rw [hrec] at h; cases h
          | some mid =>
            rw [hrec] at h
            have hm : markedB mid nbr = true :=
              hPmark nbr _ _ v mid
                (by rw [hlen]; exact hkeys (nbr, cs) (List.mem_cons_self _ _))
                hrec
            exact ((goCC_stImp_of recur ing hPimp rest tB tE mid out h).2
              nbr).1 hm
      · rw [if_neg hv] at h
        have hm : markedB v nbr = true := Visit_false_marked v nbr tB tE ing
          (by revert hv; cases v.Visit nbr tB tE ing <;> simp)
        exact ((goCC_stImp_of recur ing hPimp rest tB tE v out h).2 nbr).1 hm
    · by_cases hv : v.Visit nbr tB tE ing = true
      · rw [if_pos hv] at h
        cases hfq : firstQualifying cs tB tE with
        | none =>
          rw [hfq] at h
          exact ih tB tE v out hlen
            (fun q' hq' => hkeys q' (List.mem_cons_of_mem _ hq')) h p hp' hq
        | some c =>
          rw [hfq] at h
          simp only at h
          cases hrec : recur nbr (narrowWindow cs tB tE ing c).1
              (narrowWindow cs tB tE ing c).2 v ing with
          | none => rw [hrec] at h; cases h
          | some mid =>
            rw [hrec] at h
            have hlenmid : mid.visitedNodes.length = N :=
              (hPimp nbr _ _ v mid hrec).1.trans hlen
            exact ih tB tE mid out hlenmid
              (fun q' hq' => hkeys q' (List.mem_cons_of_mem _ hq')) h p hp' hq
      · rw [if_neg hv] at h
        exact ih tB tE v out hlen
          (fun q' hq' => hkeys q' (List.mem_cons_of_mem _ hq')) h p hp' hq

/-! ### Degree, hop-1 reachability and chain size -/

/-- Number of distinct non-root nodes reachable at hop 1: distinct keys
of the root's buckets, self excluded, holding a qualifying event. -/
def hop1Count (data : Index) (root : Nat) (tB tE : Int) : Nat :=
  (((data.getD root []).filter
    (fun p => (root != p.1) && (firstQualifying p.2 tB tE).isSome)).map
      Prod.fst).dedup.length

theorem countMarked_eq_range (l : List (Bool × Int)) :
    (l.filter (fun p => p.1)).length =
      ((List.range l.length).filter
        (fun i => (l.getD i (false, 0)).1)).length := by
  induction l with
  | nil => rfl
  | cons a as ih =>
    rw [List.length_cons, List.range_succ_eq_map, List.filter_cons,
      List.filter_cons]
    have hcomp : List.filter (fun i => (List.getD (a :: as) i (false, 0)).1)
        (List.map Nat.succ (List.range as.length)) =
        List.map Nat.succ (List.filter (fun i => (as.getD i (false, 0)).1)
          (List.range as.length)) := by
      rw [List.filter_map]
      rfl
    by_cases hb : a.1 = true
    · simp only [hb, List.getD_cons_zero, if_pos, decide_True]
      rw [hcomp]
      simp [ih]
    · simp only [Bool.not_eq_true] at hb
      simp only [hb, List.getD_cons_zero, Bool.false_eq_true, if_false]
      rw [hcomp]
      simp [ih]

/-- C6. `degree(root)` equals the number of distinct non-root hop-1
reachable nodes under the same window (so in particular is at most it),
and that number is at most the chain size `N() - 1` reported by the
network summary. -/
theorem degree_hop1_chain (fuel n : Nat) (data : Index) (root : Nat)
    (tB tE : Int) (ing : Bool) (out : VisitedNodes)
    (hnodup : ((data.getD root []).map Prod.fst).Nodup)
    (hroot : root < n)
    (hkeys : ∀ bm ∈ data, ∀ q ∈ bm, q.1 < n)
    (hrun : contactChain fuel data root tB tE (VisitedNodes.init n) ing =
      some out) :
    degree data root tB tE ≤ hop1Count data root tB tE ∧
    hop1Count data root tB tE ≤ out.N - 1 := by
  set keysList := ((data.getD root []).filter
    (fun p => (root != p.1) && (firstQualifying p.2 tB tE).isSome)).map
      Prod.fst with hkl
  have hklnodup : keysList.Nodup :=
    List.Nodup.sublist (List.Sublist.map _ (List.filter_sublist _)) hnodup
  have hdedup : keysList.dedup = keysList := List.dedup_eq_self.mpr hklnodup
  have heq : degree data root tB tE = hop1Count data root tB tE := by
    unfold degree hop1Count
    rw [← hkl, hdedup]
    simp [hkl]
  refine ⟨le_of_eq heq, ?_⟩
  -- every element of keysList is marked in `out`, and so is the root
  have hbkeys : ∀ q ∈ data.getD root [], q.1 < n := by
    intro q' hq'
    have hne : data.getD root [] ≠ [] := by
      intro hcon
      rw [hcon] at hq'
      exact absurd hq' (by simp)
    exact hkeys _ (getD_mem_of_ne_nil data root hne) q' hq'
  have hlen0 : (VisitedNodes.init n).visitedNodes.length = n := by
    unfold VisitedNodes.init; simp
  have hrootmark : markedB out root = true :=
    contactChain_marks_self fuel data root tB tE _ ing out
      (by rw [hlen0]; exact hroot) hrun
  have hkeymark : ∀ k ∈ keysList, markedB out k = true := by
    intro k hk
    rcases List.mem_map.mp hk with ⟨p, hp, rfl⟩
    have hpmem := List.mem_of_mem_filter hp
    cases fuel with
    | zero => rw [contactChain] at hrun; cases hrun
    | succ f =>
      rw [contactChain] at hrun
      refine goCC_marks_buckets (contactChain f data) ing n
        (fun node' tB' tE' v' out' h' =>
          contactChain_stImp f data node' tB' tE' v' ing out' h')
        (fun node' tB' tE' v' out' hn' h' =>
          contactChain_marks_self f data node' tB' tE' v' ing out' hn' h')
        (data.getD root []) tB tE _ out ?_ hbkeys hrun p hpmem ?_
      · rw [Update_length]; exact hlen0
      · have := (List.mem_filter.mp hp).2
        simp only [Bool.and_eq_true] at this
        exact this.2
  have hkeyne : ∀ k ∈ keysList, k ≠ root := by
    intro k hk
    rcases List.mem_map.mp hk with ⟨p, hp, rfl⟩
    have := (List.mem_filter.mp hp).2
    simp only [Bool.and_eq_true, bne_iff_ne, ne_eq] at this
    exact fun hc => this.1 hc.symm
  have hkeylt : ∀ k ∈ keysList, k < n := by
    intro k hk
    rcases List.mem_map.mp hk with ⟨p, hp, rfl⟩
    exact hbkeys p (List.mem_of_mem_filter hp)
  -- counting
  have hcount : out.N = countMarked out := by
    have hinit : (VisitedNodes.init n).numberOfVisitedNodes =
        countMarked (VisitedNodes.init n) := by
      unfold VisitedNodes.init countMarked
      simp [List.filter_replicate]
    exact (contactChain_count fuel data root tB tE _ ing out n hlen0 hroot
      hkeys hinit hrun).1
  have houtlen : out.visitedNodes.length = n := by
    have hst := contactChain_stImp fuel data root tB tE _ ing out hrun
    rw [hst.1]
    exact hlen0
  have hSnodup : (root :: keysList).Nodup := by
    rw [List.nodup_cons]
    exact ⟨fun hc => (hkeyne root hc) rfl, hklnodup⟩
  have hsubset : (root :: keysList).toFinset ⊆
      ((List.range n).filter (fun i => markedB out i)).toFinset := by
    intro x hx
    rw [List.mem_toFinset] at hx ⊢
    rw [List.mem_filter, List.mem_range]
    rcases List.mem_cons.mp hx with rfl | hx'
    · exact ⟨hroot, hrootmark⟩
    · exact ⟨hkeylt x hx', hkeymark x hx'⟩
  have hfnodup : ((List.range n).filter (fun i => markedB out i)).Nodup :=
    List.Nodup.filter _ (List.nodup_range n)
  have hcard := Finset.card_le_card hsubset
  rw [List.toFinset_card_of_nodup hSnodup,
    List.toFinset_card_of_nodup hfnodup] at hcard
  have hcm : countMarked out =
      ((List.range n).filter (fun i => markedB out i)).length := by
    unfold countMarked
    rw [countMarked_eq_range, houtlen]
    rfl
  have hlen : (root :: keysList).length = keysList.length + 1 := by
    simp
  unfold hop1Count
  rw [← hkl, hdedup]
  omega

/-- Witness for `degree_hop1_chain` on the three-event outgoing index. -/
theorem degree_hop1_chain_witness :
    degree witnessDataTC 0 0 100 ≤ hop1Count witnessDataTC 0 0 100 :=
  (degree_hop1_chain 10 3 witnessDataTC 0 0 100 false
      ⟨3, [(true, 0), (true, 10), (true, 5)]⟩
      (by decide) (by decide) (by decide) (by decide)).1

/-! ### Termination: computable fuel bounds for the three traversals -/

/-- All neighbor keys appearing anywhere in the index. -/
def keysU (data : Index) : Finset Nat :=
  (data.foldr (fun bm acc => bm.foldr (fun q acc' => insert q.1 acc') acc)
    ∅)

theorem mem_keysU_aux :
    ∀ (data : Index) (acc : Finset Nat) (bm : BucketMap) (q : Nat × Bucket),
      bm ∈ data → q ∈ bm →
      q.1 ∈ data.foldr
        (fun bm' a => bm'.foldr (fun q' a' => insert q'.1 a') a) acc := by
  intro data
  induction data with
  | nil =>
    intro acc bm q hbm
    exact absurd hbm (by simp)
  | cons b rest ih =>
    intro acc bm q hbm hq
    simp only [List.foldr_cons]
    rcases List.mem_cons.mp hbm with rfl | hbm'
    · clear hbm ih
      induction bm with
      | nil => exact absurd hq (by simp)
      | cons p ps ihp =>
        rcases List.mem_cons.mp hq with rfl | hq'
        · simp
        · simp only [List.foldr_cons]
          exact Finset.mem_insert_of_mem (ihp hq')
    · clear hbm
      induction b with
      | nil => exact ih acc bm q hbm' hq
      | cons p ps ihp =>
        simp only [List.foldr_cons]
        exact Finset.mem_insert_of_mem ihp

theorem mem_keysU (data : Index) (bm : BucketMap) (q : Nat × Bucket)
    (hbm : bm ∈ data) (hq : q ∈ bm) : q.1 ∈ keysU data :=
  mem_keysU_aux data ∅ bm q hbm hq

theorem goSP_isSome_of (U : Finset Nat)
    (recur : Nat → Int → Int → Finset Nat → Nat → Bool → ResultMap →
      Option ResultMap) (fuel : Nat)
    (hP : ∀ (node : Nat) (tB tE : Int) (vis : Finset Nat) (dist : Nat)
      (ing : Bool) (res : ResultMap), node ∉ vis →
      ((insert node U) \ vis).card < fuel →
      (recur node tB tE vis dist ing res).isSome = true) :
    ∀ (buckets : BucketMap) (tB tE : Int) (visited : Finset Nat)
      (dist : Nat) (ing : Bool) (res : ResultMap),
      (∀ q ∈ buckets, q.1 ∈ U) →
      (U \ visited).card < fuel →
      (goSP recur buckets tB tE visited dist ing res).isSome = true := by
  intro buckets
  induction buckets with
  | nil =>
    intro tB tE visited dist ing res _ _
    rw [goSP]
    rfl
  | cons q rest ih =>
    obtain ⟨nbr, cs⟩ := q
    intro tB tE visited dist ing res hkeys hB
    rw [goSP]
    have hkrest := fun q' hq' => hkeys q' (List.mem_cons_of_mem _ hq')
    by_cases hv : nbr ∈ visited
    · rw [if_pos hv]
      exact ih tB tE visited dist ing res hkrest hB
    · rw [if_neg hv]
      cases hq : firstQualifying cs tB tE with
      | none => exact ih tB tE visited dist ing res hkrest hB
      | some c =>
        dsimp only
        have hnbrU : nbr ∈ U := hkeys (nbr, cs) (List.mem_cons_self _ _)
        have hcard : ((insert nbr U) \ visited).card < fuel := by
          rw [Finset.insert_eq_self.mpr hnbrU]
          exact hB
        have hsome := hP nbr (narrowWindow cs tB tE ing c).1
          (narrowWindow cs tB tE ing c).2 visited (dist + 1) ing
          (updateResult res nbr dist (c.rowid + 1)) hv hcard
        cases hrec : recur nbr (narrowWindow cs tB tE ing c).1
            (narrowWindow cs tB tE ing c).2 visited (dist + 1) ing
            (updateResult res nbr dist (c.rowid + 1)) with
        | none => rw [hrec] at hsome; cases hsome
        | some mid => exact ih tB tE visited dist ing mid hkrest hB

theorem doShortestPaths_isSome :
    ∀ (fuel : Nat) (data : Index) (node : Nat) (tB tE : Int)
      (visited : Finset Nat) (dist : Nat) (ing : Bool) (res : ResultMap),
      node ∉ visited →
      ((insert node (keysU data)) \ visited).card < fuel →
      (doShortestPaths fuel data node tB tE visited dist ing res).isSome =
        true := by
  intro fuel
  induction fuel with
  | zero =>
    intro data node tB tE visited dist ing res _ h
    exact absurd h (by omega)
  | succ f ih =>
    intro data node tB tE visited dist ing res hnv hB
    rw [doShortestPaths]
    have hkeys : ∀ q ∈ data.getD node [], q.1 ∈ keysU data := by
      intro q' hq'
      have hne : data.getD node [] ≠ [] := by
        intro hcon
        rw [hcon] at hq'
        exact absurd hq' (by simp)
      exact mem_keysU data _ q' (getD_mem_of_ne_nil data node hne) hq'
    have hnode : node ∈ (insert node (keysU data)) \ visited :=
      Finset.mem_sdiff.mpr ⟨Finset.mem_insert_self _ _, hnv⟩
    have hsub : keysU data \ insert node visited ⊆
        ((insert node (keysU data)) \ visited).erase node := by
      intro x hx
      rw [Finset.mem_sdiff, Finset.mem_insert] at hx
      push_neg at hx
      rw [Finset.mem_erase, Finset.mem_sdiff, Finset.mem_insert]
      exact ⟨hx.2.1, Or.inr hx.1, hx.2.2⟩
    have hcard : (keysU data \ insert node visited).card < f := by
      have h1 := Finset.card_le_card hsub
      have h2 := Finset.card_erase_of_mem hnode
      have h3 := Finset.card_pos.mpr ⟨node, hnode⟩
      omega
    exact goSP_isSome_of (keysU data) (doShortestPaths f data) f
      (fun node' tB' tE' vis' dist' ing' res' hnv' hc' =>
        ih data node' tB' tE' vis' dist' ing' res' hnv' hc')
      _ tB tE _ dist ing res hkeys hcard

theorem goTC_isSome_of (U : Finset Nat)
    (recur : Nat → Int → Int → Finset Nat → Nat → Bool → List Nat →
      List Nat → Int → Option (List Nat × List Nat)) (fuel : Nat)
    (hP : ∀ (node : Nat) (tB tE : Int) (vis : Finset Nat) (dist : Nat)
      (ing : Bool) (rr rd : List Nat) (maxD : Int), node ∉ vis →
      ((insert node U) \ vis).card < fuel →
      (recur node tB tE vis dist ing rr rd maxD).isSome = true) :
    ∀ (buckets : BucketMap) (tB tE : Int) (visited : Finset Nat)
      (dist : Nat) (ing : Bool) (rr rd : List Nat) (maxD : Int),
      (∀ q ∈ buckets, q.1 ∈ U) →
      (U \ visited).card < fuel →
      (goTC recur buckets tB tE visited dist ing rr rd maxD).isSome =
        true := by
  intro buckets
  induction buckets with
  | nil =>
    intro tB tE visited dist ing rr rd maxD _ _
    rw [goTC]
    rfl
  | cons q rest ih =>
    obtain ⟨nbr, cs⟩ := q
    intro tB tE visited dist ing rr rd maxD hkeys hB
    rw [goTC]
    have hkrest := fun q' hq' => hkeys q' (List.mem_cons_of_mem _ hq')
    by_cases hv : nbr ∈ visited
    · rw [if_pos hv]
      exact ih tB tE visited dist ing rr rd maxD hkrest hB
    · rw [if_neg hv]
      cases hq : firstQualifying cs tB tE with
      | none => exact ih tB tE visited dist ing rr rd maxD hkrest hB
      | some c =>
        dsimp only
        by_cases hg : reachedMaxDistance maxD dist = true
        · rw [if_pos hg]
          exact ih tB tE visited dist ing _ _ maxD hkrest hB
        · rw [if_neg hg]
          have hnbrU : nbr ∈ U := hkeys (nbr, cs) (List.mem_cons_self _ _)
          have hcard : ((insert nbr U) \ visited).card < fuel := by
            rw [Finset.insert_eq_self.mpr hnbrU]
            exact hB
          have hsome := hP nbr (narrowWindow cs tB tE ing c).1
            (narrowWindow cs tB tE ing c).2 visited (dist + 1) ing
            (rr ++ (qualSub cs tB tE).map (fun y : Contact => y.rowid + 1))
            (rd ++ (qualSub cs tB tE).map (fun _ => dist)) maxD hv hcard
          cases hrec : recur nbr (narrowWindow cs tB tE ing c).1
              (narrowWindow cs tB tE ing c).2 visited (dist + 1) ing
              (rr ++ (qualSub cs tB tE).map (fun y : Contact => y.rowid + 1))
              (rd ++ (qualSub cs tB tE).map (fun _ => dist)) maxD with
          | none => rw [hrec] at hsome; cases hsome
          | some mid =>
            exact ih tB tE visited dist ing mid.1 mid.2 maxD hkrest hB

theorem doTraceContacts_isSome :
    ∀ (fuel : Nat) (data : Index) (node : Nat) (tB tE : Int)
      (visited : Finset Nat) (dist : Nat) (ing : Bool) (rr rd : List Nat)
      (maxD : Int),
      node ∉ visited →
      ((insert node (keysU data)) \ visited).card < fuel →
      (doTraceContacts fuel data node tB tE visited dist ing rr rd
        maxD).isSome = true := by
  intro fuel
  induction fuel with
  | zero =>
    intro data node tB tE visited dist ing rr rd maxD _ h
    exact absurd h (by omega)
  | succ f ih =>
    intro data node tB tE visited dist ing rr rd maxD hnv hB
    rw [doTraceContacts]
    have hkeys : ∀ q ∈ data.getD node [], q.1 ∈ keysU data := by
      intro q' hq'
      have hne : data.getD node [] ≠ [] := by
        intro hcon
        rw [hcon] at hq'
        exact absurd hq' (by simp)
      exact mem_keysU data _ q' (getD_mem_of_ne_nil data node hne) hq'
    have hnode : node ∈ (insert node (keysU data)) \ visited :=
      Finset.mem_sdiff.mpr ⟨Finset.mem_insert_self _ _, hnv⟩
    have hsub : keysU data \ insert node visited ⊆
        ((insert node (keysU data)) \ visited).erase node := by
      intro x hx
      rw [Finset.mem_sdiff, Finset.mem_insert] at hx
      push_neg at hx
      rw [Finset.mem_erase, Finset.mem_sdiff, Finset.mem_insert]
      exact ⟨hx.2.1, Or.inr hx.1, hx.2.2⟩
    have hcard : (keysU data \ insert node visited).card < f := by
      have h1 := Finset.card_le_card hsub
      have h2 := Finset.card_erase_of_mem hnode
      have h3 := Finset.card_pos.mpr ⟨node, hnode⟩
      omega
    exact goTC_isSome_of (keysU data) (doTraceContacts f data) f
      (fun node' tB' tE' vis' dist' ing' rr' rd' maxD' hnv' hc' =>
        ih data node' tB' tE' vis' dist' ing' rr' rd' maxD' hnv' hc')
      _ tB tE _ dist ing rr rd maxD hkeys hcard

/-- A node whose recorded bound already covers the window in the given
direction: its `Visit` gate cannot pass for this window or any narrower
one, so no call in the current subtree can re-enter it. -/
def blockedAt (v : VisitedNodes) (tB tE : Int) (ing : Bool) (x : Nat) :
    Prop :=
  markedB v x = true ∧ (if ing then tE ≤ boundOf v x else boundOf v x ≤ tB)

instance (v : VisitedNodes) (tB tE : Int) (ing : Bool) (x : Nat) :
    Decidable (blockedAt v tB tE ing x) := by
  unfold blockedAt
  infer_instance

/-- The nodes of `U` not yet blocked for the window. -/
def ubSet (U : Finset Nat) (v : VisitedNodes) (tB tE : Int) (ing : Bool) :
    Finset Nat :=
  U.filter (fun x => ¬ blockedAt v tB tE ing x)

theorem Visit_iff_not_blocked (v : VisitedNodes) (node : Nat) (tB tE : Int)
    (ing : Bool) :
    v.Visit node tB tE ing = true ↔ ¬ blockedAt v tB tE ing node := by
  unfold VisitedNodes.Visit blockedAt markedB boundOf
  dsimp only
  by_cases hb : (v.visitedNodes.getD node (false, 0)).1 = true
  · rw [if_pos hb]
    cases ing with
    | true =>
      rw [if_pos rfl, if_pos rfl, decide_eq_true_eq]
      constructor
      · intro h hcon
        omega
      · intro h
        by_contra hc
        push_neg at hc
        exact h ⟨hb, by omega⟩
    | false =>
      rw [if_neg (by simp), if_neg (by simp), decide_eq_true_eq]
      constructor
      · intro h hcon
        omega
      · intro h
        by_contra hc
        push_neg at hc
        exact h ⟨hb, by omega⟩
  · rw [if_neg hb]
    simp only [true_iff]
    intro hcon
    exact hb hcon.1

theorem Update_noop_of_blocked (v : VisitedNodes) (node : Nat)
    (tB tE : Int) (ing : Bool) (h : blockedAt v tB tE ing node) :
    v.Update node tB tE ing = v := by
  obtain ⟨hm, hbd⟩ := h
  unfold markedB at hm
  unfold boundOf at hbd
  unfold VisitedNodes.Update
  dsimp only
  rw [if_pos hm]
  cases ing with
  | true =>
    rw [if_pos rfl] at hbd ⊢
    rw [if_neg (by omega)]
  | false =>
    rw [if_neg (by simp)] at hbd ⊢
    rw [if_neg (by omega)]

theorem Update_bound_covers (v : VisitedNodes) (node : Nat) (tB tE : Int)
    (ing : Bool) (hn : node < v.visitedNodes.length) :
    (if ing then tE ≤ boundOf (v.Update node tB tE ing) node
     else boundOf (v.Update node tB tE ing) node ≤ tB) := by
  have hself : node = node ∧ node < v.visitedNodes.length := ⟨rfl, hn⟩
  cases ing with
  | true =>
    rw [if_pos rfl]
    unfold VisitedNodes.Update boundOf
    dsimp only
    by_cases hb : (v.visitedNodes.getD node (false, 0)).1 = true
    · rw [if_pos hb, if_pos rfl]
      by_cases hlt : (v.visitedNodes.getD node (false, 0)).2 < tE
      · rw [if_pos hlt]
        dsimp only
        rw [getD_set_entry, if_pos hself]
      · rw [if_neg hlt]
        omega
    · rw [if_neg hb]
      dsimp only
      rw [getD_set_entry, if_pos hself]
      simp
  | false =>
    rw [if_neg (by simp)]
    unfold VisitedNodes.Update boundOf
    dsimp only
    by_cases hb : (v.visitedNodes.getD node (false, 0)).1 = true
    · rw [if_pos hb, if_neg (by simp)]
      by_cases hlt : tB < (v.visitedNodes.getD node (false, 0)).2
      · rw [if_pos hlt]
        dsimp only
        rw [getD_set_entry, if_pos hself]
      · rw [if_neg hlt]
        omega
    · rw [if_neg hb]
      dsimp only
      rw [getD_set_entry, if_pos hself]
      simp

theorem Update_blocks_self (v : VisitedNodes) (node : Nat) (tB tE : Int)
    (ing : Bool) (hn : node < v.visitedNodes.length) :
    blockedAt (v.Update node tB tE ing) tB tE ing node :=
  ⟨Update_marks_self v node tB tE ing hn,
   Update_bound_covers v node tB tE ing hn⟩

theorem blockedAt_mono {ing : Bool} {v w : VisitedNodes}
    {tB tE tB' tE' : Int} {x : Nat} (himp : stImp ing v w)
    (hw : if ing then tE' ≤ tE else tB ≤ tB')
    (h : blockedAt v tB tE ing x) : blockedAt w tB' tE' ing x := by
  obtain ⟨hm, hbd⟩ := h
  refine ⟨(himp.2 x).1 hm, ?_⟩
  have hbb := (himp.2 x).2 hm
  cases ing with
  | true =>
    rw [if_pos rfl] at hbd hbb hw ⊢
    omega
  | false =>
    rw [if_neg (by simp)] at hbd hbb hw ⊢
    omega

/-- The narrowed window is contained in the parent window (the ingoing
side needs the bucket to be sorted). -/
theorem narrowWindow_within (cs : Bucket) (tB tE : Int) (ing : Bool)
    (c : Contact) (hs : SortedByT cs)
    (h : firstQualifying cs tB tE = some c) :
    tB ≤ (narrowWindow cs tB tE ing c).1 ∧
      (narrowWindow cs tB tE ing c).2 ≤ tE := by
  obtain ⟨hge, hle, tail, htl⟩ := firstQualifying_spec cs tB tE c h
  cases ing with
  | false =>
    have hnw : narrowWindow cs tB tE false c = (c.t, tE) := by
      simp [narrowWindow]
    rw [hnw]
    exact ⟨hge, le_rfl⟩
  | true =>
    have hcons := qualSub_eq_cons cs tB tE c h
    have hne : qualSub cs tB tE ≠ [] := by rw [hcons]; simp
    have hlast_mem : (qualSub cs tB tE).getLastD c ∈ qualSub cs tB tE := by
      rw [List.getLastD_eq_getLast?, List.getLast?_eq_getLast _ hne]
      simp only [Option.getD_some]
      exact List.getLast_mem hne
    have hb := qualSub_mem_bounds cs tB tE hs _ hlast_mem
    have hnw : narrowWindow cs tB tE true c =
        (tB, ((qualSub cs tB tE).getLastD c).t) := by
      simp [narrowWindow]
    rw [hnw]
    exact ⟨le_rfl, hb.2⟩

theorem goCC_isSome_of (U W : Finset Nat) (n : Nat) (ing : Bool)
    (recur : Nat → Int → Int → VisitedNodes → Bool → Option VisitedNodes)
    (fuel : Nat)
    (hPimp : ∀ node tB tE v out, recur node tB tE v ing = some out →
      stImp ing v out)
    (hP : ∀ (node : Nat) (tB tE : Int) (v : VisitedNodes), node < n →
      v.visitedNodes.length = n →
      (ubSet (insert node U) v tB tE ing).card +
        (if blockedAt v tB tE ing node then 1 else 0) < fuel →
      (recur node tB tE v ing).isSome = true)
    (hUW : U ⊆ W) :
    ∀ (buckets : BucketMap) (tB tE : Int) (v1 vi : VisitedNodes),
      stImp ing v1 vi →
      v1.visitedNodes.length = n →
      (∀ q ∈ buckets, q.1 ∈ U ∧ q.1 < n ∧ SortedByT q.2) →
      (ubSet W v1 tB tE ing).card < fuel →
      (goCC recur buckets tB tE vi ing).isSome = true := by
  intro buckets
  induction buckets with
  | nil =>
    intro tB tE v1 vi _ _ _ _
    rw [goCC]
    rfl
  | cons q rest ih =>
    obtain ⟨nbr, cs⟩ := q
    intro tB tE v1 vi himp hlen1 hq hcard
    rw [goCC]
    have hqrest := fun q' hq' => hq q' (List.mem_cons_of_mem _ hq')
    by_cases hv : vi.Visit nbr tB tE ing = true
    · rw [if_pos hv]
      cases hfq : firstQualifying cs tB tE with
      | none => exact ih tB tE v1 vi himp hlen1 hqrest hcard
      | some c =>
        dsimp only
        obtain ⟨hnbrU, hnbrn, hsorted⟩ := hq (nbr, cs) (List.mem_cons_self _ _)
        have hnbi : ¬ blockedAt vi tB tE ing nbr :=
          (Visit_iff_not_blocked vi nbr tB tE ing).mp hv
        have hnb1 : ¬ blockedAt v1 tB tE ing nbr := by
          intro hcon
          exact hnbi (blockedAt_mono himp
            (by cases ing with
                | true => rw [if_pos rfl]
                | false => rw [if_neg (by simp)]) hcon)
        have hnbrR : nbr ∈ ubSet W v1 tB tE ing :=
          Finset.mem_filter.mpr ⟨hUW hnbrU, hnb1⟩
        have hwithin := narrowWindow_within cs tB tE ing c hsorted hfq
        have hw : if ing then (narrowWindow cs tB tE ing c).2 ≤ tE
            else tB ≤ (narrowWindow cs tB tE ing c).1 := by
          cases ing with
          | true => rw [if_pos rfl]; exact hwithin.2
          | false => rw [if_neg (by simp)]; exact hwithin.1
        have hsub : ubSet (insert nbr U) vi (narrowWindow cs tB tE ing c).1
            (narrowWindow cs tB tE ing c).2 ing ⊆ ubSet W v1 tB tE ing := by
          intro x hx
          rw [ubSet, Finset.mem_filter] at hx
          rw [ubSet, Finset.mem_filter]
          refine ⟨?_, ?_⟩
          · rcases Finset.mem_insert.mp hx.1 with rfl | hx'
            · exact hUW hnbrU
            · exact hUW hx'
          · intro hcon
            exact hx.2 (blockedAt_mono himp hw hcon)
        have hcost : (ubSet (insert nbr U) vi
              (narrowWindow cs tB tE ing c).1
              (narrowWindow cs tB tE ing c).2 ing).card +
            (if blockedAt vi (narrowWindow cs tB tE ing c).1
              (narrowWindow cs tB tE ing c).2 ing nbr then 1 else 0) <
            fuel := by
          by_cases hcb : blockedAt vi (narrowWindow cs tB tE ing c).1
              (narrowWindow cs tB tE ing c).2 ing nbr
          · rw [if_pos hcb]
            have hsub' : ubSet (insert nbr U) vi
                (narrowWindow cs tB tE ing c).1
                (narrowWindow cs tB tE ing c).2 ing ⊆
                (ubSet W v1 tB tE ing).erase nbr := by
              intro x hx
              rw [Finset.mem_erase]
              refine ⟨?_, hsub hx⟩
              intro hceq
              subst hceq
              rw [ubSet, Finset.mem_filter] at hx
              exact hx.2 hcb
            have h1 := Finset.card_le_card hsub'
            have h2 := Finset.card_erase_of_mem hnbrR
            have h3 := Finset.card_pos.mpr ⟨nbr, hnbrR⟩
            omega
          · rw [if_neg hcb]
            have h1 := Finset.card_le_card hsub
            omega
        have hsome := hP nbr (narrowWindow cs tB tE ing c).1
          (narrowWindow cs tB tE ing c).2 vi hnbrn
          ((himp.1).symm ▸ hlen1) hcost
        cases hrec : recur nbr (narrowWindow cs tB tE ing c).1
            (narrowWindow cs tB tE ing c).2 vi ing with
        | none => rw [hrec] at hsome; cases hsome
        | some mid =>
          exact ih tB tE v1 mid
            (stImp_trans himp (hPimp nbr _ _ vi mid hrec)) hlen1 hqrest hcard
    · rw [if_neg hv]
      exact ih tB tE v1 vi himp hlen1 hqrest hcard

theorem contactChain_isSome (data : Index) (n : Nat) (ing : Bool)
    (hWF : ∀ bm ∈ data, ∀ q ∈ bm, q.1 ∈ keysU data ∧ q.1 < n ∧
      SortedByT q.2) :
    ∀ (fuel : Nat) (node : Nat) (tB tE : Int) (v : VisitedNodes),
      node < n → v.visitedNodes.length = n →
      (ubSet (insert node (keysU data)) v tB tE ing).card +
        (if blockedAt v tB tE ing node then 1 else 0) < fuel →
      (contactChain fuel data node tB tE v ing).isSome = true := by
  intro fuel
  induction fuel with
  | zero =>
    intro node tB tE v _ _ h
    exact absurd h (by omega)
  | succ f ih =>
    intro node tB tE v hn hlen hcost
    rw [contactChain]
    have hbuckets : ∀ q ∈ data.getD node [], q.1 ∈ keysU data ∧ q.1 < n ∧
        SortedByT q.2 := by
      intro q' hq'
      have hne : data.getD node [] ≠ [] := by
        intro hcon
        rw [hcon] at hq'
        exact absurd hq' (by simp)
      exact hWF _ (getD_mem_of_ne_nil data node hne) q' hq'
    have hv1len : (v.Update node tB tE ing).visitedNodes.length = n := by
      rw [Update_length]; exact hlen
    have hcard : (ubSet (insert node (keysU data))
        (v.Update node tB tE ing) tB tE ing).card < f := by
      by_cases hbl : blockedAt v tB tE ing node
      · rw [Update_noop_of_blocked v node tB tE ing hbl]
        rw [if_pos hbl] at hcost
        omega
      · rw [if_neg hbl] at hcost
        have hnodem : node ∈ ubSet (insert node (keysU data)) v tB tE ing :=
          Finset.mem_filter.mpr ⟨Finset.mem_insert_self _ _, hbl⟩
        have hsub : ubSet (insert node (keysU data))
            (v.Update node tB tE ing) tB tE ing ⊆
            (ubSet (insert node (keysU data)) v tB tE ing).erase node := by
          intro x hx
          rw [ubSet, Finset.mem_filter] at hx
          rw [Finset.mem_erase, ubSet, Finset.mem_filter]
          refine ⟨?_, hx.1, ?_⟩
          · intro hceq
            subst hceq
            exact hx.2 (Update_blocks_self v x tB tE ing (by omega))
          · intro hcon
            exact hx.2 (blockedAt_mono (Update_stImp v node tB tE ing)
              (by cases ing with
                  | true => rw [if_pos rfl]
                  | false => rw [if_neg (by simp)]) hcon)
        have h1 := Finset.card_le_card hsub
        have h2 := Finset.card_erase_of_mem hnodem
        have h3 := Finset.card_pos.mpr ⟨node, hnodem⟩
        omega
    exact goCC_isSome_of (keysU data) (insert node (keysU data)) n ing
      (contactChain f data) f
      (fun node' tB' tE' v' out' h' =>
        contactChain_stImp f data node' tB' tE' v' ing out' h')
      (fun node' tB' tE' v' hn' hlen' hcost' =>
        ih node' tB' tE' v' hn' hlen' hcost')
      (Finset.subset_insert _ _)
      (data.getD node []) tB tE _ _
      (stImp_refl ing _) hv1len hbuckets hcard

/-- C9. All three recursive traversals terminate on every finite input:
a computable fuel bound (for the path-visited traversals, the number of
index keys not yet on the current path; for the contact chain, the
number of index keys whose recorded bound does not yet cover the
window) makes each of them return a result rather than run out of
fuel. -/
theorem traversals_terminate
    (data : Index) (node : Nat) (tB tE : Int) (visited : Finset Nat)
    (dist : Nat) (ing : Bool) (res : ResultMap) (rr rd : List Nat)
    (maxD : Int) (fuel1 fuel2 fuel3 n : Nat) (v : VisitedNodes)
    (h1a : node ∉ visited)
    (h1b : ((insert node (keysU data)) \ visited).card < fuel1)
    (h2b : ((insert node (keysU data)) \ visited).card < fuel2)
    (h3a : node < n) (h3b : v.visitedNodes.length = n)
    (h3c : ∀ bm ∈ data, ∀ q ∈ bm, q.1 ∈ keysU data ∧ q.1 < n ∧
      SortedByT q.2)
    (h3d : (ubSet (insert node (keysU data)) v tB tE ing).card +
      (if blockedAt v tB tE ing node then 1 else 0) < fuel3) :
    (doShortestPaths fuel1 data node tB tE visited dist ing res).isSome =
      true ∧
    (doTraceContacts fuel2 data node tB tE visited dist ing rr rd
      maxD).isSome = true ∧
    (contactChain fuel3 data node tB tE v ing).isSome = true :=
  ⟨doShortestPaths_isSome fuel1 data node tB tE visited dist ing res h1a h1b,
   doTraceContacts_isSome fuel2 data node tB tE visited dist ing rr rd maxD
     h1a h2b,
   contactChain_isSome data n ing h3c fuel3 node tB tE v h3a h3b h3d⟩

instance : DecidablePred SortedByT := fun cs => by
  unfold SortedByT
  exact List.instDecidablePairwise cs

/-- Witness for `traversals_terminate` on the three-event outgoing
index. -/
theorem traversals_terminate_witness :
    (doShortestPaths 5 witnessDataTC 0 0 100 ∅ 1 false []).isSome = true ∧
    (doTraceContacts 5 witnessDataTC 0 0 100 ∅ 1 false [] [] 0).isSome =
      true ∧
    (contactChain 5 witnessDataTC 0 0 100 (VisitedNodes.init 3)
      false).isSome = true :=
  traversals_terminate witnessDataTC 0 0 100 ∅ 1 false [] [] [] 0 5 5 5 3
    (VisitedNodes.init 3) (by decide) (by decide) (by decide) (by decide)
    (by decide) (by decide) (by decide)

/-! ### Self-loop events contribute nothing to degree or chain size -/

/-- Remove the self bucket of a node. -/
def removeSelfBM (v : Nat) (bm : BucketMap) : BucketMap :=
  bm.filter (fun p => p.1 != v)

/-- Remove every node's self bucket, position-aware. -/
def removeSelfGo (v : Nat) : Index → Index
  | [] => []
  | bm :: rest => removeSelfBM v bm :: removeSelfGo (v + 1) rest

/-- Remove all self buckets of an index. -/
def removeSelfIdx (idx : Index) : Index :=
  removeSelfGo 0 idx

theorem removeSelfGo_getD :
    ∀ (idx : Index) (v node : Nat),
      (removeSelfGo v idx).getD node [] =
        removeSelfBM (v + node) (idx.getD node []) := by
  intro idx
  induction idx with
  | nil =>
    intro v node
    simp [removeSelfGo, removeSelfBM]
  | cons bm rest ih =>
    intro v node
    cases node with
    | zero => simp [removeSelfGo]
    | succ m =>
      simp only [removeSelfGo, List.getD_cons_succ]
      rw [ih (v + 1) m]
      congr 1
      omega

theorem removeSelfIdx_getD (idx : Index) (node : Nat) :
    (removeSelfIdx idx).getD node [] =
      removeSelfBM node (idx.getD node []) := by
  unfold removeSelfIdx
  rw [removeSelfGo_getD]
  congr 1
  omega

theorem removeSelfGo_length (idx : Index) :
    ∀ v, (removeSelfGo v idx).length = idx.length := by
  induction idx with
  | nil => intro v; rfl
  | cons bm rest ih => intro v; simp [removeSelfGo, ih]

theorem degree_removeSelf (data : Index) (node : Nat) (tB tE : Int) :
    degree (removeSelfIdx data) node tB tE = degree data node tB tE := by
  unfold degree
  rw [removeSelfIdx_getD]
  unfold removeSelfBM
  rw [List.filter_filter]
  congr 1
  apply List.filter_congr
  intro p _
  by_cases hp : p.1 = node
  · subst hp
    simp
  · simp [hp, Ne.symm hp]

theorem window_refl_le (ing : Bool) (tB tE : Int) :
    if ing then tE ≤ tE else tB ≤ tB := by
  cases ing <;> simp

theorem goCC_removeSelf_of (n : Nat) (node : Nat) (ing : Bool)
    (recur1 recur2 : Nat → Int → Int → VisitedNodes → Bool →
      Option VisitedNodes)
    (hrec : ∀ (node' : Nat) (tB' tE' : Int) (v' : VisitedNodes),
      node' < n → v'.visitedNodes.length = n →
      recur1 node' tB' tE' v' ing = recur2 node' tB' tE' v' ing)
    (hPimp : ∀ node' tB' tE' v' out,
      recur1 node' tB' tE' v' ing = some out → stImp ing v' out) :
    ∀ (bm : BucketMap) (tB tE : Int) (vj : VisitedNodes),
      (∀ q ∈ bm, q.1 < n) → vj.visitedNodes.length = n →
      blockedAt vj tB tE ing node →
      goCC recur1 bm tB tE vj ing =
        goCC recur2 (removeSelfBM node bm) tB tE vj ing := by
  intro bm
  induction bm with
  | nil =>
    intro tB tE vj _ _ _
    rfl
  | cons q rest ih =>
    obtain ⟨k, cs⟩ := q
    intro tB tE vj hkeys hlen hbl
    have hkrest := fun q' hq' => hkeys q' (List.mem_cons_of_mem _ hq')
    by_cases hk : k = node
    · subst hk
      have hfilter : removeSelfBM k ((k, cs) :: rest) =
          removeSelfBM k rest := by
        unfold removeSelfBM
        rw [List.filter_cons]
        simp
      rw [hfilter]
      have hv : vj.Visit k tB tE ing = false := by
        rcases Bool.eq_false_or_eq_true (vj.Visit k tB tE ing) with ht | hf
        · exact absurd hbl ((Visit_iff_not_blocked vj k tB tE ing).mp ht)
        · exact hf
      rw [goCC, if_neg (by rw [hv]; exact Bool.false_ne_true)]
      exact ih tB tE vj hkrest hlen hbl
    · have hfilter : removeSelfBM node ((k, cs) :: rest) =
          (k, cs) :: removeSelfBM node rest := by
        unfold removeSelfBM
        rw [List.filter_cons]
        simp [hk]
      rw [hfilter, goCC, goCC]
      by_cases hv : vj.Visit k tB tE ing = true
      · rw [if_pos hv, if_pos hv]
        cases hfq : firstQualifying cs tB tE with
        | none => exact ih tB tE vj hkrest hlen hbl
        | some c =>
          dsimp only
          rw [← hrec k (narrowWindow cs tB tE ing c).1
            (narrowWindow cs tB tE ing c).2 vj
            (hkeys (k, cs) (List.mem_cons_self _ _)) hlen]
          cases hrec1 : recur1 k (narrowWindow cs tB tE ing c).1
              (narrowWindow cs tB tE ing c).2 vj ing with
          | none => rfl
          | some mid =>
            have himp := hPimp k _ _ vj mid hrec1
            exact ih tB tE mid hkrest (himp.1.trans hlen)
              (blockedAt_mono himp (window_refl_le ing tB tE) hbl)
      · rw [if_neg hv, if_neg hv]
        exact ih tB tE vj hkrest hlen hbl

theorem contactChain_removeSelf :
    ∀ (fuel : Nat) (data : Index) (n node : Nat) (tB tE : Int)
      (v : VisitedNodes) (ing : Bool),
      (∀ bm ∈ data, ∀ q ∈ bm, q.1 < n) → node < n →
      v.visitedNodes.length = n →
      contactChain fuel data node tB tE v ing =
        contactChain fuel (removeSelfIdx data) node tB tE v ing := by
  intro fuel
  induction fuel with
  | zero =>
    intro data n node tB tE v ing _ _ _
    rfl
  | succ f ih =>
    intro data n node tB tE v ing hdata hn hlen
    rw [contactChain, contactChain, removeSelfIdx_getD]
    have hbuckets : ∀ q ∈ data.getD node [], q.1 < n := by
      intro q' hq'
      have hne : data.getD node [] ≠ [] := by
        intro hcon
        rw [hcon] at hq'
        exact absurd hq' (by simp)
      exact hdata _ (getD_mem_of_ne_nil data node hne) q' hq'
    exact goCC_removeSelf_of n node ing (contactChain f data)
      (contactChain f (removeSelfIdx data))
      (fun node' tB' tE' v' hn' hlen' =>
        ih data n node' tB' tE' v' ing hdata hn' hlen')
      (fun node' tB' tE' v' out' h' =>
        contactChain_stImp f data node' tB' tE' v' ing out' h')
      (data.getD node []) tB tE _ hbuckets
      (by rw [Update_length]; exact hlen)
      (Update_blocks_self v node tB tE ing (by omega))

/-! ### The chain and degree depend only on keys and timestamp lists -/

/-- The timestamp shape of a bucket map: keys with timestamp lists. -/
def shapeBM (bm : BucketMap) : List (Nat × List Int) :=
  bm.map (fun p => (p.1, p.2.map (fun c => c.t)))

/-- The timestamp shape of an index. -/
def shapeIdx (idx : Index) : List (List (Nat × List Int)) :=
  idx.map shapeBM

theorem afterLowerBound_shape (cs : Bucket) (tB : Int) :
    (afterLowerBound cs tB).map (fun c => c.t) =
      (cs.map (fun c => c.t)).dropWhile (fun x => decide (x < tB)) := by
  unfold afterLowerBound
  rw [List.dropWhile_map]
  have hcomp : ((fun x => decide (x < tB)) ∘ fun c : Contact => c.t) =
      (fun c : Contact => decide (c.t < tB)) := rfl
  rw [hcomp]

theorem firstQualifying_shape (cs : Bucket) (tB tE : Int) :
    (firstQualifying cs tB tE).map (fun c => c.t) =
      (match (cs.map (fun c => c.t)).dropWhile (fun x => decide (x < tB)) with
       | [] => none
       | x :: _ => if x ≤ tE then some x else none) := by
  rw [← afterLowerBound_shape]
  unfold firstQualifying
  cases hd : afterLowerBound cs tB with
  | nil => rfl
  | cons c tail =>
    dsimp only [List.map_cons]
    by_cases hc : c.t ≤ tE
    · rw [if_pos hc, if_pos hc]
      rfl
    · rw [if_neg hc, if_neg hc]
      rfl

theorem qualSub_shape (cs : Bucket) (tB tE : Int) :
    (qualSub cs tB tE).map (fun c => c.t) =
      ((cs.map (fun c => c.t)).dropWhile
        (fun x => decide (x < tB))).takeWhile (fun x => decide (x ≤ tE)) := by
  unfold qualSub
  rw [← afterLowerBound_shape, List.takeWhile_map]
  have hcomp : ((fun x => decide (x ≤ tE)) ∘ fun c : Contact => c.t) =
      (fun c : Contact => decide (c.t ≤ tE)) := rfl
  rw [hcomp]

theorem getLastD_t (l : Bucket) (c : Contact) :
    (l.getLastD c).t = (l.map (fun x => x.t)).getLastD c.t := by
  rw [List.getLastD_eq_getLast?, List.getLastD_eq_getLast?,
    List.getLast?_map]
  cases l.getLast? <;> rfl

theorem firstQualifying_isSome_shape {cs1 cs2 : Bucket}
    (hts : cs1.map (fun c => c.t) = cs2.map (fun c => c.t)) (tB tE : Int) :
    (firstQualifying cs1 tB tE).isSome = (firstQualifying cs2 tB tE).isSome
    := by
  have h1 := firstQualifying_shape cs1 tB tE
  have h2 := firstQualifying_shape cs2 tB tE
  rw [hts] at h1
  rw [← h2] at h1
  calc (firstQualifying cs1 tB tE).isSome
      = ((firstQualifying cs1 tB tE).map (fun c => c.t)).isSome := by
        cases firstQualifying cs1 tB tE <;> rfl
    _ = ((firstQualifying cs2 tB tE).map (fun c => c.t)).isSome := by
        rw [h1]
    _ = (firstQualifying cs2 tB tE).isSome := by
        cases firstQualifying cs2 tB tE <;> rfl

theorem narrowWindow_shape {cs1 cs2 : Bucket}
    (hts : cs1.map (fun c => c.t) = cs2.map (fun c => c.t))
    (tB tE : Int) (ing : Bool) {c1 c2 : Contact}
    (h1 : firstQualifying cs1 tB tE = some c1)
    (h2 : firstQualifying cs2 tB tE = some c2) :
    narrowWindow cs1 tB tE ing c1 = narrowWindow cs2 tB tE ing c2 := by
  have hts' : c1.t = c2.t := by
    have ha := firstQualifying_shape cs1 tB tE
    have hb := firstQualifying_shape cs2 tB tE
    rw [h1] at ha
    rw [h2] at hb
    rw [hts, ← hb] at ha
    exact Option.some.inj ha
  unfold narrowWindow
  cases ing with
  | true =>
    rw [if_pos rfl, if_pos rfl]
    rw [Prod.mk.injEq]
    refine ⟨rfl, ?_⟩
    rw [getLastD_t, getLastD_t, qualSub_shape, qualSub_shape, hts, hts']
  | false =>
    rw [if_neg (by simp), if_neg (by simp), hts']

theorem goCC_shape_of (ing : Bool)
    (recur1 recur2 : Nat → Int → Int → VisitedNodes → Bool →
      Option VisitedNodes)
    (hrec : ∀ node tB tE v, recur1 node tB tE v ing =
      recur2 node tB tE v ing) :
    ∀ (bm1 bm2 : BucketMap) (tB tE : Int) (v : VisitedNodes),
      shapeBM bm1 = shapeBM bm2 →
      goCC recur1 bm1 tB tE v ing = goCC recur2 bm2 tB tE v ing := by
  intro bm1
  induction bm1 with
  | nil =>
    intro bm2 tB tE v hsh
    cases bm2 with
    | nil => rfl
    | cons q2 rest2 => exact absurd hsh (by simp [shapeBM])
  | cons q1 rest1 ih =>
    intro bm2 tB tE v hsh
    cases bm2 with
    | nil => exact absurd hsh (by simp [shapeBM])
    | cons q2 rest2 =>
      obtain ⟨k1, cs1⟩ := q1
      obtain ⟨k2, cs2⟩ := q2
      simp only [shapeBM, List.map_cons, List.cons.injEq, Prod.mk.injEq]
        at hsh
      obtain ⟨⟨hk, hts⟩, hrest⟩ := hsh
      subst hk
      rw [goCC, goCC]
      by_cases hv : v.Visit k1 tB tE ing = true
      · rw [if_pos hv, if_pos hv]
        cases hq1 : firstQualifying cs1 tB tE with
        | none =>
          have hq2 : firstQualifying cs2 tB tE = none := by
            have := firstQualifying_isSome_shape hts tB tE
            rw [hq1] at this
            cases hq2' : firstQualifying cs2 tB tE
            · rfl
            · rw [hq2'] at this; cases this
          rw [hq2]
          exact ih rest2 tB tE v hrest
        | some c1 =>
          have hq2 : ∃ c2, firstQualifying cs2 tB tE = some c2 := by
            have := firstQualifying_isSome_shape hts tB tE
            rw [hq1] at this
            cases hq2' : firstQualifying cs2 tB tE
            · rw [hq2'] at this; cases this
            · exact ⟨_, rfl⟩
          obtain ⟨c2, hq2⟩ := hq2
          rw [hq2]
          dsimp only
          rw [narrowWindow_shape hts tB tE ing hq1 hq2, hrec]
          cases hrec2 : recur2 k1 (narrowWindow cs2 tB tE ing c2).1
              (narrowWindow cs2 tB tE ing c2).2 v ing with
          | none => rfl
          | some mid => exact ih rest2 tB tE mid hrest
      · rw [if_neg hv, if_neg hv]
        exact ih rest2 tB tE v hrest

theorem shapeBM_getD {d1 d2 : Index} (h : shapeIdx d1 = shapeIdx d2)
    (node : Nat) :
    shapeBM (d1.getD node []) = shapeBM (d2.getD node []) := by
  have hmap : ∀ (d : Index),
      shapeBM (d.getD node []) = (shapeIdx d).getD node [] := by
    intro d
    unfold shapeIdx
    rw [List.getD_eq_getElem?_getD, List.getD_eq_getElem?_getD,
      List.getElem?_map]
    cases d[node]? <;> rfl
  rw [hmap, hmap, h]

theorem contactChain_shape :
    ∀ (fuel : Nat) (d1 d2 : Index), shapeIdx d1 = shapeIdx d2 →
      ∀ (node : Nat) (tB tE : Int) (v : VisitedNodes) (ing : Bool),
        contactChain fuel d1 node tB tE v ing =
          contactChain fuel d2 node tB tE v ing := by
  intro fuel
  induction fuel with
  | zero => intro d1 d2 _ node tB tE v ing; rfl
  | succ f ih =>
    intro d1 d2 h node tB tE v ing
    rw [contactChain, contactChain]
    exact goCC_shape_of ing (contactChain f d1) (contactChain f d2)
      (fun node' tB' tE' v' => ih d1 d2 h node' tB' tE' v' ing)
      (d1.getD node []) (d2.getD node []) tB tE _ (shapeBM_getD h node)

theorem degree_shape {d1 d2 : Index} (h : shapeIdx d1 = shapeIdx d2)
    (node : Nat) (tB tE : Int) :
    degree d1 node tB tE = degree d2 node tB tE := by
  unfold degree
  have hsh := shapeBM_getD h node
  revert hsh
  generalize d1.getD node [] = bm1
  generalize d2.getD node [] = bm2
  intro hsh
  induction bm1 generalizing bm2 with
  | nil =>
    cases bm2 with
    | nil => rfl
    | cons q2 rest2 => exact absurd hsh (by simp [shapeBM])
  | cons q1 rest1 ih =>
    cases bm2 with
    | nil => exact absurd hsh (by simp [shapeBM])
    | cons q2 rest2 =>
      obtain ⟨k1, cs1⟩ := q1
      obtain ⟨k2, cs2⟩ := q2
      simp only [shapeBM, List.map_cons, List.cons.injEq, Prod.mk.injEq]
        at hsh
      obtain ⟨⟨hk, hts⟩, hrest⟩ := hsh
      subst hk
      rw [List.filter_cons, List.filter_cons]
      have hq : (firstQualifying cs1 tB tE).isSome =
          (firstQualifying cs2 tB tE).isSome :=
        firstQualifying_isSome_shape hts tB tE
      rw [show ((node != k1) && (firstQualifying cs2 tB tE).isSome) =
        ((node != k1) && (firstQualifying cs1 tB tE).isSome) by rw [hq]]
      by_cases hc : ((node != k1) && (firstQualifying cs1 tB tE).isSome) =
          true
      · rw [if_pos hc, if_pos hc]
        simp only [List.length_cons]
        rw [ih rest2 hrest]
      · rw [if_neg hc, if_neg hc]
        exact ih rest2 hrest

/-! ### Canonical form of the built index -/

/-- Lookup of one neighbor bucket (empty when the key is absent). -/
def findBucket (bm : BucketMap) (k : Nat) : Bucket :=
  ((bm.find? (fun p => p.1 == k)).map Prod.snd).getD []

/-- Bucket-map keys are strictly increasing (std::map order). -/
def KeysSorted (bm : BucketMap) : Prop :=
  (bm.map Prod.fst).Pairwise (· < ·)

/-- No bucket is empty. -/
def NoEmptyBucket (bm : BucketMap) : Prop :=
  ∀ q ∈ bm, q.2 ≠ []

theorem getD_set_generic {α : Type} (l : List α) (node : Nat) (x d : α)
    (i : Nat) :
    (l.set node x).getD i d =
      if node = i ∧ node < l.length then x else l.getD i d := by
  rw [List.getD_eq_getElem?_getD, List.getD_eq_getElem?_getD,
    List.getElem?_set]
  by_cases h1 : node = i
  · subst h1
    by_cases h2 : node < l.length
    · rw [if_pos rfl, if_pos h2, if_pos ⟨rfl, h2⟩]
      rfl
    · rw [if_pos rfl, if_neg h2, if_neg (fun hc => h2 hc.2),
        List.getElem?_eq_none (by omega)]
  · rw [if_neg h1, if_neg (fun hc => h1 hc.1)]

theorem pushContact_getD (idx : Index) (node key : Nat) (c : Contact)
    (v : Nat) :
    (pushContact idx node key c).getD v [] =
      if node = v ∧ node < idx.length then
        addContact (idx.getD node []) key c
      else idx.getD v [] := by
  unfold pushContact
  exact getD_set_generic idx node _ [] v

theorem addContact_keys_mem (m : BucketMap) (key : Nat) (c : Contact) :
    ∀ x ∈ (addContact m key c).map Prod.fst,
      x = key ∨ x ∈ m.map Prod.fst := by
  induction m with
  | nil =>
    intro x hx
    simp only [addContact, List.map_cons, List.map_nil,
      List.mem_singleton] at hx
    exact Or.inl hx
  | cons p rest ih =>
    obtain ⟨k, cs⟩ := p
    intro x hx
    simp only [addContact] at hx
    split_ifs at hx with h1 h2
    · simp only [List.map_cons, List.mem_cons] at hx ⊢
      tauto
    · simp only [List.map_cons, List.mem_cons] at hx ⊢
      tauto
    · simp only [List.map_cons, List.mem_cons] at hx ⊢
      rcases hx with rfl | hx'
      · tauto
      · rcases ih x hx' with h | h
        · exact Or.inl h
        · exact Or.inr (Or.inr h)

theorem addContact_keysSorted (m : BucketMap) (key : Nat) (c : Contact)
    (hm : KeysSorted m) : KeysSorted (addContact m key c) := by
  induction m with
  | nil =>
    unfold KeysSorted addContact
    simp
  | cons p rest ih =>
    obtain ⟨k, cs⟩ := p
    unfold KeysSorted at hm ⊢
    simp only [List.map_cons, List.pairwise_cons] at hm
    obtain ⟨hk, hrest⟩ := hm
    simp only [addContact]
    split_ifs with h1 h2
    · simp only [List.map_cons, List.pairwise_cons, List.mem_cons]
      refine ⟨?_, hk, hrest⟩
      intro a ha
      rcases ha with rfl | ha'
      · exact h1
      · exact h1.trans (hk a ha')
    · subst h2
      simp only [List.map_cons, List.pairwise_cons]
      exact ⟨hk, hrest⟩
    · simp only [List.map_cons, List.pairwise_cons]
      refine ⟨?_, ih hrest⟩
      intro a ha
      rcases addContact_keys_mem rest key c a ha with rfl | ha'
      · omega
      · exact hk a ha'

theorem addContact_noEmpty (m : BucketMap) (key : Nat) (c : Contact)
    (hm : NoEmptyBucket m) : NoEmptyBucket (addContact m key c) := by
  induction m with
  | nil =>
    intro q hq
    simp only [addContact, List.mem_singleton] at hq
    subst hq
    simp
  | cons p rest ih =>
    obtain ⟨k, cs⟩ := p
    intro q hq
    simp only [addContact] at hq
    split_ifs at hq with h1 h2
    · rcases List.mem_cons.mp hq with rfl | hq'
      · simp
      · exact hm q hq'
    · rcases List.mem_cons.mp hq with rfl | hq'
      · simp
      · exact hm q (List.mem_cons_of_mem _ hq')
    · rcases List.mem_cons.mp hq with rfl | hq'
      · exact hm (k, cs) (List.mem_cons_self _ _)
      · exact ih (fun q' h => hm q' (List.mem_cons_of_mem _ h)) q hq'

theorem find?_keys_none (bm : BucketMap) (k : Nat)
    (h : k ∉ bm.map Prod.fst) :
    bm.find? (fun p => p.1 == k) = none := by
  induction bm with
  | nil => rfl
  | cons p rest ih =>
    simp only [List.map_cons, List.mem_cons, not_or] at h
    rw [List.find?_cons_of_neg]
    · exact ih h.2
    · simp only [beq_iff_eq]
      intro hc
      exact h.1 hc.symm

theorem findBucket_nil (k : Nat) : findBucket [] k = [] := rfl

theorem findBucket_cons_self (k' : Nat) (cs' : Bucket) (rest : BucketMap) :
    findBucket ((k', cs') :: rest) k' = cs' := by
  unfold findBucket
  rw [List.find?_cons_of_pos _ (by simp)]
  rfl

theorem findBucket_cons_ne (k' : Nat) (cs' : Bucket) (rest : BucketMap)
    (k : Nat) (h : k' ≠ k) :
    findBucket ((k', cs') :: rest) k = findBucket rest k := by
  unfold findBucket
  rw [List.find?_cons_of_neg]
  simp only [beq_iff_eq]
  exact h

theorem findBucket_eq_nil_of_not_mem (bm : BucketMap) (k : Nat)
    (h : k ∉ bm.map Prod.fst) : findBucket bm k = [] := by
  unfold findBucket
  rw [find?_keys_none bm k h]
  rfl

theorem findBucket_addContact (m : BucketMap) (key : Nat) (c : Contact)
    (hm : KeysSorted m) (k : Nat) :
    findBucket (addContact m key c) k =
      if k = key then findBucket m key ++ [c] else findBucket m k := by
  induction m with
  | nil =>
    by_cases hk : k = key
    · subst hk
      rw [if_pos rfl]
      show findBucket [(k, [c])] k = findBucket [] k ++ [c]
      rw [findBucket_cons_self, findBucket_nil]
      rfl
    · rw [if_neg hk]
      show findBucket [(key, [c])] k = findBucket [] k
      rw [findBucket_cons_ne _ _ _ _ (fun hc => hk hc.symm)]
  | cons p rest ih =>
    obtain ⟨k', cs'⟩ := p
    unfold KeysSorted at hm
    simp only [List.map_cons, List.pairwise_cons] at hm
    obtain ⟨hklt, hrest⟩ := hm
    by_cases h1 : key < k'
    · rw [show addContact ((k', cs') :: rest) key c =
          (key, [c]) :: (k', cs') :: rest by rw [addContact, if_pos h1]]
      by_cases hk : k = key
      · subst hk
        have hnotmem : k ∉ ((k', cs') :: rest).map Prod.fst := by
          simp only [List.map_cons, List.mem_cons, not_or]
          constructor
          · omega
          · intro hc
            have := hklt k hc
            omega
        rw [if_pos rfl, findBucket_cons_self,
          findBucket_eq_nil_of_not_mem _ _ hnotmem]
        rfl
      · rw [if_neg hk, findBucket_cons_ne _ _ _ _ (fun hc => hk hc.symm)]
    · by_cases h2 : key = k'
      · subst h2
        rw [show addContact ((key, cs') :: rest) key c =
            (key, cs' ++ [c]) :: rest by
              rw [addContact, if_neg h1, if_pos rfl]]
        by_cases hk : k = key
        · subst hk
          rw [if_pos rfl, findBucket_cons_self, findBucket_cons_self]
        · rw [if_neg hk, findBucket_cons_ne _ _ _ _ (fun hc => hk hc.symm),
            findBucket_cons_ne _ _ _ _ (fun hc => hk hc.symm)]
      · have h3 : k' < key := by omega
        rw [show addContact ((k', cs') :: rest) key c =
            (k', cs') :: addContact rest key c by
              rw [addContact, if_neg h1, if_neg h2]]
        by_cases hk : k = k'
        · subst hk
          rw [if_neg (by omega), findBucket_cons_self, findBucket_cons_self]
        · rw [findBucket_cons_ne _ _ _ _ (fun hc => hk hc.symm),
            findBucket_cons_ne k' cs' rest key (by omega),
            findBucket_cons_ne k' cs' rest k (fun hc => hk hc.symm)]
          exact ih hrest

/-! ### Invariants of the build fold: sorted keys, no empty bucket -/

/-- Every bucket map of the index has strictly increasing keys. -/
def IdxKeysSorted (idx : Index) : Prop :=
  ∀ bm ∈ idx, KeysSorted bm

/-- No bucket of any bucket map of the index is empty. -/
def IdxNoEmpty (idx : Index) : Prop :=
  ∀ bm ∈ idx, NoEmptyBucket bm

/-- Every key of every bucket map of the index is below `n`. -/
def IdxKeysLt (idx : Index) (n : Nat) : Prop :=
  ∀ bm ∈ idx, ∀ q ∈ bm, q.1 < n

theorem keysSorted_getD (idx : Index) (node : Nat) (h : IdxKeysSorted idx) :
    KeysSorted (idx.getD node []) := by
  by_cases hne : idx.getD node [] = []
  · rw [hne]
    exact List.Pairwise.nil
  · exact h _ (getD_mem_of_ne_nil idx node hne)

theorem noEmpty_getD (idx : Index) (node : Nat) (h : IdxNoEmpty idx) :
    NoEmptyBucket (idx.getD node []) := by
  by_cases hne : idx.getD node [] = []
  · rw [hne]
    exact fun q hq => absurd hq (List.not_mem_nil q)
  · exact h _ (getD_mem_of_ne_nil idx node hne)

theorem keysLt_getD (idx : Index) (node n : Nat) (h : IdxKeysLt idx n) :
    ∀ q ∈ idx.getD node [], q.1 < n := by
  by_cases hne : idx.getD node [] = []
  · rw [hne]
    exact fun q hq => absurd hq (List.not_mem_nil q)
  · exact h _ (getD_mem_of_ne_nil idx node hne)

theorem pushContact_keysSorted (idx : Index) (node key : Nat) (c : Contact)
    (h : IdxKeysSorted idx) : IdxKeysSorted (pushContact idx node key c) := by
  intro bm hbm
  rcases List.mem_or_eq_of_mem_set hbm with hbm' | rfl
  · exact h bm hbm'
  · exact addContact_keysSorted _ key c (keysSorted_getD idx node h)

theorem pushContact_noEmpty (idx : Index) (node key : Nat) (c : Contact)
    (h : IdxNoEmpty idx) : IdxNoEmpty (pushContact idx node key c) := by
  intro bm hbm
  rcases List.mem_or_eq_of_mem_set hbm with hbm' | rfl
  · exact h bm hbm'
  · exact addContact_noEmpty _ key c (noEmpty_getD idx node h)

theorem pushContact_keysLt (idx : Index) (node key : Nat) (c : Contact)
    (n : Nat) (hkey : key < n) (h : IdxKeysLt idx n) :
    IdxKeysLt (pushContact idx node key c) n := by
  intro bm hbm q hq
  rcases List.mem_or_eq_of_mem_set hbm with hbm' | rfl
  · exact h bm hbm' q hq
  · rcases addContact_keys_mem _ key c q.1 (List.mem_map_of_mem _ hq)
      with hk | hx
    · rw [hk]
      exact hkey
    · rcases List.mem_map.mp hx with ⟨q', hq', hfst⟩
      rw [← hfst]
      exact keysLt_getD idx node n h q' hq'

theorem pushContact_length (idx : Index) (node key : Nat) (c : Contact) :
    (pushContact idx node key c).length = idx.length := by
  unfold pushContact
  exact List.length_set idx node _

theorem build_fold_length :
    ∀ (rs : List Row) (p : Index × Index),
      (rs.foldl buildStep p).1.length = p.1.length ∧
      (rs.foldl buildStep p).2.length = p.2.length := by
  intro rs
  induction rs with
  | nil => intro p; exact ⟨rfl, rfl⟩
  | cons r rest ih =>
    intro p
    simp only [List.foldl_cons]
    have h := ih (buildStep p r)
    refine ⟨?_, ?_⟩
    · rw [h.1]
      exact pushContact_length _ _ _ _
    · rw [h.2]
      exact pushContact_length _ _ _ _

theorem build_fold_keys :
    ∀ (rs : List Row) (p : Index × Index),
      IdxKeysSorted p.1 → IdxKeysSorted p.2 →
      IdxNoEmpty p.1 → IdxNoEmpty p.2 →
      IdxKeysSorted (rs.foldl buildStep p).1 ∧
      IdxKeysSorted (rs.foldl buildStep p).2 ∧
      IdxNoEmpty (rs.foldl buildStep p).1 ∧
      IdxNoEmpty (rs.foldl buildStep p).2 := by
  intro rs
  induction rs with
  | nil => intro p h1 h2 h3 h4; exact ⟨h1, h2, h3, h4⟩
  | cons r rest ih =>
    intro p h1 h2 h3 h4
    simp only [List.foldl_cons]
    exact ih (buildStep p r)
      (pushContact_keysSorted _ _ _ _ h1)
      (pushContact_keysSorted _ _ _ _ h2)
      (pushContact_noEmpty _ _ _ _ h3)
      (pushContact_noEmpty _ _ _ _ h4)

theorem build_fold_keysLt (n : Nat) :
    ∀ (rs : List Row) (p : Index × Index),
      (∀ r ∈ rs, r.src - 1 < n ∧ r.dst - 1 < n) →
      IdxKeysLt p.1 n → IdxKeysLt p.2 n →
      IdxKeysLt (rs.foldl buildStep p).1 n ∧
      IdxKeysLt (rs.foldl buildStep p).2 n := by
  intro rs
  induction rs with
  | nil => intro p _ h1 h2; exact ⟨h1, h2⟩
  | cons r rest ih =>
    intro p hr h1 h2
    simp only [List.foldl_cons]
    have hhd := hr r (List.mem_cons_self _ _)
    exact ih (buildStep p r)
      (fun r' hr' => hr r' (List.mem_cons_of_mem _ hr'))
      (pushContact_keysLt _ _ _ _ n hhd.1 h1)
      (pushContact_keysLt _ _ _ _ n hhd.2 h2)

/-! ### The bucket contents of the built index, as a filter of the rows -/

/-- Row selector for the ingoing bucket of node `v`, key `k`. -/
def inMatch (v k : Nat) (r : Row) : Bool :=
  (r.dst - 1 == v) && (r.src - 1 == k)

/-- Row selector for the outgoing bucket of node `v`, key `k`. -/
def outMatch (v k : Nat) (r : Row) : Bool :=
  (r.src - 1 == v) && (r.dst - 1 == k)

/-- The contact stored in the ingoing index for a row. -/
def inContact (r : Row) : Contact :=
  ⟨r.rowid, r.src - 1, r.t⟩

/-- The contact stored in the outgoing index for a row. -/
def outContact (r : Row) : Contact :=
  ⟨r.rowid, r.dst - 1, r.t⟩

theorem buildStep_findBucket_in (p : Index × Index) (r : Row) (v k : Nat)
    (hv : v < p.1.length) (hs : IdxKeysSorted p.1) :
    findBucket ((buildStep p r).1.getD v []) k =
      findBucket (p.1.getD v []) k ++
        (if inMatch v k r then [inContact r] else []) := by
  show findBucket
    ((pushContact p.1 (r.dst - 1) (r.src - 1) (inContact r)).getD v []) k = _
  rw [pushContact_getD]
  by_cases hd : r.dst - 1 = v
  · rw [if_pos ⟨hd, by omega⟩, hd,
      findBucket_addContact _ _ _ (keysSorted_getD p.1 v hs) k]
    by_cases hk : k = r.src - 1
    · rw [if_pos hk, ← hk,
        if_pos (show inMatch v k r = true by
          simp only [inMatch, Bool.and_eq_true, beq_iff_eq]
          exact ⟨hd, hk.symm⟩)]
    · rw [if_neg hk,
        if_neg (show ¬inMatch v k r = true by
          simp only [inMatch, Bool.and_eq_true, beq_iff_eq, not_and]
          exact fun _ hc => hk hc.symm),
        List.append_nil]
  · rw [if_neg (fun hc => hd hc.1),
      if_neg (show ¬inMatch v k r = true by
        simp only [inMatch, Bool.and_eq_true, beq_iff_eq, not_and]
        exact fun hc => absurd hc hd),
      List.append_nil]

theorem buildStep_findBucket_out (p : Index × Index) (r : Row) (v k : Nat)
    (hv : v < p.2.length) (hs : IdxKeysSorted p.2) :
    findBucket ((buildStep p r).2.getD v []) k =
      findBucket (p.2.getD v []) k ++
        (if outMatch v k r then [outContact r] else []) := by
  show findBucket
    ((pushContact p.2 (r.src - 1) (r.dst - 1) (outContact r)).getD v []) k = _
  rw [pushContact_getD]
  by_cases hd : r.src - 1 = v
  · rw [if_pos ⟨hd, by omega⟩, hd,
      findBucket_addContact _ _ _ (keysSorted_getD p.2 v hs) k]
    by_cases hk : k = r.dst - 1
    · rw [if_pos hk, ← hk,
        if_pos (show outMatch v k r = true by
          simp only [outMatch, Bool.and_eq_true, beq_iff_eq]
          exact ⟨hd, hk.symm⟩)]
    · rw [if_neg hk,
        if_neg (show ¬outMatch v k r = true by
          simp only [outMatch, Bool.and_eq_true, beq_iff_eq, not_and]
          exact fun _ hc => hk hc.symm),
        List.append_nil]
  · rw [if_neg (fun hc => hd hc.1),
      if_neg (show ¬outMatch v k r = true by
        simp only [outMatch, Bool.and_eq_true, beq_iff_eq, not_and]
        exact fun hc => absurd hc hd),
      List.append_nil]

theorem build_fold_findBucket :
    ∀ (rs : List Row) (p : Index × Index) (v k : Nat),
      v < p.1.length → v < p.2.length →
      IdxKeysSorted p.1 → IdxKeysSorted p.2 →
      findBucket ((rs.foldl buildStep p).1.getD v []) k =
        findBucket (p.1.getD v []) k ++
          (rs.filter (inMatch v k)).map inContact ∧
      findBucket ((rs.foldl buildStep p).2.getD v []) k =
        findBucket (p.2.getD v []) k ++
          (rs.filter (outMatch v k)).map outContact := by
  intro rs
  induction rs with
  | nil =>
    intro p v k _ _ _ _
    exact ⟨by simp, by simp⟩
  | cons r rest ih =>
    intro p v k hv1 hv2 hs1 hs2
    simp only [List.foldl_cons, List.filter_cons]
    have hlen1 : (buildStep p r).1.length = p.1.length :=
      pushContact_length _ _ _ _
    have hlen2 : (buildStep p r).2.length = p.2.length :=
      pushContact_length _ _ _ _
    have hstep := ih (buildStep p r) v k (by omega) (by omega)
      (pushContact_keysSorted _ _ _ _ hs1)
      (pushContact_keysSorted _ _ _ _ hs2)
    constructor
    · rw [hstep.1, buildStep_findBucket_in p r v k hv1 hs1]
      by_cases hm : inMatch v k r = true
      · rw [if_pos hm, if_pos hm]
        simp
      · rw [if_neg hm, if_neg hm, List.append_nil]
    · rw [hstep.2, buildStep_findBucket_out p r v k hv2 hs2]
      by_cases hm : outMatch v k r = true
      · rw [if_pos hm, if_pos hm]
        simp
      · rw [if_neg hm, if_neg hm, List.append_nil]

theorem replicate_prop {α : Type} {P : α → Prop} (n : Nat) (a : α)
    (h : P a) : ∀ x ∈ List.replicate n a, P x := by
  intro x hx
  rw [List.eq_of_mem_replicate hx]
  exact h

theorem buildContactsLookup_findBucket (n : Nat)
    (events : List (Nat × Nat × Int)) (v k : Nat) (hv : v < n) :
    findBucket ((buildContactsLookup n events).1.getD v []) k =
      ((List.insertionSort rowLE (indexRows events)).filter
        (inMatch v k)).map inContact ∧
    findBucket ((buildContactsLookup n events).2.getD v []) k =
      ((List.insertionSort rowLE (indexRows events)).filter
        (outMatch v k)).map outContact := by
  have hinit : IdxKeysSorted (List.replicate n ([] : BucketMap)) :=
    replicate_prop n [] List.Pairwise.nil
  have h := build_fold_findBucket
    (List.insertionSort rowLE (indexRows events))
    (List.replicate n [], List.replicate n []) v k
    (by simpa using hv) (by simpa using hv) hinit hinit
  have hgetD : (List.replicate n ([] : BucketMap)).getD v [] = [] := by
    rw [List.getD_eq_getElem?_getD, List.getElem?_replicate, if_pos hv]
    rfl
  dsimp only at h
  rw [hgetD, findBucket_nil, List.nil_append, List.nil_append] at h
  exact h

/-! ### From rows back to raw events: the timestamp multiset per bucket -/

/-- Event selector matching `inMatch` on the indexed rows. -/
def evIn (v k : Nat) (e : Nat × Nat × Int) : Bool :=
  (e.2.1 - 1 == v) && (e.1 - 1 == k)

/-- Event selector matching `outMatch` on the indexed rows. -/
def evOut (v k : Nat) (e : Nat × Nat × Int) : Bool :=
  (e.1 - 1 == v) && (e.2.1 - 1 == k)

theorem indexRows_filter_t (events : List (Nat × Nat × Int))
    (P : Row → Bool) (Q : Nat × Nat × Int → Bool)
    (hPQ : ∀ (i : Nat) (e : Nat × Nat × Int),
      P ⟨i, e.1, e.2.1, e.2.2⟩ = Q e) :
    ((indexRows events).filter P).map (fun r => r.t) =
      (events.filter Q).map (fun e => e.2.2) := by
  unfold indexRows
  rw [List.filter_map, List.map_map]
  conv_rhs => rw [← List.enum_map_snd events]
  rw [List.filter_map, List.map_map]
  have hfil : events.enum.filter
      (P ∘ fun p => (⟨p.1, p.2.1, p.2.2.1, p.2.2.2⟩ : Row)) =
      events.enum.filter (Q ∘ Prod.snd) := by
    apply List.filter_congr
    intro p _
    exact hPQ p.1 p.2
  rw [hfil]
  rfl

theorem rowLE_t {a b : Row} (h : rowLE a b) : a.t ≤ b.t := by
  rcases h with h | ⟨h, _⟩
  · exact le_of_lt h
  · exact le_of_eq h

theorem filter_map_t_sorted (rs : List Row) (P : Row → Bool)
    (h : rs.Pairwise rowLE) :
    ((rs.filter P).map (fun r => r.t)).Pairwise (· ≤ (· : Int)) :=
  List.Pairwise.map _ (fun _ _ hab => rowLE_t hab) (List.Pairwise.filter P h)

theorem sort_filter_map_t_perm (rs : List Row) (P : Row → Bool) :
    List.Perm (((List.insertionSort rowLE rs).filter P).map (fun r => r.t))
      ((rs.filter P).map (fun r => r.t)) :=
  ((List.perm_insertionSort rowLE rs).filter P).map _

/-- The sorted timestamp list of one built bucket, determined by the raw
events matched by `Q` (any stable reordering of the rows gives the same
list). -/
theorem sorted_rows_ts (events1 events2 : List (Nat × Nat × Int))
    (P : Row → Bool) (Q : Nat × Nat × Int → Bool)
    (hPQ : ∀ (i : Nat) (e : Nat × Nat × Int),
      P ⟨i, e.1, e.2.1, e.2.2⟩ = Q e)
    (hQ : events1.filter Q = events2.filter Q) :
    ((List.insertionSort rowLE (indexRows events1)).filter P).map
        (fun r => r.t) =
      ((List.insertionSort rowLE (indexRows events2)).filter P).map
        (fun r => r.t) := by
  have hperm1 := sort_filter_map_t_perm (indexRows events1) P
  have hperm2 := sort_filter_map_t_perm (indexRows events2) P
  rw [indexRows_filter_t events1 P Q hPQ] at hperm1
  rw [indexRows_filter_t events2 P Q hPQ, ← hQ] at hperm2
  have hperm : List.Perm
      (((List.insertionSort rowLE (indexRows events1)).filter P).map
        (fun r => r.t))
      (((List.insertionSort rowLE (indexRows events2)).filter P).map
        (fun r => r.t)) := hperm1.trans hperm2.symm
  exact List.eq_of_perm_of_sorted hperm
    (filter_map_t_sorted _ P (List.sorted_insertionSort rowLE _))
    (filter_map_t_sorted _ P (List.sorted_insertionSort rowLE _))

theorem inMatch_evIn (v k : Nat) (i : Nat) (e : Nat × Nat × Int) :
    inMatch v k ⟨i, e.1, e.2.1, e.2.2⟩ = evIn v k e := rfl

theorem outMatch_evOut (v k : Nat) (i : Nat) (e : Nat × Nat × Int) :
    outMatch v k ⟨i, e.1, e.2.1, e.2.2⟩ = evOut v k e := rfl

/-- Self-loop events never match a bucket whose key differs from its
node, so dropping them does not change those buckets. -/
theorem filterSelf_filter_ev (events : List (Nat × Nat × Int)) (n : Nat)
    (hev : ∀ e ∈ events, 1 ≤ e.1 ∧ e.1 ≤ n ∧ 1 ≤ e.2.1 ∧ e.2.1 ≤ n)
    (v k : Nat) (hvk : k ≠ v) :
    (events.filter (fun e => e.1 != e.2.1)).filter (evIn v k) =
      events.filter (evIn v k) ∧
    (events.filter (fun e => e.1 != e.2.1)).filter (evOut v k) =
      events.filter (evOut v k) := by
  constructor
  · rw [List.filter_filter]
    apply List.filter_congr
    intro e he
    have h := hev e he
    by_cases hm : evIn v k e = true
    · rw [hm, Bool.true_and]
      simp only [evIn, Bool.and_eq_true, beq_iff_eq] at hm
      simp only [bne_iff_ne, ne_eq]
      omega
    · rw [Bool.not_eq_true] at hm
      rw [hm, Bool.false_and]
  · rw [List.filter_filter]
    apply List.filter_congr
    intro e he
    have h := hev e he
    by_cases hm : evOut v k e = true
    · rw [hm, Bool.true_and]
      simp only [evOut, Bool.and_eq_true, beq_iff_eq] at hm
      simp only [bne_iff_ne, ne_eq]
      omega
    · rw [Bool.not_eq_true] at hm
      rw [hm, Bool.false_and]

/-- With self-loops removed, nothing is left in a node's self bucket. -/
theorem filterSelf_filter_self (events : List (Nat × Nat × Int)) (n : Nat)
    (hev : ∀ e ∈ events, 1 ≤ e.1 ∧ e.1 ≤ n ∧ 1 ≤ e.2.1 ∧ e.2.1 ≤ n)
    (v : Nat) :
    (events.filter (fun e => e.1 != e.2.1)).filter (evIn v v) = [] ∧
    (events.filter (fun e => e.1 != e.2.1)).filter (evOut v v) = [] := by
  constructor
  · rw [List.filter_filter]
    rw [List.filter_eq_nil_iff]
    intro e he
    have h := hev e he
    simp only [evIn, Bool.and_eq_true, beq_iff_eq, bne_iff_ne, ne_eq,
      not_and]
    intro hm
    omega
  · rw [List.filter_filter]
    rw [List.filter_eq_nil_iff]
    intro e he
    have h := hev e he
    simp only [evOut, Bool.and_eq_true, beq_iff_eq, bne_iff_ne, ne_eq,
      not_and]
    intro hm
    omega

/-! ### Extensionality of bucket maps through `findBucket` -/

theorem findBucket_removeSelfBM (v : Nat) (bm : BucketMap) (k : Nat) :
    findBucket (removeSelfBM v bm) k =
      if k = v then [] else findBucket bm k := by
  induction bm with
  | nil =>
    by_cases hk : k = v
    · rw [if_pos hk]
      rfl
    · rw [if_neg hk]
      rfl
  | cons q rest ih =>
    obtain ⟨k', cs'⟩ := q
    show findBucket (List.filter (fun p => p.1 != v) ((k', cs') :: rest)) k
      = _
    rw [List.filter_cons]
    by_cases hkv : k' = v
    · rw [if_neg (by simp [hkv])]
      rw [show List.filter (fun p => p.1 != v) rest = removeSelfBM v rest
        from rfl, ih]
      by_cases hk : k = v
      · rw [if_pos hk, if_pos hk]
      · rw [if_neg hk, if_neg hk,
          findBucket_cons_ne k' cs' rest k (by omega)]
    · rw [if_pos (by simp [hkv])]
      by_cases hk : k = k'
      · rw [if_neg (by omega), hk, findBucket_cons_self,
          findBucket_cons_self]
      · rw [findBucket_cons_ne _ _ _ _ (fun hc => hk hc.symm),
          show List.filter (fun p => p.1 != v) rest = removeSelfBM v rest
            from rfl, ih]
        by_cases h2 : k = v
        · rw [if_pos h2, if_pos h2]
        · rw [if_neg h2, if_neg h2,
            findBucket_cons_ne _ _ _ _ (fun hc => hk hc.symm)]

theorem removeSelfBM_keysSorted (v : Nat) (bm : BucketMap)
    (h : KeysSorted bm) : KeysSorted (removeSelfBM v bm) :=
  List.Pairwise.sublist
    (List.Sublist.map Prod.fst (List.filter_sublist bm)) h

theorem removeSelfBM_noEmpty (v : Nat) (bm : BucketMap)
    (h : NoEmptyBucket bm) : NoEmptyBucket (removeSelfBM v bm) :=
  fun q hq => h q (List.mem_of_mem_filter hq)

theorem map_t_ne_nil {cs : Bucket} (h : cs ≠ []) :
    cs.map (fun c => c.t) ≠ [] := by
  cases cs with
  | nil => exact absurd rfl h
  | cons c tl => exact fun hc => List.noConfusion hc

/-- Two key-sorted bucket maps without empty buckets that agree on the
timestamp list of every lookup have the same shape. -/
theorem shapeBM_ext :
    ∀ (bm1 bm2 : BucketMap), KeysSorted bm1 → KeysSorted bm2 →
      NoEmptyBucket bm1 → NoEmptyBucket bm2 →
      (∀ k, (findBucket bm1 k).map (fun c => c.t) =
        (findBucket bm2 k).map (fun c => c.t)) →
      shapeBM bm1 = shapeBM bm2 := by
  intro bm1
  induction bm1 with
  | nil =>
    intro bm2 _ _ _ hne2 hfb
    cases bm2 with
    | nil => rfl
    | cons q2 r2 =>
      obtain ⟨k2, cs2⟩ := q2
      exfalso
      have h := hfb k2
      rw [findBucket_nil, findBucket_cons_self] at h
      exact map_t_ne_nil (hne2 (k2, cs2) (List.mem_cons_self _ _)) h.symm
  | cons q1 r1 ih =>
    intro bm2 hs1 hs2 hne1 hne2 hfb
    obtain ⟨k1, cs1⟩ := q1
    cases bm2 with
    | nil =>
      exfalso
      have h := hfb k1
      rw [findBucket_nil, findBucket_cons_self] at h
      exact map_t_ne_nil (hne1 (k1, cs1) (List.mem_cons_self _ _)) h
    | cons q2 r2 =>
      obtain ⟨k2, cs2⟩ := q2
      have hs1' : (r1.map Prod.fst).Pairwise (· < ·) ∧
          ∀ a ∈ r1.map Prod.fst, k1 < a := by
        unfold KeysSorted at hs1
        rw [List.map_cons, List.pairwise_cons] at hs1
        exact ⟨hs1.2, hs1.1⟩
      have hs2' : (r2.map Prod.fst).Pairwise (· < ·) ∧
          ∀ a ∈ r2.map Prod.fst, k2 < a := by
        unfold KeysSorted at hs2
        rw [List.map_cons, List.pairwise_cons] at hs2
        exact ⟨hs2.2, hs2.1⟩
      have hk : k1 = k2 := by
        by_contra hkk
        rcases Nat.lt_or_ge k1 k2 with hlt | hge
        · have h := hfb k1
          rw [findBucket_cons_self,
            findBucket_cons_ne k2 cs2 r2 k1 (by omega),
            findBucket_eq_nil_of_not_mem r2 k1
              (fun hc => by have := hs2'.2 k1 hc; omega)] at h
          exact map_t_ne_nil
            (hne1 (k1, cs1) (List.mem_cons_self _ _)) h
        · have hlt2 : k2 < k1 := by omega
          have h := hfb k2
          rw [findBucket_cons_self,
            findBucket_cons_ne k1 cs1 r1 k2 (by omega),
            findBucket_eq_nil_of_not_mem r1 k2
              (fun hc => by have := hs1'.2 k2 hc; omega)] at h
          exact map_t_ne_nil
            (hne2 (k2, cs2) (List.mem_cons_self _ _)) h.symm
      subst hk
      have hcs : cs1.map (fun c => c.t) = cs2.map (fun c => c.t) := by
        have h := hfb k1
        rw [findBucket_cons_self, findBucket_cons_self] at h
        exact h
      have htail : shapeBM r1 = shapeBM r2 := by
        apply ih r2 hs1'.1 hs2'.1
          (fun q hq => hne1 q (List.mem_cons_of_mem _ hq))
          (fun q hq => hne2 q (List.mem_cons_of_mem _ hq))
        intro k
        by_cases hkk : k = k1
        · rw [hkk,
            findBucket_eq_nil_of_not_mem r1 k1
              (fun hc => by have := hs1'.2 k1 hc; omega),
            findBucket_eq_nil_of_not_mem r2 k1
              (fun hc => by have := hs2'.2 k1 hc; omega)]
        · have h := hfb k
          rw [findBucket_cons_ne k1 cs1 r1 k (fun hc => hkk hc.symm),
            findBucket_cons_ne k1 cs2 r2 k (fun hc => hkk hc.symm)] at h
          exact h
      show (k1, cs1.map (fun c => c.t)) :: shapeBM r1 =
        (k1, cs2.map (fun c => c.t)) :: shapeBM r2
      rw [hcs, htail]

theorem getD_eq_nil_of_le (idx : Index) (v : Nat)
    (h : idx.length ≤ v) : idx.getD v [] = [] := by
  rw [List.getD_eq_getElem?_getD, List.getElem?_eq_none h]
  rfl

theorem shapeIdx_ext (d1 d2 : Index) (hlen : d1.length = d2.length)
    (h : ∀ v, shapeBM (d1.getD v []) = shapeBM (d2.getD v [])) :
    shapeIdx d1 = shapeIdx d2 := by
  unfold shapeIdx
  apply List.ext_getElem?
  intro i
  rw [List.getElem?_map, List.getElem?_map]
  by_cases hi : i < d1.length
  · rw [List.getElem?_eq_getElem hi, List.getElem?_eq_getElem (by omega)]
    have hh := h i
    rw [List.getD_eq_getElem?_getD, List.getD_eq_getElem?_getD,
      List.getElem?_eq_getElem hi,
      List.getElem?_eq_getElem (show i < d2.length by omega)] at hh
    exact congrArg some hh
  · rw [List.getElem?_eq_none (by omega), List.getElem?_eq_none (by omega)]

/-! ### The built index, with self buckets removed, from self-loop-free
events -/

theorem buildContactsLookup_length (n : Nat)
    (events : List (Nat × Nat × Int)) :
    (buildContactsLookup n events).1.length = n ∧
    (buildContactsLookup n events).2.length = n := by
  unfold buildContactsLookup
  have h := build_fold_length (List.insertionSort rowLE (indexRows events))
    (List.replicate n [], List.replicate n [])
  dsimp only at h
  simp only [List.length_replicate] at h
  exact h

theorem buildContactsLookup_keys (n : Nat)
    (events : List (Nat × Nat × Int)) :
    IdxKeysSorted (buildContactsLookup n events).1 ∧
    IdxKeysSorted (buildContactsLookup n events).2 ∧
    IdxNoEmpty (buildContactsLookup n events).1 ∧
    IdxNoEmpty (buildContactsLookup n events).2 := by
  unfold buildContactsLookup
  refine build_fold_keys _ _ ?_ ?_ ?_ ?_
  · exact replicate_prop n [] List.Pairwise.nil
  · exact replicate_prop n [] List.Pairwise.nil
  · exact replicate_prop n [] (fun q hq => absurd hq (List.not_mem_nil q))
  · exact replicate_prop n [] (fun q hq => absurd hq (List.not_mem_nil q))

theorem buildContactsLookup_keysLt (n : Nat)
    (events : List (Nat × Nat × Int))
    (hev : ∀ e ∈ events, 1 ≤ e.1 ∧ e.1 ≤ n ∧ 1 ≤ e.2.1 ∧ e.2.1 ≤ n) :
    IdxKeysLt (buildContactsLookup n events).1 n ∧
    IdxKeysLt (buildContactsLookup n events).2 n := by
  unfold buildContactsLookup
  refine build_fold_keysLt n _ _ ?_ ?_ ?_
  · intro r hr
    have hr' : r ∈ indexRows events :=
      (List.perm_insertionSort rowLE (indexRows events)).mem_iff.mp hr
    unfold indexRows at hr'
    rcases List.mem_map.mp hr' with ⟨p, hp, rfl⟩
    have hpe : p.2 ∈ events := by
      have hm := List.mem_map_of_mem Prod.snd hp
      rw [List.enum_map_snd] at hm
      exact hm
    have h := hev p.2 hpe
    dsimp only
    omega
  · exact replicate_prop n []
      (fun q hq => absurd hq (List.not_mem_nil q))
  · exact replicate_prop n []
      (fun q hq => absurd hq (List.not_mem_nil q))

theorem map_contact_t_in (rs : List Row) :
    (rs.map inContact).map (fun c => c.t) = rs.map (fun r => r.t) := by
  rw [List.map_map]
  rfl

theorem map_contact_t_out (rs : List Row) :
    (rs.map outContact).map (fun c => c.t) = rs.map (fun r => r.t) := by
  rw [List.map_map]
  rfl

theorem removeSelfIdx_length (idx : Index) :
    (removeSelfIdx idx).length = idx.length :=
  removeSelfGo_length idx 0

/-- Building from the self-loop-free events gives the same shape (keys
and timestamp lists everywhere) as building from all events and then
deleting every self bucket. -/
theorem build_shape (n : Nat) (events : List (Nat × Nat × Int))
    (hev : ∀ e ∈ events, 1 ≤ e.1 ∧ e.1 ≤ n ∧ 1 ≤ e.2.1 ∧ e.2.1 ≤ n) :
    shapeIdx (buildContactsLookup n
        (events.filter (fun e => e.1 != e.2.1))).1 =
      shapeIdx (removeSelfIdx (buildContactsLookup n events).1) ∧
    shapeIdx (buildContactsLookup n
        (events.filter (fun e => e.1 != e.2.1))).2 =
      shapeIdx (removeSelfIdx (buildContactsLookup n events).2) := by
  have hkeysE := buildContactsLookup_keys n events
  have hkeysF := buildContactsLookup_keys n
    (events.filter (fun e => e.1 != e.2.1))
  have hlenE := buildContactsLookup_length n events
  have hlenF := buildContactsLookup_length n
    (events.filter (fun e => e.1 != e.2.1))
  constructor
  · apply shapeIdx_ext
    · rw [hlenF.1, removeSelfIdx_length, hlenE.1]
    · intro v
      by_cases hv : v < n
      · rw [removeSelfIdx_getD]
        apply shapeBM_ext
        · exact keysSorted_getD _ v hkeysF.1
        · exact removeSelfBM_keysSorted v _ (keysSorted_getD _ v hkeysE.1)
        · exact noEmpty_getD _ v hkeysF.2.2.1
        · exact removeSelfBM_noEmpty v _
            (noEmpty_getD _ v hkeysE.2.2.1)
        · intro k
          rw [findBucket_removeSelfBM,
            (buildContactsLookup_findBucket n _ v k hv).1]
          by_cases hk : k = v
          · subst hk
            rw [if_pos rfl, map_contact_t_in]
            have hp := sort_filter_map_t_perm
              (indexRows (events.filter (fun e => e.1 != e.2.1)))
              (inMatch k k)
            rw [indexRows_filter_t _ (inMatch k k) (evIn k k)
                (fun i e => inMatch_evIn k k i e),
              (filterSelf_filter_self events n hev k).1,
              List.map_nil] at hp
            exact hp.eq_nil
          · rw [if_neg hk,
              (buildContactsLookup_findBucket n events v k hv).1,
              map_contact_t_in, map_contact_t_in]
            exact sorted_rows_ts _ events (inMatch v k) (evIn v k)
              (fun i e => inMatch_evIn v k i e)
              (filterSelf_filter_ev events n hev v k hk).1
      · rw [getD_eq_nil_of_le _ v (by rw [hlenF.1]; omega),
          getD_eq_nil_of_le _ v
            (by rw [removeSelfIdx_length, hlenE.1]; omega)]
  · apply shapeIdx_ext
    · rw [hlenF.2, removeSelfIdx_length, hlenE.2]
    · intro v
      by_cases hv : v < n
      · rw [removeSelfIdx_getD]
        apply shapeBM_ext
        · exact keysSorted_getD _ v hkeysF.2.1
        · exact removeSelfBM_keysSorted v _
            (keysSorted_getD _ v hkeysE.2.1)
        · exact noEmpty_getD _ v hkeysF.2.2.2
        · exact removeSelfBM_noEmpty v _
            (noEmpty_getD _ v hkeysE.2.2.2)
        · intro k
          rw [findBucket_removeSelfBM,
            (buildContactsLookup_findBucket n _ v k hv).2]
          by_cases hk : k = v
          · subst hk
            rw [if_pos rfl, map_contact_t_out]
            have hp := sort_filter_map_t_perm
              (indexRows (events.filter (fun e => e.1 != e.2.1)))
              (outMatch k k)
            rw [indexRows_filter_t _ (outMatch k k) (evOut k k)
                (fun i e => outMatch_evOut k k i e),
              (filterSelf_filter_self events n hev k).2,
              List.map_nil] at hp
            exact hp.eq_nil
          · rw [if_neg hk,
              (buildContactsLookup_findBucket n events v k hv).2,
              map_contact_t_out, map_contact_t_out]
            exact sorted_rows_ts _ events (outMatch v k) (evOut v k)
              (fun i e => outMatch_evOut v k i e)
              (filterSelf_filter_ev events n hev v k hk).2
      · rw [getD_eq_nil_of_le _ v (by rw [hlenF.2]; omega),
          getD_eq_nil_of_le _ v
            (by rw [removeSelfIdx_length, hlenE.2]; omega)]

/-! ### C7: self-loop events contribute nothing to the network summary -/

theorem init_length (n : Nat) :
    (VisitedNodes.init n).visitedNodes.length = n := by
  unfold VisitedNodes.init
  exact List.length_replicate n _

theorem networkSummaryRun_congr (fuel n : Nat)
    (in1 out1 in2 out2 : Index)
    (hcin : ∀ (root : Nat) (tB tE : Int), root < n →
      contactChain fuel in1 root tB tE (VisitedNodes.init n) true =
        contactChain fuel in2 root tB tE (VisitedNodes.init n) true)
    (hcout : ∀ (root : Nat) (tB tE : Int), root < n →
      contactChain fuel out1 root tB tE (VisitedNodes.init n) false =
        contactChain fuel out2 root tB tE (VisitedNodes.init n) false)
    (hdin : ∀ (root : Nat) (tB tE : Int),
      degree in1 root tB tE = degree in2 root tB tE)
    (hdout : ∀ (root : Nat) (tB tE : Int),
      degree out1 root tB tE = degree out2 root tB tE) :
    ∀ (queries : List Query) (acc : NSOut),
      (∀ q ∈ queries, 1 ≤ q.root ∧ q.root ≤ n) →
      networkSummaryRun fuel n in1 out1 queries acc =
        networkSummaryRun fuel n in2 out2 queries acc := by
  intro queries
  induction queries with
  | nil =>
    intro acc _
    rfl
  | cons q rest ih =>
    intro acc hq
    have hroot := hq q (List.mem_cons_self _ _)
    rw [networkSummaryRun, networkSummaryRun,
      hcin (q.root - 1) q.inBegin q.inEnd (by omega),
      hcout (q.root - 1) q.outBegin q.outEnd (by omega)]
    cases contactChain fuel in2 (q.root - 1) q.inBegin q.inEnd
        (VisitedNodes.init n) true with
    | none => rfl
    | some vin =>
      cases contactChain fuel out2 (q.root - 1) q.outBegin q.outEnd
          (VisitedNodes.init n) false with
      | none => rfl
      | some vout =>
        dsimp only
        rw [hdin (q.root - 1) q.inBegin q.inEnd,
          hdout (q.root - 1) q.outBegin q.outEnd]
        exact ih _ (fun q' hq' => hq q' (List.mem_cons_of_mem _ hq'))

/-- C7. Self-loop contact events (source equal to destination) never
contribute to the reported degrees or contact-chain sizes: removing all
self-loop events from the input leaves every `networkSummary` output
unchanged, for any in-range input batch and query set. -/
theorem selfloops_no_contribution (fuel n : Nat)
    (events : List (Nat × Nat × Int)) (queries : List Query)
    (hev : ∀ e ∈ events, 1 ≤ e.1 ∧ e.1 ≤ n ∧ 1 ≤ e.2.1 ∧ e.2.1 ≤ n)
    (hq : ∀ q ∈ queries, 1 ≤ q.root ∧ q.root ≤ n) :
    networkSummary fuel n (events.filter (fun e => e.1 != e.2.1)) queries =
      networkSummary fuel n events queries := by
  have hshape := build_shape n events hev
  have hkeysLt := buildContactsLookup_keysLt n events hev
  show networkSummaryRun fuel n
      (buildContactsLookup n (events.filter (fun e => e.1 != e.2.1))).1
      (buildContactsLookup n (events.filter (fun e => e.1 != e.2.1))).2
      queries ⟨[], [], [], []⟩ =
    networkSummaryRun fuel n
      (buildContactsLookup n events).1
      (buildContactsLookup n events).2
      queries ⟨[], [], [], []⟩
  apply networkSummaryRun_congr
  · intro root tB tE hroot
    exact (contactChain_shape fuel _ _ hshape.1 root tB tE
        (VisitedNodes.init n) true).trans
      (contactChain_removeSelf fuel _ n root tB tE _ true
        hkeysLt.1 hroot (init_length n)).symm
  · intro root tB tE hroot
    exact (contactChain_shape fuel _ _ hshape.2 root tB tE
        (VisitedNodes.init n) false).trans
      (contactChain_removeSelf fuel _ n root tB tE _ false
        hkeysLt.2 hroot (init_length n)).symm
  · intro root tB tE
    exact (degree_shape hshape.1 root tB tE).trans
      (degree_removeSelf _ root tB tE)
  · intro root tB tE
    exact (degree_shape hshape.2 root tB tE).trans
      (degree_removeSelf _ root tB tE)
  · exact hq

/-- Witness for `selfloops_no_contribution`: two nodes, one self-loop
event and one ordinary event; dropping the self-loop changes no summary
output. -/
theorem selfloops_no_contribution_witness :
    (∀ e ∈ [((1 : Nat), (1 : Nat), (5 : Int)), (1, 2, 10)],
      1 ≤ e.1 ∧ e.1 ≤ 2 ∧ 1 ≤ e.2.1 ∧ e.2.1 ≤ 2) ∧
    (∀ q ∈ [(⟨1, 0, 100, 0, 100⟩ : Query)], 1 ≤ q.root ∧ q.root ≤ 2) ∧
    networkSummary 4 2
        ([((1 : Nat), (1 : Nat), (5 : Int)), (1, 2, 10)].filter
          (fun e => e.1 != e.2.1))
        [(⟨1, 0, 100, 0, 100⟩ : Query)] =
      networkSummary 4 2 [((1 : Nat), (1 : Nat), (5 : Int)), (1, 2, 10)]
        [(⟨1, 0, 100, 0, 100⟩ : Query)] :=
  ⟨by decide, by decide,
   selfloops_no_contribution 4 2 _ _ (by decide) (by decide)⟩

end EpiContactTrace
